import Mathlib

/-!
# VirtualMemory: hierarchical page tables over a simulated physical memory

A shallow embedding of `VirtualMemory.cpp` (address slicing, the frame-allocation
engine `getEmptyFrame` with its `DFS`, and the translation driver `ReadWrite`),
followed by the properties proved about it.

* Unsigned 64-bit arithmetic (`uint64_t`) is modelled on `Nat` with explicit
  reduction modulo `2 ^ 64` wherever the source can wrap.
* The constants of `MemoryConstants.h` and the physical-memory service of
  `PhysicalMemory.h` are not part of the sources; they are modelled from the
  specification (see `Config` and `PM`).
* Stateful code is written in state-passing style over `PM`.
-/

namespace VirtualMemory

/-! ## Part I: definitions -/

/-! ## Constants -/

/-- Modelled from the spec: the build-configuration constants of the absent
`MemoryConstants.h` (`OFFSET_WIDTH`, `VIRTUAL_ADDRESS_WIDTH`, `TABLES_DEPTH`,
`NUM_FRAMES`); the remaining constants are derived from these below. -/
structure Config where
  OFFSET_WIDTH : Nat
  VIRTUAL_ADDRESS_WIDTH : Nat
  TABLES_DEPTH : Nat
  NUM_FRAMES : Nat

/-- Modelled from the spec: `PAGE_SIZE = 2^OFFSET_WIDTH`, words per frame. -/
def PAGE_SIZE (cfg : Config) : Nat := 2 ^ cfg.OFFSET_WIDTH

/-- Modelled from the spec: size of the virtual address space,
`2^VIRTUAL_ADDRESS_WIDTH` words. -/
def VIRTUAL_MEMORY_SIZE (cfg : Config) : Nat := 2 ^ cfg.VIRTUAL_ADDRESS_WIDTH

/-- Modelled from the spec: number of virtual pages in the address space. -/
def NUM_PAGES (cfg : Config) : Nat := VIRTUAL_MEMORY_SIZE cfg / PAGE_SIZE cfg

/-- Modulus of `uint64_t` arithmetic. -/
def U64 : Nat := 2 ^ 64

/-- Modelled from the spec: `word_t`, "a signed integer wide enough to hold any
frame number", is declared in the absent header; its width is taken to be that of
a 32-bit `int`. -/
def WORD_WIDTH : Nat := 32

/-- The `uint64_t` obtained by `PMread(addr, (word_t *) &next_frame)` on a
`next_frame` whose upper bits are zero: the bit pattern of the word read. (The
upper bits are zero in `DFS`, where `next_frame` starts at 0 and is only ever
read into; in `ReadWrite` they are so as long as `getEmptyFrame` returns less than
`2^32`, which it does whenever `NUM_FRAMES ≤ 2^32`.) -/
def wordToU64 (w : Int) : Nat := (w % ((2 ^ WORD_WIDTH : Nat) : Int)).toNat

/-- The implicit conversion `uint64_t -> word_t` at `PMwrite(addr, next_frame)`. -/
def u64ToWord (n : Nat) : Int := Int.bmod (n : Int) (2 ^ WORD_WIDTH)

def SUCCESS : Nat := 1

def FAILURE : Nat := 0

def READ : Nat := 2

def WRITE : Nat := 3

/-! ## Physical-memory service -/

/-- A mutating call made to the physical-memory service. -/
inductive PMOp where
  | write (addr : Nat) (value : Int)
  | evict (frame page : Nat)
  | restore (frame page : Nat)
  deriving DecidableEq, Repr

/-- Modelled from the spec: the state of the physical-memory service of the absent
`PhysicalMemory.cpp`. `ram` is the array of words addressed as
`frame * PAGE_SIZE + offset`; `swap` is the backing store, holding for a page the
frame contents most recently saved for it; `unstored` gives the ("unspecified")
contents a restore produces for a page that was never saved, as a function of the
current memory, the frame, the page and the offset; `log` is a ghost record of
the mutating calls made so far, oldest first. -/
structure PM where
  ram : Nat → Int
  swap : Nat → Option (Nat → Int)
  unstored : (Nat → Int) → Nat → Nat → Nat → Int
  log : List PMOp

/-- Modelled from the spec: `read_word(physical_address) → word`. -/
def PMread (pm : PM) (physicalAddress : Nat) : Int := pm.ram physicalAddress

/-- Modelled from the spec: `write_word(physical_address, word)`. -/
def PMwrite (pm : PM) (physicalAddress : Nat) (value : Int) : PM :=
  { pm with
    ram := fun a => if a = physicalAddress then value else pm.ram a
    log := pm.log ++ [PMOp.write physicalAddress value] }

/-- Modelled from the spec: `evict_page(frame, virtual_page_number)` copies the
frame's contents to backing store under the given page identifier. -/
def PMevict (cfg : Config) (pm : PM) (frameIndex evictedPageIndex : Nat) : PM :=
  { pm with
    swap := fun q =>
      if q = evictedPageIndex then some (fun o => pm.ram (frameIndex * PAGE_SIZE cfg + o))
      else pm.swap q
    log := pm.log ++ [PMOp.evict frameIndex evictedPageIndex] }

/-- Modelled from the spec: `restore_page(frame, virtual_page_number)` copies the
stored contents for the given page identifier into the frame; if the page has
never been stored, the resulting contents are unspecified. -/
def PMrestore (cfg : Config) (pm : PM) (frameIndex restoredPageIndex : Nat) : PM :=
  { pm with
    ram := fun a =>
      if frameIndex * PAGE_SIZE cfg ≤ a ∧ a < frameIndex * PAGE_SIZE cfg + PAGE_SIZE cfg then
        match pm.swap restoredPageIndex with
        | some c => c (a - frameIndex * PAGE_SIZE cfg)
        | none => pm.unstored pm.ram frameIndex restoredPageIndex (a - frameIndex * PAGE_SIZE cfg)
      else pm.ram a
    log := pm.log ++ [PMOp.restore frameIndex restoredPageIndex] }

/-! ## Addressing primitives -/

/-- The macro `MIN(a, b)`, `(a) < (b) ? (a) : (b)`. -/
def MIN (a b : Nat) : Nat := if a < b then a else b

/-- The macro `GET_BITS(index, num_of_bits, number)`,
`((1 << num_of_bits) - 1) & (number >> index)`. -/
def GET_BITS (index num_of_bits number : Nat) : Nat :=
  ((1 <<< num_of_bits) - 1) &&& (number >>> index)

/-- `getOffset(virtual_address, depth)`; `idx` and `bits` are `int`s in the source
and stay non-negative for `depth ≤ TABLES_DEPTH` and
`TABLES_DEPTH * OFFSET_WIDTH ≤ VIRTUAL_ADDRESS_WIDTH`. -/
def getOffset (cfg : Config) (virtual_address depth : Nat) : Nat :=
  let idx := (cfg.TABLES_DEPTH - depth) * cfg.OFFSET_WIDTH
  let bits := MIN (cfg.VIRTUAL_ADDRESS_WIDTH - idx) cfg.OFFSET_WIDTH
  GET_BITS idx bits virtual_address % PAGE_SIZE cfg

/-- `getPhysicalAddress(frame, offset)`, in `uint64_t` arithmetic. -/
def getPhysicalAddress (cfg : Config) (frame offset : Nat) : Nat :=
  (frame * PAGE_SIZE cfg + offset) % U64

/-- `getCyclicDistance(page_swapped_in, p)`, in `uint64_t` arithmetic. -/
def getCyclicDistance (cfg : Config) (page_swapped_in p : Nat) : Nat :=
  let diff :=
    if p > page_swapped_in then (p + U64 - page_swapped_in) % U64
    else (page_swapped_in + U64 - p) % U64
  MIN ((NUM_PAGES cfg + U64 - diff) % U64) diff

/-- `clearTable(frameIndex)`: writes 0 to the `PAGE_SIZE` words of the frame. -/
def clearTable (cfg : Config) (pm : PM) (frameIndex : Nat) : PM :=
  (List.range (PAGE_SIZE cfg)).foldl
    (fun acc i => PMwrite acc (getPhysicalAddress cfg frameIndex i) 0) pm

/-! ## Frame-allocation engine -/

/-- `struct Frame`. -/
structure Frame where
  father_pm_address : Nat
  number : Nat
  deriving DecidableEq, Repr

/-- `struct Page`. -/
structure Page where
  frame : Frame
  page_num : Nat
  deriving DecidableEq, Repr

/-- The four by-reference outputs of `DFS`: `empty_frame`, `evict_page`,
`max_frame` and `max_dist`. -/
structure DfsState where
  empty_frame : Frame
  evict_page : Page
  max_frame : Nat
  max_dist : Nat
  deriving DecidableEq, Repr

/-- The base case of `DFS` (`d == TABLES_DEPTH`): the current frame is a leaf. -/
def DFSleaf (cfg : Config) (page source_frame : Nat) (st : DfsState)
    (father curr_frame curr_vAddress : Nat) : DfsState :=
  let dist := getCyclicDistance cfg curr_vAddress page
  if dist > st.max_dist ∧ curr_frame ≠ source_frame then
    { st with
      max_dist := dist
      evict_page := { frame := { father_pm_address := father, number := curr_frame },
                      page_num := curr_vAddress } }
  else st

/-- The test after the loop of `DFS`: record the current frame as the empty frame
when it is empty, is not the source frame, and no empty frame was recorded yet. -/
def DFSempty (source_frame : Nat) (st : DfsState) (is_empty : Bool)
    (father curr_frame : Nat) : DfsState :=
  if is_empty = true ∧ curr_frame ≠ source_frame ∧ st.empty_frame.number = 0 then
    { st with empty_frame := { father_pm_address := father, number := curr_frame } }
  else st

/-- `DFS(page, source_frame, empty_frame, evict_page, max_frame, max_dist, d, father,
curr_frame, curr_vAddress)`, reading the memory `ram`. The first argument bounds
the recursion depth: every recursive call is at depth `d + 1` and the recursion
stops at `d = TABLES_DEPTH`, so `TABLES_DEPTH - d` always suffices. The loop over
the `PAGE_SIZE` offsets threads the outputs together with the local `is_empty`. -/
def DFS (cfg : Config) (ram : Nat → Int) (page source_frame : Nat) :
    Nat → DfsState → Nat → Nat → Nat → Nat → DfsState
  | 0, st, d, father, curr_frame, curr_vAddress =>
    if d = cfg.TABLES_DEPTH then DFSleaf cfg page source_frame st father curr_frame curr_vAddress
    else st
  | fuel + 1, st, d, father, curr_frame, curr_vAddress =>
    if d = cfg.TABLES_DEPTH then DFSleaf cfg page source_frame st father curr_frame curr_vAddress
    else
      let r := (List.range (PAGE_SIZE cfg)).foldl
        (fun (acc : DfsState × Bool) offset =>
          let pm_address := getPhysicalAddress cfg curr_frame offset
          let next_frame := wordToU64 (ram pm_address)
          if next_frame ≠ 0 then
            let st1 :=
              if next_frame > acc.1.max_frame then { acc.1 with max_frame := next_frame }
              else acc.1
            (DFS cfg ram page source_frame fuel st1 (d + 1) pm_address next_frame
              (((curr_vAddress <<< cfg.OFFSET_WIDTH) % U64) ||| offset), false)
          else acc)
        (st, true)
      DFSempty source_frame r.1 r.2 father curr_frame

/-- The initial outputs passed by `getEmptyFrame` to `DFS`. -/
def DfsState.init : DfsState :=
  { empty_frame := { father_pm_address := 0, number := 0 }
    evict_page := { frame := { father_pm_address := 0, number := 0 }, page_num := 0 }
    max_frame := 0
    max_dist := 0 }

/-- The traversal `getEmptyFrame` starts: `DFS(..., 0, 0, 0, 0)` from the root. -/
def DFSroot (cfg : Config) (ram : Nat → Int) (page source_frame : Nat) : DfsState :=
  DFS cfg ram page source_frame cfg.TABLES_DEPTH DfsState.init 0 0 0 0

/-- The three-way decision of `getEmptyFrame` after the traversal: the memory
after the parent-slot write and eviction (if any), and `empty_frame.number`. -/
def chooseFrame (cfg : Config) (pm : PM) (st : DfsState) : PM × Nat :=
  if st.empty_frame.number ≠ 0 then
    (PMwrite pm st.empty_frame.father_pm_address 0, st.empty_frame.number)
  else if st.max_frame < (cfg.NUM_FRAMES + U64 - 1) % U64 then
    (pm, (st.max_frame + 1) % U64)
  else if st.evict_page.frame.number ≠ 0 then
    (PMevict cfg (PMwrite pm st.evict_page.frame.father_pm_address 0)
      st.evict_page.frame.number st.evict_page.page_num, st.evict_page.frame.number)
  else (pm, 0)

/-- `getEmptyFrame(page, source_frame, depth)`: the memory afterwards and the frame
number returned. -/
def getEmptyFrame (cfg : Config) (pm : PM) (page source_frame depth : Nat) : PM × Nat :=
  let st := DFSroot cfg pm.ram page source_frame
  let r := chooseFrame cfg pm st
  if depth < cfg.TABLES_DEPTH - 1 then (clearTable cfg r.1 r.2, r.2) else r

/-! ## Translation driver -/

/-- `VMinitialize()`. -/
def VMinitialize (cfg : Config) (pm : PM) : PM := clearTable cfg pm 0

/-- The macro `INVALID(virtualAddress, value)`; `none` is the null pointer. -/
def INVALID (cfg : Config) (virtualAddress : Nat) (value : Option Int) : Bool :=
  decide (virtualAddress ≥ VIRTUAL_MEMORY_SIZE cfg) || value.isNone

/-- One iteration `i` of the loop of `ReadWrite`, on the memory and the variable
`frame` (equal to `next_frame` at the end of every iteration). -/
def walkStep (cfg : Config) (virtualAddress page : Nat) (acc : PM × Nat) (i : Nat) : PM × Nat :=
  let offset := getOffset cfg virtualAddress i
  let pm_address := getPhysicalAddress cfg acc.2 offset
  let next_frame := wordToU64 (PMread acc.1 pm_address)
  if next_frame = 0 then
    let r := getEmptyFrame cfg acc.1 page acc.2 i
    let pm2 := PMwrite r.1 pm_address (u64ToWord r.2)
    let pm3 := if i = cfg.TABLES_DEPTH - 1 then PMrestore cfg pm2 r.2 page else pm2
    (pm3, r.2)
  else (acc.1, next_frame)

/-- The memory and the frame reached after the first `k` iterations of the loop of
`ReadWrite`. -/
def walkUpTo (cfg : Config) (pm : PM) (virtualAddress k : Nat) : PM × Nat :=
  (List.range k).foldl (walkStep cfg virtualAddress (virtualAddress >>> cfg.OFFSET_WIDTH)) (pm, 0)

/-- What a call of `ReadWrite` leaves behind: the memory, the returned status and
the word behind the pointer `value` (`none` for the null pointer). -/
structure RWResult where
  pm : PM
  ret : Nat
  value : Option Int

/-- `ReadWrite(virtualAddress, value, action)`. The argument `value` is the word
behind the pointer on entry, or `none` for the null pointer. -/
def ReadWrite (cfg : Config) (pm : PM) (virtualAddress : Nat) (value : Option Int)
    (action : Nat) : RWResult :=
  if INVALID cfg virtualAddress value = true then
    { pm := pm, ret := FAILURE, value := value }
  else
    let w := walkUpTo cfg pm virtualAddress cfg.TABLES_DEPTH
    let offset := getOffset cfg virtualAddress cfg.TABLES_DEPTH
    let pm_address := getPhysicalAddress cfg w.2 offset
    if action = READ then
      { pm := w.1, ret := SUCCESS, value := some (PMread w.1 pm_address) }
    else
      { pm := PMwrite w.1 pm_address (value.getD 0), ret := SUCCESS, value := value }

/-- `VMread(virtualAddress, value)`. -/
def VMread (cfg : Config) (pm : PM) (virtualAddress : Nat) (value : Option Int) : RWResult :=
  ReadWrite cfg pm virtualAddress value READ

/-- `VMwrite(virtualAddress, value)`: the word is passed by address, never null. -/
def VMwrite (cfg : Config) (pm : PM) (virtualAddress : Nat) (value : Int) : RWResult :=
  ReadWrite cfg pm virtualAddress (some value) WRITE

/-- Modelled from the spec: the standing relations between the build constants of
the absent `MemoryConstants.h` (as a header of this kind derives them): `TABLES_DEPTH = ⌈(VIRTUAL_ADDRESS_WIDTH - OFFSET_WIDTH) / OFFSET_WIDTH⌉`
is at least one, the shifts of the source stay inside their types, the root frame
exists, and every frame number fits a (signed) word. -/
structure Config.WF (cfg : Config) : Prop where
  td_pos : 1 ≤ cfg.TABLES_DEPTH
  vaw_gt : cfg.TABLES_DEPTH * cfg.OFFSET_WIDTH < cfg.VIRTUAL_ADDRESS_WIDTH
  vaw_le : cfg.VIRTUAL_ADDRESS_WIDTH ≤ (cfg.TABLES_DEPTH + 1) * cfg.OFFSET_WIDTH
  vaw_63 : cfg.VIRTUAL_ADDRESS_WIDTH ≤ 63
  ow_le : cfg.OFFSET_WIDTH ≤ 30
  nf_pos : 1 ≤ cfg.NUM_FRAMES
  nf_le : cfg.NUM_FRAMES ≤ 2 ^ 31

/-- The frame number a table slot holds, as `DFS` and `ReadWrite` read it:
the word at `getPhysicalAddress(frame, offset)` seen as a `uint64_t`. -/
def entry (cfg : Config) (ram : Nat → Int) (frame offset : Nat) : Nat :=
  wordToU64 (ram (getPhysicalAddress cfg frame offset))

/-- `Descends cfg ram d f q g`: starting in the table `f` at depth `d` and following
the non-zero slots `q` one after the other leads to the frame `g`, never
descending below depth `TABLES_DEPTH`. -/
inductive Descends (cfg : Config) (ram : Nat → Int) : Nat → Nat → List Nat → Nat → Prop
  | nil (d f : Nat) : Descends cfg ram d f [] f
  | cons {d f o : Nat} {q : List Nat} {g : Nat} :
      d < cfg.TABLES_DEPTH → o < PAGE_SIZE cfg → entry cfg ram f o ≠ 0 →
      Descends cfg ram (d + 1) (entry cfg ram f o) q g → Descends cfg ram d f (o :: q) g

/-- `Reach cfg ram p g`: the frame `g` is reached from the root (frame 0) along the
slots `p`. -/
def Reach (cfg : Config) (ram : Nat → Int) (p : List Nat) (g : Nat) : Prop :=
  Descends cfg ram 0 0 p g

/-- The things `DFS` does, in the order in which it does them: it reads a non-zero
slot (`edge`, updating `max_frame`), it reaches a leaf (`leaf`, the base case), or
it finishes the loop over a table (`table`, with the value of `is_empty`). -/
inductive Visit where
  | edge (next_frame : Nat)
  | leaf (father curr_frame curr_vAddress : Nat)
  | table (father curr_frame : Nat) (is_empty : Bool)
  deriving DecidableEq, Repr

/-- The effect of one visit on the outputs of `DFS`. -/
def Visit.apply (cfg : Config) (page source_frame : Nat) (st : DfsState) : Visit → DfsState
  | Visit.edge next_frame =>
    if next_frame > st.max_frame then { st with max_frame := next_frame } else st
  | Visit.leaf father curr_frame curr_vAddress =>
    DFSleaf cfg page source_frame st father curr_frame curr_vAddress
  | Visit.table father curr_frame is_empty =>
    DFSempty source_frame st is_empty father curr_frame

/-- All `PAGE_SIZE` slots of the frame read as zero. -/
def isEmptyTable (cfg : Config) (ram : Nat → Int) (frame : Nat) : Bool :=
  (List.range (PAGE_SIZE cfg)).all (fun o => entry cfg ram frame o == 0)

/-- The visits of `DFS` in order, by the same recursion as `DFS`. -/
def visits (cfg : Config) (ram : Nat → Int) : Nat → Nat → Nat → Nat → Nat → List Visit
  | 0, d, father, curr_frame, curr_vAddress =>
    if d = cfg.TABLES_DEPTH then [Visit.leaf father curr_frame curr_vAddress] else []
  | fuel + 1, d, father, curr_frame, curr_vAddress =>
    if d = cfg.TABLES_DEPTH then [Visit.leaf father curr_frame curr_vAddress]
    else
      (List.range (PAGE_SIZE cfg)).flatMap (fun offset =>
        if entry cfg ram curr_frame offset ≠ 0 then
          Visit.edge (entry cfg ram curr_frame offset) ::
            visits cfg ram fuel (d + 1) (getPhysicalAddress cfg curr_frame offset)
              (entry cfg ram curr_frame offset)
              (((curr_vAddress <<< cfg.OFFSET_WIDTH) % U64) ||| offset)
        else [])
      ++ [Visit.table father curr_frame (isEmptyTable cfg ram curr_frame)]

/-- The virtual address `DFS` passes down for the child in slot `offset`:
`(curr_vAddress << OFFSET_WIDTH) | offset`. -/
def vaStep (cfg : Config) (curr_vAddress offset : Nat) : Nat :=
  ((curr_vAddress <<< cfg.OFFSET_WIDTH) % U64) ||| offset

/-- `Arrives cfg ram d father cur va q father' g va'`: the call of `DFS` at depth `d`
with arguments `father`, `cur`, `va` leads, following the slots `q`, to a call on
frame `g` with arguments `father'` and `va'`. -/
inductive Arrives (cfg : Config) (ram : Nat → Int) :
    Nat → Nat → Nat → Nat → List Nat → Nat → Nat → Nat → Prop
  | nil (d father cur va : Nat) : Arrives cfg ram d father cur va [] father cur va
  | cons {d father cur va o : Nat} {q : List Nat} {father' g va' : Nat} :
      d < cfg.TABLES_DEPTH → o < PAGE_SIZE cfg → entry cfg ram cur o ≠ 0 →
      Arrives cfg ram (d + 1) (getPhysicalAddress cfg cur o) (entry cfg ram cur o)
        (vaStep cfg va o) q father' g va' →
      Arrives cfg ram d father cur va (o :: q) father' g va'

/-- The number of root slots a valid virtual address can select: the top slice of
the address is `VIRTUAL_ADDRESS_WIDTH - TABLES_DEPTH * OFFSET_WIDTH` bits wide. -/
def TOP (cfg : Config) : Nat :=
  2 ^ (cfg.VIRTUAL_ADDRESS_WIDTH - cfg.TABLES_DEPTH * cfg.OFFSET_WIDTH)

/-- The slots the driver follows for a virtual address: `getOffset(va, i)` for the
levels `i = 0 .. TABLES_DEPTH - 1`. -/
def vaPath (cfg : Config) (va : Nat) : List Nat :=
  (List.range cfg.TABLES_DEPTH).map (getOffset cfg va)

/-- The page number `DFS` reconstructs along a path of slots, starting from 0. -/
def pageNum (cfg : Config) (p : List Nat) : Nat := p.foldl (vaStep cfg) 0

/-- The page table in `ram` is a strict tree over the frames `1 .. m`: every frame
reached from the root is at most `m`, no frame is reached along two paths, every
frame in `1 .. m` is reached, `m` is a frame of the physical memory, and only root
slots that a valid address can select are in use. -/
structure TreeInv (cfg : Config) (ram : Nat → Int) (m : Nat) : Prop where
  bound : m < cfg.NUM_FRAMES
  range : ∀ p g, Reach cfg ram p g → g ≤ m
  inj : ∀ p q g, Reach cfg ram p g → Reach cfg ram q g → p = q
  surj : ∀ g, 1 ≤ g → g ≤ m → ∃ p, Reach cfg ram p g
  top : ∀ o p g, Reach cfg ram (o :: p) g → o < TOP cfg

/-- `Val cfg pm a v`: the virtual address `a` holds the word `v` in the state `pm`:
either its page is resident (its walk reaches a leaf frame) and the frame holds
`v` at the offset of `a`, or its page is not resident and the backing store holds
contents for it with `v` at the offset of `a`. -/
def Val (cfg : Config) (pm : PM) (a : Nat) (v : Int) : Prop :=
  (∃ f, Reach cfg pm.ram (vaPath cfg a) f ∧
      pm.ram (f * PAGE_SIZE cfg + getOffset cfg a cfg.TABLES_DEPTH) = v) ∨
  ((¬ ∃ f, Reach cfg pm.ram (vaPath cfg a) f) ∧
      ∃ c, pm.swap (a >>> cfg.OFFSET_WIDTH) = some c ∧ c (getOffset cfg a cfg.TABLES_DEPTH) = v)

/-- The physical address `a` lies in the frame `f`. -/
def inFrame (cfg : Config) (f a : Nat) : Prop :=
  f * PAGE_SIZE cfg ≤ a ∧ a < f * PAGE_SIZE cfg + PAGE_SIZE cfg

instance (cfg : Config) (f a : Nat) : Decidable (inFrame cfg f a) := by
  unfold inFrame; infer_instance

/-- `Relink cfg pm pm' P F o r pg`: between `pm` and `pm'` the frame `r` was taken
out of the tree (if it was in it, as an empty table or as a leaf, whose contents
went to the backing store) and linked into slot `o` of the table `F`, which is
reached along `P`; `pg` is the page swapped in. -/
structure Relink (cfg : Config) (pm pm' : PM) (P : List Nat) (F o r pg : Nat) : Prop where
  r_ne_zero : r ≠ 0
  r_lt : r < 2 ^ 32
  r_ne_F : r ≠ F
  r_terminal : ∀ p, Reach cfg pm.ram p r →
    p.length = cfg.TABLES_DEPTH ∨ ∀ o', o' < PAGE_SIZE cfg → entry cfg pm.ram r o' = 0
  same : ∀ a, ¬ inFrame cfg r a → a ≠ F * PAGE_SIZE cfg + o →
    (∀ p f o', Reach cfg pm.ram p f → p.length < cfg.TABLES_DEPTH → o' < PAGE_SIZE cfg →
      entry cfg pm.ram f o' = r → a ≠ f * PAGE_SIZE cfg + o') →
    pm'.ram a = pm.ram a
  cleared : ∀ p f o', Reach cfg pm.ram p f → p.length < cfg.TABLES_DEPTH → o' < PAGE_SIZE cfg →
    entry cfg pm.ram f o' = r → pm'.ram (f * PAGE_SIZE cfg + o') = 0
  linked : pm'.ram (F * PAGE_SIZE cfg + o) = u64ToWord r
  zeroed : P.length + 1 < cfg.TABLES_DEPTH →
    ∀ j, j < PAGE_SIZE cfg → pm'.ram (r * PAGE_SIZE cfg + j) = 0
  swap_same : ∀ q, (∀ p, Reach cfg pm.ram p r → p.length = cfg.TABLES_DEPTH → q ≠ pageNum cfg p) →
    pm'.swap q = pm.swap q
  swap_evicted : ∀ p, Reach cfg pm.ram p r → p.length = cfg.TABLES_DEPTH →
    ∃ c, pm'.swap (pageNum cfg p) = some c ∧
      ∀ j, j < PAGE_SIZE cfg → c j = pm.ram (r * PAGE_SIZE cfg + j)
  restored : P.length + 1 = cfg.TABLES_DEPTH → ∀ c, pm'.swap pg = some c →
    ∀ j, j < PAGE_SIZE cfg → pm'.ram (r * PAGE_SIZE cfg + j) = c j

/-- `Chosen cfg pm pm1 r`: what the three-way decision of `getEmptyFrame` leaves
behind: the chosen frame `r`, which ended every path through it, with every slot
that pointed to it cleared, its contents saved if it was a leaf, and nothing else
changed. -/
structure Chosen (cfg : Config) (pm pm1 : PM) (r : Nat) : Prop where
  r_ne_zero : r ≠ 0
  r_lt : r < 2 ^ 32
  r_terminal : ∀ p, Reach cfg pm.ram p r →
    p.length = cfg.TABLES_DEPTH ∨ ∀ o', o' < PAGE_SIZE cfg → entry cfg pm.ram r o' = 0
  same : ∀ a,
    (∀ p f o', Reach cfg pm.ram p f → p.length < cfg.TABLES_DEPTH → o' < PAGE_SIZE cfg →
      entry cfg pm.ram f o' = r → a ≠ f * PAGE_SIZE cfg + o') →
    pm1.ram a = pm.ram a
  cleared : ∀ p f o', Reach cfg pm.ram p f → p.length < cfg.TABLES_DEPTH → o' < PAGE_SIZE cfg →
    entry cfg pm.ram f o' = r → pm1.ram (f * PAGE_SIZE cfg + o') = 0
  swap_same : ∀ q, (∀ p, Reach cfg pm.ram p r → p.length = cfg.TABLES_DEPTH → q ≠ pageNum cfg p) →
    pm1.swap q = pm.swap q
  swap_evicted : ∀ p, Reach cfg pm.ram p r → p.length = cfg.TABLES_DEPTH →
    ∃ c, pm1.swap (pageNum cfg p) = some c ∧
      ∀ j, j < PAGE_SIZE cfg → c j = pm.ram (r * PAGE_SIZE cfg + j)

/-- What `ReadWrite` does with the chosen frame: `getEmptyFrame` clears it for an
interior level, the driver links it into the parent slot, and restores the page
into it at the last level. -/
def finishStep (cfg : Config) (pm1 : PM) (F o r i page : Nat) : PM :=
  let pmc := if i < cfg.TABLES_DEPTH - 1 then clearTable cfg pm1 r else pm1
  let pm2 := PMwrite pmc (getPhysicalAddress cfg F o) (u64ToWord r)
  if i = cfg.TABLES_DEPTH - 1 then PMrestore cfg pm2 r page else pm2

/-- The frames met when following the slots `q` from the frame `f`, `f` included. -/
def framesAlong (cfg : Config) (ram : Nat → Int) : Nat → List Nat → List Nat
  | f, [] => [f]
  | f, o :: q => f :: framesAlong cfg ram (entry cfg ram f o) q

/-- The invariant of the loop of `ReadWrite` on the address `va`, started in `pm0`,
after `k` iterations: the page table is a strict tree, the variable `frame` is the
frame reached along the first `k` slots of `va`, and every valid virtual address
still holds the word it held in `pm0`. -/
def WalkInv (cfg : Config) (pm0 : PM) (va k : Nat) (w : PM × Nat) : Prop :=
  (∃ m, TreeInv cfg w.1.ram m) ∧
  Reach cfg w.1.ram ((vaPath cfg va).take k) w.2 ∧
  ∀ a v, a < VIRTUAL_MEMORY_SIZE cfg → Val cfg pm0 a v → Val cfg w.1 a v

/-- The page table of the state is a strict tree over the frames `1 .. m`, for
some `m`. -/
def Inv (cfg : Config) (pm : PM) : Prop := ∃ m, TreeInv cfg pm.ram m

/-- A call of the translation service: `VMread(va, value)` with the word behind
the pointer (`none` for the null pointer), or `VMwrite(va, value)`. -/
inductive Op where
  | read (va : Nat) (value : Option Int)
  | write (va : Nat) (value : Int)

/-- The virtual address of a call. -/
def Op.addr : Op → Nat
  | Op.read va _ => va
  | Op.write va _ => va

/-- The result of a call. -/
def Op.result (cfg : Config) (pm : PM) : Op → RWResult
  | Op.read va value => VMread cfg pm va value
  | Op.write va value => VMwrite cfg pm va value

/-- The state after a call. -/
def Op.run (cfg : Config) (pm : PM) (op : Op) : PM := (op.result cfg pm).pm

/-- The state after a sequence of calls. -/
def runOps (cfg : Config) (pm : PM) (ops : List Op) : PM := ops.foldl (Op.run cfg) pm

/-- The states reachable from `VMinitialize()`, called on any state of the physical
memory, by a sequence of `VMread`/`VMwrite` calls. -/
inductive Reachable (cfg : Config) : PM → Prop
  | init (pm0 : PM) : Reachable cfg ( VMinitialize cfg pm0)
  | step {pm : PM} (op : Op) : Reachable cfg pm → Reachable cfg (op.run cfg pm)

/-- The writes of `clearTable(frame)`: a zero to each of the `PAGE_SIZE` words. -/
def clearWrites (cfg : Config) (frame : Nat) : List PMOp :=
  (List.range (PAGE_SIZE cfg)).map (fun i => PMOp.write (getPhysicalAddress cfg frame i) 0)

/-- `IsMaxStored cfg ram m`: `m` is the largest frame number stored in a non-zero
slot of a table that `DFS` visits from the root at the depths
`0 .. TABLES_DEPTH - 1`, and `m = 0` if there is none. -/
def IsMaxStored (cfg : Config) (ram : Nat → Int) (m : Nat) : Prop :=
  (∀ p f o, Reach cfg ram p f → p.length < cfg.TABLES_DEPTH → o < PAGE_SIZE cfg →
    entry cfg ram f o ≤ m) ∧
  (m = 0 ∨ ∃ p f o, Reach cfg ram p f ∧ p.length < cfg.TABLES_DEPTH ∧ o < PAGE_SIZE cfg ∧
    entry cfg ram f o = m)

/-- The mutating call stays inside the physical memory: a write is to an address
below `NUM_FRAMES * PAGE_SIZE`, an eviction or restoration is of a frame below
`NUM_FRAMES`. -/
def PMOp.inRange (cfg : Config) : PMOp → Prop
  | PMOp.write addr _ => addr < cfg.NUM_FRAMES * PAGE_SIZE cfg
  | PMOp.evict frame _ => frame < cfg.NUM_FRAMES
  | PMOp.restore frame _ => frame < cfg.NUM_FRAMES

/-- `LogOK cfg pm pm'`: the calls made between `pm` and `pm'` all stay inside the
physical memory. -/
def LogOK (cfg : Config) (pm pm' : PM) : Prop :=
  ∃ l, pm'.log = pm.log ++ l ∧ ∀ op ∈ l, op.inRange cfg

/-- The constants of the illustration in the specification: `OFFSET_WIDTH = 4`,
`VIRTUAL_ADDRESS_WIDTH = 12`, `TABLES_DEPTH = 2`, `NUM_FRAMES = 8`. -/
def cfgDemo : Config :=
  { OFFSET_WIDTH := 4, VIRTUAL_ADDRESS_WIDTH := 12, TABLES_DEPTH := 2, NUM_FRAMES := 8 }

/-- A physical memory of zeros with an empty backing store, in which restoring a
page never saved leaves the frame as it is. -/
def pmZero : PM :=
  { ram := fun _ => 0
    swap := fun _ => none
    unstored := fun ram f _ o => ram (f * 16 + o)
    log := [] }

/-- An ill-formed memory for the constants `cfgDemo`: root slot 0 points to frame 1
and root slot 1 to frame 7, and slot 0 of each of these two tables points back to
the table itself, so that frame 1 is also visited as the leaf of page 0, with its
parent slot (address 16) inside frame 1. -/
def pmLoop : PM :=
  { ram := fun a =>
      if a = 0 then 1 else if a = 1 then 7 else if a = 16 then 1 else if a = 112 then 7 else 0
    swap := fun _ => none
    unstored := fun ram f _ o => ram (f * 16 + o)
    log := [] }

/-- A memory for the constants `cfgDemo` in which root slot 0 points to frame 1 and
frame 1 is an empty table. -/
def pmOneTable : PM :=
  { ram := fun a => if a = 0 then 1 else 0
    swap := fun _ => none
    unstored := fun ram f _ o => ram (f * 16 + o)
    log := [] }

/-- A memory for the constants `cfgDemo` in which root slot 0 points to the table in
frame 1, whose slot 0 points to the leaf in frame 2. -/
def pmOneLeaf : PM :=
  { ram := fun a => if a = 0 then 1 else if a = 16 then 2 else 0
    swap := fun _ => none
    unstored := fun ram f _ o => ram (f * 16 + o)
    log := [] }

/-- A well-formed, saturated memory for the constants `cfgDemo`: root slot 0 points
to the table in frame 1, whose slots 0 to 5 point to the leaves in frames 2 to 7
(the pages 0 to 5). -/
def pmFull : PM :=
  { ram := fun a => if a = 0 then 1 else if 16 ≤ a ∧ a < 22 then ((a - 14 : Nat) : Int) else 0
    swap := fun _ => none
    unstored := fun ram f _ o => ram (f * 16 + o)
    log := [] }

/-- The frame a visit is the call of: `curr_frame` for the visit that ends a call of
`DFS` (a leaf, or a table after its loop), nothing for the reading of a slot. -/
def Visit.frame : Visit → Option Nat
  | Visit.edge _ => none
  | Visit.leaf _ curr_frame _ => some curr_frame
  | Visit.table _ curr_frame _ => some curr_frame

/-- The calls of `DFS`, each with its depth `d` and its `curr_frame`, in the order in
which they return, by the same recursion as `DFS`: a call at depth `TABLES_DEPTH`
makes no further call, a call at a smaller depth `d` makes one call at depth `d + 1`
for every non-zero slot of its frame. -/
def calls (cfg : Config) (ram : Nat → Int) : Nat → Nat → Nat → List (Nat × Nat)
  | 0, d, curr_frame => if d = cfg.TABLES_DEPTH then [(d, curr_frame)] else []
  | fuel + 1, d, curr_frame =>
    if d = cfg.TABLES_DEPTH then [(d, curr_frame)]
    else
      (List.range (PAGE_SIZE cfg)).flatMap (fun offset =>
        if entry cfg ram curr_frame offset ≠ 0 then
          calls cfg ram fuel (d + 1) (entry cfg ram curr_frame offset)
        else [])
      ++ [(d, curr_frame)]

/-- `v.pageLt w`: if both visits are leaves, the page number of `v` is smaller than
that of `w`. -/
def Visit.pageLt (v w : Visit) : Prop :=
  ∀ fa g q fa' g' q', v = Visit.leaf fa g q → w = Visit.leaf fa' g' q' → q < q'

/-! ## Part II: theorems -/

theorem PAGE_SIZE_pos (cfg : Config) : 0 < PAGE_SIZE cfg := by
  unfold PAGE_SIZE; positivity

theorem wordToU64_zero : wordToU64 0 = 0 := by
  simp [wordToU64]

theorem wordToU64_lt (w : Int) : wordToU64 w < 2 ^ 32 := by
  unfold wordToU64 WORD_WIDTH
  have h1 : (0:Int) ≤ w % ((2 ^ 32 : Nat) : Int) := Int.emod_nonneg _ (by norm_num)
  have h2 : w % ((2 ^ 32 : Nat) : Int) < ((2 ^ 32 : Nat) : Int) := Int.emod_lt_of_pos _ (by norm_num)
  omega

theorem wordToU64_u64ToWord (n : Nat) (h : n < 2 ^ 32) : wordToU64 (u64ToWord n) = n := by
  unfold wordToU64 u64ToWord WORD_WIDTH
  rw [Int.bmod_emod]
  have : ((n : Int) % ((2 ^ 32 : Nat) : Int)) = n := by
    apply Int.emod_eq_of_lt <;> omega
  rw [this]; simp

theorem PAGE_SIZE_le (cfg : Config) (h : cfg.WF) : PAGE_SIZE cfg ≤ 2 ^ 30 := by
  unfold PAGE_SIZE
  exact Nat.pow_le_pow_right (by norm_num) h.ow_le

theorem getPhysicalAddress_eq (cfg : Config) (h : cfg.WF) (f o : Nat) (hf : f ≤ 2 ^ 32)
    (ho : o < PAGE_SIZE cfg) : getPhysicalAddress cfg f o = f * PAGE_SIZE cfg + o := by
  unfold getPhysicalAddress U64
  have hp := PAGE_SIZE_le cfg h
  apply Nat.mod_eq_of_lt
  calc f * PAGE_SIZE cfg + o < f * PAGE_SIZE cfg + PAGE_SIZE cfg := by omega
    _ = (f + 1) * PAGE_SIZE cfg := by ring
    _ ≤ (2 ^ 32 + 1) * 2 ^ 30 := Nat.mul_le_mul (by omega) hp
    _ < 2 ^ 64 := by norm_num

section

variable {cfg : Config} {ram : Nat → Int}

theorem Descends.length_le {d f : Nat} {q : List Nat} {g : Nat}
    (h : Descends cfg ram d f q g) (hd : d ≤ cfg.TABLES_DEPTH) :
    d + q.length ≤ cfg.TABLES_DEPTH := by
  induction h with
  | nil d f => simpa using hd
  | cons hd' _ _ _ ih =>
    have := ih (by omega)
    simp only [List.length_cons]; omega

theorem Descends.lt_page {d f : Nat} {q : List Nat} {g : Nat}
    (h : Descends cfg ram d f q g) : ∀ o ∈ q, o < PAGE_SIZE cfg := by
  induction h with
  | nil d f => simp
  | cons _ ho _ _ ih =>
    intro o' ho'
    rcases List.mem_cons.1 ho' with h | h
    · subst h; exact ho
    · exact ih o' h

theorem Descends.functional {d f : Nat} {q : List Nat} {g g' : Nat}
    (h : Descends cfg ram d f q g) (h' : Descends cfg ram d f q g') : g = g' := by
  induction h with
  | nil d f => cases h'; rfl
  | cons _ _ _ _ ih =>
    cases h' with
    | cons _ _ _ h2 => exact ih h2

theorem Descends.nonzero {d f : Nat} {q : List Nat} {g : Nat}
    (h : Descends cfg ram d f q g) (hq : q ≠ []) : g ≠ 0 := by
  induction h with
  | nil d f => exact absurd rfl hq
  | @cons d f o q g _ _ hne hrest ih =>
    cases q with
    | nil => cases hrest; exact hne
    | cons o' q' => exact ih (by simp)

theorem Descends.append {d f : Nat} {q : List Nat} {g : Nat}
    (h : Descends cfg ram d f q g) {q' : List Nat} {g' : Nat}
    (h' : Descends cfg ram (d + q.length) g q' g') : Descends cfg ram d f (q ++ q') g' := by
  induction h with
  | nil d f => simpa using h'
  | @cons d f o q g hd ho hne _ ih =>
    have : d + 1 + q.length = d + (o :: q).length := by simp; omega
    exact Descends.cons hd ho hne (ih (this ▸ h'))

theorem Descends.split {d f : Nat} (q q' : List Nat) {g' : Nat}
    (h : Descends cfg ram d f (q ++ q') g') :
    ∃ g, Descends cfg ram d f q g ∧ Descends cfg ram (d + q.length) g q' g' := by
  induction q generalizing d f with
  | nil => exact ⟨f, Descends.nil d f, by simpa using h⟩
  | cons o q ih =>
    cases h with
    | cons hd ho hne hrest =>
      obtain ⟨g, h1, h2⟩ := ih hrest
      refine ⟨g, Descends.cons hd ho hne h1, ?_⟩
      have : d + 1 + q.length = d + (o :: q).length := by simp; omega
      exact this ▸ h2

theorem Descends.snoc {d f : Nat} {q : List Nat} {g o : Nat}
    (h : Descends cfg ram d f q g) (hd : d + q.length < cfg.TABLES_DEPTH)
    (ho : o < PAGE_SIZE cfg) (hne : entry cfg ram g o ≠ 0) :
    Descends cfg ram d f (q ++ [o]) (entry cfg ram g o) :=
  h.append (Descends.cons hd ho hne (Descends.nil _ _))

theorem Descends.snoc_inv {d f : Nat} {q : List Nat} {o h : Nat}
    (hd : Descends cfg ram d f (q ++ [o]) h) :
    ∃ g, Descends cfg ram d f q g ∧ d + q.length < cfg.TABLES_DEPTH ∧ o < PAGE_SIZE cfg ∧
      entry cfg ram g o = h ∧ h ≠ 0 := by
  obtain ⟨g, h1, h2⟩ := Descends.split q [o] hd
  cases h2 with
  | cons hd' ho hne hrest =>
    cases hrest
    exact ⟨g, h1, hd', ho, rfl, hne⟩

/-- Two memories that agree on every slot of every table reachable below `f` in the
first one have the same descents from `f`. -/
theorem Descends.congr_of_agree {ram' : Nat → Int} {d f : Nat} {q : List Nat} {g : Nat}
    (h : Descends cfg ram d f q g)
    (hag : ∀ q' g', Descends cfg ram d f q' g' → d + q'.length < cfg.TABLES_DEPTH →
      ∀ o, o < PAGE_SIZE cfg → entry cfg ram' g' o = entry cfg ram g' o) :
    Descends cfg ram' d f q g := by
  induction h with
  | nil d f => exact Descends.nil d f
  | @cons d f o q g hd ho hne hrest ih =>
    have he : entry cfg ram' f o = entry cfg ram f o := hag [] f (Descends.nil d f) (by simpa using hd) o ho
    have := ih (fun q' g' hq' hlen o' ho' =>
      hag (o :: q') g' (Descends.cons hd ho hne hq') (by simp; omega) o' ho')
    rw [← he] at this
    exact Descends.cons hd ho (by rw [he]; exact hne) this

theorem Descends.congr_of_agree_rev {ram' : Nat → Int} {d f : Nat} {q : List Nat} {g : Nat}
    (h : Descends cfg ram' d f q g)
    (hag : ∀ q' g', Descends cfg ram d f q' g' → d + q'.length < cfg.TABLES_DEPTH →
      ∀ o, o < PAGE_SIZE cfg → entry cfg ram' g' o = entry cfg ram g' o) :
    Descends cfg ram d f q g := by
  induction h with
  | nil d f => exact Descends.nil d f
  | @cons d f o q g hd ho hne hrest ih =>
    have he : entry cfg ram' f o = entry cfg ram f o := hag [] f (Descends.nil d f) (by simpa using hd) o ho
    have hne' : entry cfg ram f o ≠ 0 := by rw [← he]; exact hne
    have := ih (fun q' g' hq' hlen o' ho' =>
      hag (o :: q') g' (Descends.cons hd ho hne' (he ▸ hq')) (by simp; omega) o' ho')
    rw [he] at this
    exact Descends.cons hd ho hne' this

theorem Reach.root : Reach cfg ram [] 0 := Descends.nil 0 0

theorem Reach.path_le {p : List Nat} {g : Nat} (h : Reach cfg ram p g) :
    p.length ≤ cfg.TABLES_DEPTH := by
  simpa using Descends.length_le h (Nat.zero_le _)

theorem Reach.unique {p : List Nat} {g g' : Nat} (h : Reach cfg ram p g)
    (h' : Reach cfg ram p g') : g = g' := Descends.functional h h'

theorem Reach.extend {p : List Nat} {g o : Nat} (h : Reach cfg ram p g)
    (hd : p.length < cfg.TABLES_DEPTH) (ho : o < PAGE_SIZE cfg) (hne : entry cfg ram g o ≠ 0) :
    Reach cfg ram (p ++ [o]) (entry cfg ram g o) :=
  Descends.snoc h (by simpa using hd) ho hne

theorem Reach.extend_inv {p : List Nat} {o h : Nat} (hr : Reach cfg ram (p ++ [o]) h) :
    ∃ g, Reach cfg ram p g ∧ p.length < cfg.TABLES_DEPTH ∧ o < PAGE_SIZE cfg ∧
      entry cfg ram g o = h ∧ h ≠ 0 := by
  obtain ⟨g, h1, h2, h3, h4, h5⟩ := Descends.snoc_inv hr
  exact ⟨g, h1, by simpa using h2, h3, h4, h5⟩

theorem Reach.ne_root {p : List Nat} {g : Nat} (h : Reach cfg ram p g) (hp : p ≠ []) : g ≠ 0 :=
  Descends.nonzero h hp

theorem Reach.slots_lt {p : List Nat} {g : Nat} (h : Reach cfg ram p g) :
    ∀ o ∈ p, o < PAGE_SIZE cfg := Descends.lt_page h

/-- Every initial segment of a reachable path is reachable. -/
theorem Reach.take {p : List Nat} {g : Nat} (h : Reach cfg ram p g) (k : Nat) :
    ∃ g', Reach cfg ram (p.take k) g' := by
  have := Descends.split (p.take k) (p.drop k) (by rw [List.take_append_drop]; exact h)
  obtain ⟨g', h1, _⟩ := this
  exact ⟨g', h1⟩

/-- Snoc induction principle on reachable paths. -/
theorem Reach.snoc_induction {motive : List Nat → Nat → Prop}
    (hroot : motive [] 0)
    (hstep : ∀ p f o, Reach cfg ram p f → motive p f → p.length < cfg.TABLES_DEPTH →
      o < PAGE_SIZE cfg → entry cfg ram f o ≠ 0 → motive (p ++ [o]) (entry cfg ram f o))
    {p : List Nat} {g : Nat} (h : Reach cfg ram p g) : motive p g := by
  induction p using List.reverseRecOn generalizing g with
  | nil => cases h; exact hroot
  | append_singleton p o ih =>
    obtain ⟨f, h1, h2, h3, h4, h5⟩ := Reach.extend_inv h
    subst h4
    exact hstep p f o h1 (ih h1) h2 h3 h5

end

/-- A loop that threads a pair, folding visits into the first component and
and-ing a flag into the second, is the fold over the concatenated visits. -/
theorem foldl_pair_loop {σ β : Type} (app : σ → β → σ) (F : σ × Bool → Nat → σ × Bool)
    (G : Nat → List β) (Z : Nat → Bool)
    (hF : ∀ st b o, F (st, b) o = ((G o).foldl app st, b && Z o)) :
    ∀ (l : List Nat) (st : σ) (b : Bool),
      l.foldl F (st, b) = ((l.flatMap G).foldl app st, b && l.all Z) := by
  intro l
  induction l with
  | nil => intro st b; simp
  | cons o l ih =>
    intro st b
    rw [List.foldl_cons, hF, ih, List.flatMap_cons, List.foldl_append, List.all_cons,
      Bool.and_assoc]

/-- `DFS` is the fold of its visits. -/
theorem DFS_eq_foldl (cfg : Config) (ram : Nat → Int) (page source_frame : Nat)
    (fuel : Nat) : ∀ (st : DfsState) (d father curr_frame curr_vAddress : Nat),
    DFS cfg ram page source_frame fuel st d father curr_frame curr_vAddress =
      (visits cfg ram fuel d father curr_frame curr_vAddress).foldl
        (Visit.apply cfg page source_frame) st := by
  induction fuel with
  | zero =>
    intro st d father curr_frame curr_vAddress
    unfold DFS visits
    split <;> simp [Visit.apply]
  | succ fuel ih =>
    intro st d father curr_frame curr_vAddress
    unfold DFS visits
    split
    · simp [Visit.apply]
    · rw [foldl_pair_loop (Visit.apply cfg page source_frame) _
        (fun offset =>
          if entry cfg ram curr_frame offset ≠ 0 then
            Visit.edge (entry cfg ram curr_frame offset) ::
              visits cfg ram fuel (d + 1) (getPhysicalAddress cfg curr_frame offset)
                (entry cfg ram curr_frame offset)
                (((curr_vAddress <<< cfg.OFFSET_WIDTH) % U64) ||| offset)
          else [])
        (fun o => entry cfg ram curr_frame o == 0)]
      · simp [List.foldl_append, Visit.apply, isEmptyTable]
      · intro st b o
        by_cases hz : entry cfg ram curr_frame o = 0
        · have hz' : wordToU64 (ram (getPhysicalAddress cfg curr_frame o)) = 0 := hz
          simp [hz, hz']
        · have hz' : wordToU64 (ram (getPhysicalAddress cfg curr_frame o)) ≠ 0 := hz
          simp [hz, hz', ih, Visit.apply, entry]

section

variable {cfg : Config} {ram : Nat → Int}

theorem Arrives.descends {d father cur va : Nat} {q : List Nat} {father' g va' : Nat}
    (h : Arrives cfg ram d father cur va q father' g va') : Descends cfg ram d cur q g := by
  induction h with
  | nil d father cur va => exact Descends.nil _ _
  | cons hd ho hne _ ih => exact Descends.cons hd ho hne ih

theorem Arrives.va_eq {d father cur va : Nat} {q : List Nat} {father' g va' : Nat}
    (h : Arrives cfg ram d father cur va q father' g va') :
    va' = q.foldl (vaStep cfg) va := by
  induction h with
  | nil d father cur va => rfl
  | cons hd ho hne _ ih => simpa using ih

/-- The father address that arrives with a frame is the address of the slot that
was followed last. -/
theorem Arrives.father_eq {d father cur va : Nat} {q : List Nat} {father' g va' : Nat}
    (h : Arrives cfg ram d father cur va q father' g va') :
    (q = [] ∧ father' = father) ∨
      ∃ q0 o f, q = q0 ++ [o] ∧ Descends cfg ram d cur q0 f ∧
        father' = getPhysicalAddress cfg f o := by
  induction h with
  | nil d father cur va => exact Or.inl ⟨rfl, rfl⟩
  | @cons d father cur va o q father' g va' hd ho hne hrest ih =>
    right
    rcases ih with ⟨hq, hf⟩ | ⟨q0, o', f, hq, hd', hf⟩
    · exact ⟨[], o, cur, by simp [hq], Descends.nil _ _, hf⟩
    · exact ⟨o :: q0, o', f, by simp [hq], Descends.cons hd ho hne hd', hf⟩

theorem Descends.arrives {d cur : Nat} {q : List Nat} {g : Nat}
    (h : Descends cfg ram d cur q g) (father va : Nat) :
    ∃ father' va', Arrives cfg ram d father cur va q father' g va' := by
  induction h generalizing father va with
  | nil d f => exact ⟨father, va, Arrives.nil _ _ _ _⟩
  | @cons d f o q g hd ho hne _ ih =>
    obtain ⟨fa', va', h⟩ := ih (getPhysicalAddress cfg f o) (vaStep cfg va o)
    exact ⟨fa', va', Arrives.cons hd ho hne h⟩

/-- Membership in the visits of `DFS`, in terms of `Arrives`. -/
theorem mem_visits (fuel : Nat) : ∀ (d father cur va : Nat) (v : Visit),
    cfg.TABLES_DEPTH ≤ d + fuel → d ≤ cfg.TABLES_DEPTH →
    (v ∈ visits cfg ram fuel d father cur va ↔
      match v with
      | Visit.edge nf =>
          ∃ q father' va', q ≠ [] ∧ Arrives cfg ram d father cur va q father' nf va'
      | Visit.leaf father' g va' =>
          ∃ q, Arrives cfg ram d father cur va q father' g va' ∧ d + q.length = cfg.TABLES_DEPTH
      | Visit.table father' g e =>
          ∃ q va', Arrives cfg ram d father cur va q father' g va' ∧
            d + q.length < cfg.TABLES_DEPTH ∧ e = isEmptyTable cfg ram g) := by
  induction fuel with
  | zero =>
    intro d father cur va v hfuel hd
    have hdt : d = cfg.TABLES_DEPTH := by omega
    unfold visits
    rw [if_pos hdt]
    cases v with
    | edge nf =>
      simp only [List.mem_singleton, reduceCtorEq, false_iff, not_exists, not_and]
      intro q fa' va' hq h
      cases h with
      | nil => exact hq rfl
      | cons hd' _ _ _ => omega
    | leaf father' g va' =>
      simp only [List.mem_singleton, Visit.leaf.injEq]
      constructor
      · rintro ⟨rfl, rfl, rfl⟩; exact ⟨[], Arrives.nil _ _ _ _, by simpa using hdt⟩
      · rintro ⟨q, h, _⟩
        cases h with
        | nil => exact ⟨rfl, rfl, rfl⟩
        | cons hd' _ _ _ => omega
    | table father' g e =>
      simp only [List.mem_singleton, reduceCtorEq, false_iff, not_exists, not_and]
      intro q va' h hlt
      omega
  | succ fuel ih =>
    intro d father cur va v hfuel hd
    unfold visits
    by_cases hdt : d = cfg.TABLES_DEPTH
    · rw [if_pos hdt]
      cases v with
      | edge nf =>
        simp only [List.mem_singleton, reduceCtorEq, false_iff, not_exists, not_and]
        intro q fa' va' hq h
        cases h with
        | nil => exact hq rfl
        | cons hd' _ _ _ => omega
      | leaf father' g va' =>
        simp only [List.mem_singleton, Visit.leaf.injEq]
        constructor
        · rintro ⟨rfl, rfl, rfl⟩; exact ⟨[], Arrives.nil _ _ _ _, by simpa using hdt⟩
        · rintro ⟨q, h, _⟩
          cases h with
          | nil => exact ⟨rfl, rfl, rfl⟩
          | cons hd' _ _ _ => omega
      | table father' g e =>
        simp only [List.mem_singleton, reduceCtorEq, false_iff, not_exists, not_and]
        intro q va' h hlt
        omega
    · rw [if_neg hdt]
      have hlt : d < cfg.TABLES_DEPTH := by omega
      simp only [List.mem_append, List.mem_flatMap, List.mem_range, List.mem_singleton]
      have key : ∀ v : Visit, (∃ o, o < PAGE_SIZE cfg ∧
          v ∈ (if entry cfg ram cur o ≠ 0 then
            Visit.edge (entry cfg ram cur o) ::
              visits cfg ram fuel (d + 1) (getPhysicalAddress cfg cur o) (entry cfg ram cur o)
                (((va <<< cfg.OFFSET_WIDTH) % U64) ||| o)
            else [])) ↔
          ∃ o, o < PAGE_SIZE cfg ∧ entry cfg ram cur o ≠ 0 ∧
            (v = Visit.edge (entry cfg ram cur o) ∨
              v ∈ visits cfg ram fuel (d + 1) (getPhysicalAddress cfg cur o) (entry cfg ram cur o)
                (vaStep cfg va o)) := by
        intro v
        constructor
        · rintro ⟨o, ho, hm⟩
          by_cases hz : entry cfg ram cur o = 0
          · simp [hz] at hm
          · rw [if_pos hz] at hm
            exact ⟨o, ho, hz, List.mem_cons.1 hm⟩
        · rintro ⟨o, ho, hz, hm⟩
          refine ⟨o, ho, ?_⟩
          rw [if_pos hz]
          exact List.mem_cons.2 hm
      rw [key]
      cases v with
      | edge nf =>
        simp only [Visit.edge.injEq, reduceCtorEq, or_false]
        constructor
        · rintro ⟨o, ho, hz, hm | hm⟩
          · subst hm
            exact ⟨[o], _, _, by simp, Arrives.cons hlt ho hz (Arrives.nil _ _ _ _)⟩
          · obtain ⟨q, fa', va', hq, h⟩ := (ih _ _ _ _ (Visit.edge nf) (by omega) (by omega)).1 hm
            exact ⟨o :: q, fa', va', by simp, Arrives.cons hlt ho hz h⟩
        · rintro ⟨q, fa', va', hq, h⟩
          cases h with
          | nil => exact absurd rfl hq
          | @cons _ _ _ _ o q _ _ _ _ ho hz hrest =>
            refine ⟨o, ho, hz, ?_⟩
            cases hrest with
            | nil => left; rfl
            | cons hd2 ho2 hz2 hrest2 =>
              right
              exact (ih _ _ _ _ (Visit.edge nf) (by omega) (by omega)).2
                ⟨_, _, _, by simp, Arrives.cons hd2 ho2 hz2 hrest2⟩
      | leaf father' g va' =>
        simp only [reduceCtorEq, false_or, or_false]
        constructor
        · rintro ⟨o, ho, hz, hm⟩
          obtain ⟨q, h, hl⟩ := (ih _ _ _ _ (Visit.leaf father' g va') (by omega) (by omega)).1 hm
          exact ⟨o :: q, Arrives.cons hlt ho hz h, by simp; omega⟩
        · rintro ⟨q, h, hl⟩
          cases h with
          | nil => simp at hl; omega
          | @cons _ _ _ _ o q _ _ _ _ ho hz hrest =>
            exact ⟨o, ho, hz, (ih _ _ _ _ (Visit.leaf father' g va') (by omega) (by omega)).2
              ⟨q, hrest, by simp at hl; omega⟩⟩
      | table father' g e =>
        simp only [reduceCtorEq, false_or, Visit.table.injEq]
        constructor
        · rintro (⟨o, ho, hz, hm⟩ | ⟨rfl, rfl, rfl⟩)
          · obtain ⟨q, va', h, hl, he⟩ :=
              (ih _ _ _ _ (Visit.table father' g e) (by omega) (by omega)).1 hm
            exact ⟨o :: q, va', Arrives.cons hlt ho hz h, by simp; omega, he⟩
          · exact ⟨[], va, Arrives.nil _ _ _ _, by simpa using hlt, rfl⟩
        · rintro ⟨q, va', h, hl, he⟩
          cases h with
          | nil => right; exact ⟨rfl, rfl, he⟩
          | @cons _ _ _ _ o q _ _ _ _ ho hz hrest =>
            left
            exact ⟨o, ho, hz, (ih _ _ _ _ (Visit.table father' g e) (by omega) (by omega)).2
              ⟨q, va', hrest, by simp at hl; omega, he⟩⟩

end

section

variable {cfg : Config} {page source_frame : Nat}

theorem DFSleaf_max_frame (st : DfsState) (fa g va : Nat) :
    (DFSleaf cfg page source_frame st fa g va).max_frame = st.max_frame := by
  unfold DFSleaf; simp only []; split <;> rfl

theorem DFSleaf_empty_frame (st : DfsState) (fa g va : Nat) :
    (DFSleaf cfg page source_frame st fa g va).empty_frame = st.empty_frame := by
  unfold DFSleaf; simp only []; split <;> rfl

theorem DFSempty_max_frame (st : DfsState) (e : Bool) (fa g : Nat) :
    (DFSempty source_frame st e fa g).max_frame = st.max_frame := by
  unfold DFSempty; split <;> rfl

theorem DFSempty_evict_page (st : DfsState) (e : Bool) (fa g : Nat) :
    (DFSempty source_frame st e fa g).evict_page = st.evict_page := by
  unfold DFSempty; split <;> rfl

theorem DFSempty_max_dist (st : DfsState) (e : Bool) (fa g : Nat) :
    (DFSempty source_frame st e fa g).max_dist = st.max_dist := by
  unfold DFSempty; split <;> rfl

/-- After the traversal `max_frame` is the largest of its initial value and the
frame numbers read from non-zero slots. -/
theorem foldl_max_frame (vs : List Visit) : ∀ st : DfsState,
    st.max_frame ≤ (vs.foldl (Visit.apply cfg page source_frame) st).max_frame ∧
    (∀ nf, Visit.edge nf ∈ vs →
      nf ≤ (vs.foldl (Visit.apply cfg page source_frame) st).max_frame) ∧
    ((vs.foldl (Visit.apply cfg page source_frame) st).max_frame = st.max_frame ∨
      Visit.edge (vs.foldl (Visit.apply cfg page source_frame) st).max_frame ∈ vs) := by
  induction vs with
  | nil => intro st; simp
  | cons v vs ih =>
    intro st
    obtain ⟨h1, h2, h3⟩ := ih (Visit.apply cfg page source_frame st v)
    simp only [List.foldl_cons, List.mem_cons]
    cases v with
    | edge nf =>
      have hst : (Visit.apply cfg page source_frame st (Visit.edge nf)).max_frame
          = max nf st.max_frame := by
        simp only [Visit.apply]
        split
        · simp; omega
        · simp; omega
      rw [hst] at h1 h3
      refine ⟨by omega, ?_, ?_⟩
      · rintro nf' (h | h)
        · injection h with h; omega
        · exact h2 nf' h
      · rcases h3 with h3 | h3
        · rcases Nat.le_total nf st.max_frame with hle | hle
          · left; rw [h3]; exact max_eq_right hle
          · right; left; rw [h3, max_eq_left hle]
        · right; right; exact h3
    | leaf fa g va =>
      have hst : (Visit.apply cfg page source_frame st (Visit.leaf fa g va)).max_frame
          = st.max_frame := DFSleaf_max_frame st fa g va
      rw [hst] at h1 h3
      refine ⟨h1, ?_, ?_⟩
      · rintro nf' (h | h)
        · cases h
        · exact h2 nf' h
      · rcases h3 with h3 | h3
        · left; exact h3
        · right; right; exact h3
    | table fa g e =>
      have hst : (Visit.apply cfg page source_frame st (Visit.table fa g e)).max_frame
          = st.max_frame := DFSempty_max_frame st e fa g
      rw [hst] at h1 h3
      refine ⟨h1, ?_, ?_⟩
      · rintro nf' (h | h)
        · cases h
        · exact h2 nf' h
      · rcases h3 with h3 | h3
        · left; exact h3
        · right; right; exact h3

/-- Once an empty frame is recorded it is kept. -/
theorem foldl_empty_keep (vs : List Visit) : ∀ st : DfsState, st.empty_frame.number ≠ 0 →
    (vs.foldl (Visit.apply cfg page source_frame) st).empty_frame = st.empty_frame := by
  induction vs with
  | nil => intro st _; rfl
  | cons v vs ih =>
    intro st hst
    simp only [List.foldl_cons]
    have hv : (Visit.apply cfg page source_frame st v).empty_frame = st.empty_frame := by
      cases v with
      | edge nf => simp only [Visit.apply]; split <;> rfl
      | leaf fa g va => exact DFSleaf_empty_frame st fa g va
      | table fa g e =>
        simp only [Visit.apply, DFSempty]
        rw [if_neg (by tauto)]
    rw [ih _ (by rw [hv]; exact hst), hv]

/-- Starting with no empty frame recorded, the traversal records a frame whose
table visit found it empty and which is not the source frame; it records none
only if every table found empty is the source frame or frame 0. -/
theorem foldl_empty (vs : List Visit) : ∀ st : DfsState, st.empty_frame.number = 0 →
    ((vs.foldl (Visit.apply cfg page source_frame) st).empty_frame.number ≠ 0 →
      Visit.table (vs.foldl (Visit.apply cfg page source_frame) st).empty_frame.father_pm_address
        (vs.foldl (Visit.apply cfg page source_frame) st).empty_frame.number true ∈ vs ∧
      (vs.foldl (Visit.apply cfg page source_frame) st).empty_frame.number ≠ source_frame) ∧
    ((vs.foldl (Visit.apply cfg page source_frame) st).empty_frame.number = 0 →
      ∀ fa g, Visit.table fa g true ∈ vs → g = source_frame ∨ g = 0) := by
  induction vs with
  | nil => intro st hst; simp [hst]
  | cons v vs ih =>
    intro st hst
    simp only [List.foldl_cons, List.mem_cons]
    by_cases hv : (Visit.apply cfg page source_frame st v).empty_frame.number = 0
    · obtain ⟨h1, h2⟩ := ih _ hv
      refine ⟨fun h => ⟨Or.inr (h1 h).1, (h1 h).2⟩, ?_⟩
      intro h fa g hm
      rcases hm with hm | hm
      · subst hm
        by_contra hcon
        push_neg at hcon
        simp [Visit.apply, DFSempty, hcon.1, hst] at hv
        exact hcon.2 hv
      · exact h2 h fa g hm
    · have hkeep := @foldl_empty_keep cfg page source_frame
        vs _ hv
      rw [hkeep]
      refine ⟨fun _ => ?_, fun h => absurd h hv⟩
      cases v with
      | edge nf =>
        exfalso; apply hv
        simp only [Visit.apply]; split <;> exact hst
      | leaf fa g va =>
        exfalso; apply hv
        rw [show (Visit.apply cfg page source_frame st (Visit.leaf fa g va)).empty_frame
          = st.empty_frame from DFSleaf_empty_frame st fa g va]
        exact hst
      | table fa g e =>
        simp only [Visit.apply, DFSempty] at hv ⊢
        by_cases hc : e = true ∧ g ≠ source_frame ∧ st.empty_frame.number = 0
        · rw [if_pos hc]
          obtain ⟨he, hg, _⟩ := hc
          subst he
          exact ⟨Or.inl rfl, hg⟩
        · rw [if_neg hc] at hv
          exact absurd hst hv

/-- The eviction candidate after the traversal: `max_dist` bounds the cyclic distance
of every leaf that is not the source frame, and either nothing was recorded or
the recorded page is a visited leaf, not the source frame, at distance `max_dist`,
which then exceeds the initial `max_dist`. -/
theorem foldl_evict (vs : List Visit) : ∀ st : DfsState,
    st.max_dist ≤ (vs.foldl (Visit.apply cfg page source_frame) st).max_dist ∧
    (∀ fa g va, Visit.leaf fa g va ∈ vs → g ≠ source_frame →
      getCyclicDistance cfg va page ≤ (vs.foldl (Visit.apply cfg page source_frame) st).max_dist) ∧
    (((vs.foldl (Visit.apply cfg page source_frame) st).evict_page = st.evict_page ∧
        (vs.foldl (Visit.apply cfg page source_frame) st).max_dist = st.max_dist) ∨
      (Visit.leaf (vs.foldl (Visit.apply cfg page source_frame) st).evict_page.frame.father_pm_address
          (vs.foldl (Visit.apply cfg page source_frame) st).evict_page.frame.number
          (vs.foldl (Visit.apply cfg page source_frame) st).evict_page.page_num ∈ vs ∧
        (vs.foldl (Visit.apply cfg page source_frame) st).evict_page.frame.number ≠ source_frame ∧
        (vs.foldl (Visit.apply cfg page source_frame) st).max_dist =
          getCyclicDistance cfg
            (vs.foldl (Visit.apply cfg page source_frame) st).evict_page.page_num page ∧
        st.max_dist < (vs.foldl (Visit.apply cfg page source_frame) st).max_dist)) := by
  induction vs with
  | nil => intro st; simp
  | cons v vs ih =>
    intro st
    obtain ⟨h1, h2, h3⟩ := ih (Visit.apply cfg page source_frame st v)
    simp only [List.foldl_cons, List.mem_cons]
    have hkeep : (Visit.apply cfg page source_frame st v).evict_page = st.evict_page →
        (Visit.apply cfg page source_frame st v).max_dist = st.max_dist →
        (∀ fa g va, v ≠ Visit.leaf fa g va) →
        st.max_dist ≤ (vs.foldl (Visit.apply cfg page source_frame)
          (Visit.apply cfg page source_frame st v)).max_dist ∧
        (∀ fa g va, (Visit.leaf fa g va = v ∨ Visit.leaf fa g va ∈ vs) → g ≠ source_frame →
          getCyclicDistance cfg va page ≤ (vs.foldl (Visit.apply cfg page source_frame)
            (Visit.apply cfg page source_frame st v)).max_dist) ∧
        (((vs.foldl (Visit.apply cfg page source_frame)
              (Visit.apply cfg page source_frame st v)).evict_page = st.evict_page ∧
            (vs.foldl (Visit.apply cfg page source_frame)
              (Visit.apply cfg page source_frame st v)).max_dist = st.max_dist) ∨
          ((Visit.leaf (vs.foldl (Visit.apply cfg page source_frame)
                (Visit.apply cfg page source_frame st v)).evict_page.frame.father_pm_address
              (vs.foldl (Visit.apply cfg page source_frame)
                (Visit.apply cfg page source_frame st v)).evict_page.frame.number
              (vs.foldl (Visit.apply cfg page source_frame)
                (Visit.apply cfg page source_frame st v)).evict_page.page_num = v ∨
            Visit.leaf (vs.foldl (Visit.apply cfg page source_frame)
                (Visit.apply cfg page source_frame st v)).evict_page.frame.father_pm_address
              (vs.foldl (Visit.apply cfg page source_frame)
                (Visit.apply cfg page source_frame st v)).evict_page.frame.number
              (vs.foldl (Visit.apply cfg page source_frame)
                (Visit.apply cfg page source_frame st v)).evict_page.page_num ∈ vs) ∧
            (vs.foldl (Visit.apply cfg page source_frame)
              (Visit.apply cfg page source_frame st v)).evict_page.frame.number ≠ source_frame ∧
            (vs.foldl (Visit.apply cfg page source_frame)
              (Visit.apply cfg page source_frame st v)).max_dist =
              getCyclicDistance cfg
                (vs.foldl (Visit.apply cfg page source_frame)
                  (Visit.apply cfg page source_frame st v)).evict_page.page_num page ∧
            st.max_dist < (vs.foldl (Visit.apply cfg page source_frame)
              (Visit.apply cfg page source_frame st v)).max_dist)) := by
      intro he hd hnl
      rw [he, hd] at h3
      rw [hd] at h1
      refine ⟨h1, ?_, ?_⟩
      · rintro fa g va (h | h) hg
        · exact absurd h.symm (hnl fa g va)
        · exact h2 fa g va h hg
      · rcases h3 with h3 | ⟨h3, h4, h5, h6⟩
        · exact Or.inl h3
        · exact Or.inr ⟨Or.inr h3, h4, h5, h6⟩
    cases v with
    | edge nf =>
      apply hkeep
      · simp only [Visit.apply]; split <;> rfl
      · simp only [Visit.apply]; split <;> rfl
      · intro fa g va h; cases h
    | table fa g e =>
      apply hkeep
      · exact DFSempty_evict_page st e fa g
      · exact DFSempty_max_dist st e fa g
      · intro fa g va h; cases h
    | leaf fa g va =>
      by_cases hc : getCyclicDistance cfg va page > st.max_dist ∧ g ≠ source_frame
      · have hst : Visit.apply cfg page source_frame st (Visit.leaf fa g va) =
            { st with
              max_dist := getCyclicDistance cfg va page
              evict_page := { frame := { father_pm_address := fa, number := g },
                              page_num := va } } := by
          simp only [Visit.apply, DFSleaf]
          rw [if_pos hc]
        rw [hst] at h1 h2 h3 ⊢
        simp only at h1 h3
        refine ⟨by omega, ?_, ?_⟩
        · rintro fa' g' va' (h | h) hg
          · injection h with _ _ hva; subst hva; exact h1
          · exact h2 fa' g' va' h hg
        · right
          rcases h3 with ⟨h3, h4⟩ | ⟨h3, h4, h5, h6⟩
          · rw [h3, h4]
            exact ⟨Or.inl rfl, hc.2, rfl, hc.1⟩
          · exact ⟨Or.inr h3, h4, h5, by omega⟩
      · have hst : Visit.apply cfg page source_frame st (Visit.leaf fa g va) = st := by
          simp only [Visit.apply, DFSleaf]
          rw [if_neg hc]
        rw [hst] at h1 h2 h3 ⊢
        refine ⟨h1, ?_, ?_⟩
        · rintro fa' g' va' (h | h) hg
          · injection h with _ hg' hva; subst hva; subst hg'
            have : ¬ getCyclicDistance cfg va' page > st.max_dist := fun hgt => hc ⟨hgt, hg⟩
            omega
          · exact h2 fa' g' va' h hg
        · rcases h3 with h3 | ⟨h3, h4, h5, h6⟩
          · exact Or.inl h3
          · exact Or.inr ⟨Or.inr h3, h4, h5, h6⟩

end

section

variable {cfg : Config} {ram : Nat → Int}

theorem isEmptyTable_iff (g : Nat) :
    isEmptyTable cfg ram g = true ↔ ∀ o, o < PAGE_SIZE cfg → entry cfg ram g o = 0 := by
  simp [isEmptyTable, List.all_eq_true]

theorem entry_lt (g o : Nat) : entry cfg ram g o < 2 ^ 32 := wordToU64_lt _

theorem Reach.lt_word {p : List Nat} {g : Nat} (h : Reach cfg ram p g) : g < 2 ^ 32 := by
  cases p using List.reverseRecOn with
  | nil => cases h; norm_num
  | append_singleton p o =>
    obtain ⟨f, _, _, _, h4, _⟩ := Reach.extend_inv h
    rw [← h4]; exact entry_lt f o

theorem Reach.nil_eq {g : Nat} (h : Reach cfg ram [] g) : g = 0 := by
  cases h; rfl

/-- The outputs of the traversal started by `getEmptyFrame`, as the fold of the
visits from the root. -/
theorem DFSroot_eq (page source_frame : Nat) :
    DFSroot cfg ram page source_frame =
      (visits cfg ram cfg.TABLES_DEPTH 0 0 0 0).foldl (Visit.apply cfg page source_frame)
        DfsState.init := DFS_eq_foldl _ _ _ _ _ _ _ _ _ _

/-- Every frame number found in a reachable slot is at most `max_frame`. -/
theorem DFSroot_max_ge (page source_frame : Nat) {p : List Nat} {g : Nat}
    (h : Reach cfg ram p g) : g ≤ (DFSroot cfg ram page source_frame).max_frame := by
  by_cases hp : p = []
  · subst hp; rw [h.nil_eq]; exact Nat.zero_le _
  · obtain ⟨fa', va', ha⟩ := Descends.arrives h 0 0
    have hm : Visit.edge g ∈ visits cfg ram cfg.TABLES_DEPTH 0 0 0 0 :=
      (mem_visits cfg.TABLES_DEPTH 0 0 0 0 (Visit.edge g) (by omega) (by omega)).2
        ⟨p, fa', va', hp, ha⟩
    rw [DFSroot_eq]
    exact (foldl_max_frame _ _).2.1 g hm

/-- `max_frame` is 0 or a frame number found in a reachable slot. -/
theorem DFSroot_max_attained (page source_frame : Nat) :
    (DFSroot cfg ram page source_frame).max_frame = 0 ∨
      ∃ p, p ≠ [] ∧ Reach cfg ram p (DFSroot cfg ram page source_frame).max_frame := by
  rw [DFSroot_eq]
  rcases (@foldl_max_frame cfg page source_frame
    (visits cfg ram cfg.TABLES_DEPTH 0 0 0 0) DfsState.init).2.2 with h | h
  · left; rw [h]; rfl
  · right
    obtain ⟨q, fa', va', hq, ha⟩ :=
      (mem_visits cfg.TABLES_DEPTH 0 0 0 0 (Visit.edge _) (by omega) (by omega)).1 h
    exact ⟨q, hq, ha.descends⟩

/-- What a recorded empty frame is: a reachable table below the root, all of whose
slots are zero, which is not the source frame, recorded with the address of the
slot that points to it. -/
theorem DFSroot_empty_some (page source_frame : Nat)
    (he : (DFSroot cfg ram page source_frame).empty_frame.number ≠ 0) :
    ∃ p f o, Reach cfg ram p f ∧ p.length + 1 < cfg.TABLES_DEPTH ∧ o < PAGE_SIZE cfg ∧
      entry cfg ram f o = (DFSroot cfg ram page source_frame).empty_frame.number ∧
      (DFSroot cfg ram page source_frame).empty_frame.father_pm_address
        = getPhysicalAddress cfg f o ∧
      (DFSroot cfg ram page source_frame).empty_frame.number ≠ source_frame ∧
      ∀ o', o' < PAGE_SIZE cfg →
        entry cfg ram (DFSroot cfg ram page source_frame).empty_frame.number o' = 0 := by
  rw [DFSroot_eq] at he ⊢
  obtain ⟨hm, hs⟩ := (@foldl_empty cfg page source_frame
    (visits cfg ram cfg.TABLES_DEPTH 0 0 0 0) DfsState.init rfl).1 he
  obtain ⟨q, va', ha, hl, hemp⟩ :=
    (mem_visits cfg.TABLES_DEPTH 0 0 0 0 (Visit.table _ _ true) (by omega) (by omega)).1 hm
  rcases ha.father_eq with ⟨hq, _⟩ | ⟨q0, o, f, hq, hd, hf⟩
  · subst hq; exact absurd (Reach.nil_eq ha.descends) he
  · subst hq
    obtain ⟨f', hd', hlen, ho, hent, _⟩ := Reach.extend_inv ha.descends
    have hff : f' = f := Descends.functional hd' hd
    subst hff
    refine ⟨q0, f', o, hd, ?_, ho, hent, hf, hs, (isEmptyTable_iff _).1 hemp.symm⟩
    simpa using hl

/-- If no empty frame was recorded, every reachable table other than the root and
the source frame has a non-zero slot. -/
theorem DFSroot_empty_none (page source_frame : Nat)
    (he : (DFSroot cfg ram page source_frame).empty_frame.number = 0)
    {p : List Nat} {g : Nat} (h : Reach cfg ram p g) (hl : p.length < cfg.TABLES_DEPTH)
    (hs : g ≠ source_frame) (h0 : g ≠ 0) :
    ∃ o, o < PAGE_SIZE cfg ∧ entry cfg ram g o ≠ 0 := by
  rw [DFSroot_eq] at he
  have hall := (@foldl_empty cfg page source_frame
    (visits cfg ram cfg.TABLES_DEPTH 0 0 0 0) DfsState.init rfl).2 he
  by_contra hcon
  push_neg at hcon
  obtain ⟨fa', va', ha⟩ := Descends.arrives h 0 0
  have hm : Visit.table fa' g true ∈ visits cfg ram cfg.TABLES_DEPTH 0 0 0 0 :=
    (mem_visits cfg.TABLES_DEPTH 0 0 0 0 (Visit.table fa' g true) (by omega) (by omega)).2
      ⟨p, va', ha, by simpa using hl, ((isEmptyTable_iff _).2 hcon).symm⟩
  rcases hall fa' g hm with h | h
  · exact hs h
  · exact h0 h

/-- What a recorded eviction candidate is: a reachable leaf, not the source frame,
recorded with the address of the slot that points to it and with the page number
reconstructed along its path. -/
theorem DFSroot_evict_some (hTD : 1 ≤ cfg.TABLES_DEPTH) (page source_frame : Nat)
    (he : (DFSroot cfg ram page source_frame).evict_page.frame.number ≠ 0) :
    ∃ p f o, Reach cfg ram p f ∧ p.length + 1 = cfg.TABLES_DEPTH ∧ o < PAGE_SIZE cfg ∧
      entry cfg ram f o = (DFSroot cfg ram page source_frame).evict_page.frame.number ∧
      (DFSroot cfg ram page source_frame).evict_page.frame.father_pm_address
        = getPhysicalAddress cfg f o ∧
      (DFSroot cfg ram page source_frame).evict_page.page_num
        = (p ++ [o]).foldl (vaStep cfg) 0 ∧
      (DFSroot cfg ram page source_frame).evict_page.frame.number ≠ source_frame := by
  rw [DFSroot_eq] at he ⊢
  rcases (@foldl_evict cfg page source_frame
    (visits cfg ram cfg.TABLES_DEPTH 0 0 0 0) DfsState.init).2.2 with ⟨h, _⟩ | ⟨hm, hs, _, _⟩
  · rw [h] at he; exact absurd rfl he
  · obtain ⟨q, ha, hl⟩ :=
      (mem_visits cfg.TABLES_DEPTH 0 0 0 0 (Visit.leaf _ _ _) (by omega) (by omega)).1 hm
    rcases ha.father_eq with ⟨hq, _⟩ | ⟨q0, o, f, hq, hd, hf⟩
    · subst hq; simp at hl; omega
    · subst hq
      obtain ⟨f', hd', hlen, ho, hent, _⟩ := Reach.extend_inv ha.descends
      have hff : f' = f := Descends.functional hd' hd
      subst hff
      refine ⟨q0, f', o, hd, ?_, ho, hent, hf, ha.va_eq, hs⟩
      simpa using hl

/-- If no eviction candidate was recorded, every reachable leaf other than the
source frame is at cyclic distance 0 from the page swapped in. -/
theorem DFSroot_evict_none (hTD : 1 ≤ cfg.TABLES_DEPTH) (page source_frame : Nat)
    (he : (DFSroot cfg ram page source_frame).evict_page.frame.number = 0)
    {p : List Nat} {g : Nat} (h : Reach cfg ram p g) (hl : p.length = cfg.TABLES_DEPTH)
    (hs : g ≠ source_frame) :
    getCyclicDistance cfg (p.foldl (vaStep cfg) 0) page = 0 := by
  rw [DFSroot_eq] at he
  obtain ⟨_, hle, hor⟩ := @foldl_evict cfg page source_frame
    (visits cfg ram cfg.TABLES_DEPTH 0 0 0 0) DfsState.init
  have hmd : ((visits cfg ram cfg.TABLES_DEPTH 0 0 0 0).foldl
      (Visit.apply cfg page source_frame) DfsState.init).max_dist = 0 := by
    rcases hor with ⟨_, h2⟩ | ⟨hm, _, _, _⟩
    · rw [h2]; rfl
    · exfalso
      obtain ⟨q, ha, hl'⟩ :=
        (mem_visits cfg.TABLES_DEPTH 0 0 0 0 (Visit.leaf _ _ _) (by omega) (by omega)).1 hm
      have hq : q ≠ [] := by
        intro hq; subst hq; simp at hl'; omega
      exact Descends.nonzero ha.descends hq he
  obtain ⟨fa', va', ha⟩ := Descends.arrives h 0 0
  have hm : Visit.leaf fa' g va' ∈ visits cfg ram cfg.TABLES_DEPTH 0 0 0 0 :=
    (mem_visits cfg.TABLES_DEPTH 0 0 0 0 (Visit.leaf fa' g va') (by omega) (by omega)).2
      ⟨p, ha, by simpa using hl⟩
  have := hle fa' g va' hm hs
  rw [hmd, ha.va_eq] at this
  omega

end

section

variable {cfg : Config}

theorem addr_inj {f o f' o' : Nat} (ho : o < PAGE_SIZE cfg) (ho' : o' < PAGE_SIZE cfg)
    (h : f * PAGE_SIZE cfg + o = f' * PAGE_SIZE cfg + o') : f = f' ∧ o = o' := by
  rcases Nat.lt_trichotomy f f' with hlt | heq | hgt
  · have := Nat.mul_le_mul_right (PAGE_SIZE cfg) (Nat.succ_le_of_lt hlt)
    rw [Nat.succ_mul] at this
    omega
  · subst heq; exact ⟨rfl, by omega⟩
  · have := Nat.mul_le_mul_right (PAGE_SIZE cfg) (Nat.succ_le_of_lt hgt)
    rw [Nat.succ_mul] at this
    omega

theorem GET_BITS_eq (i b n : Nat) : GET_BITS i b n = (n / 2 ^ i) % 2 ^ b := by
  unfold GET_BITS
  rw [Nat.one_shiftLeft, Nat.and_comm, Nat.and_pow_two_sub_one_eq_mod, Nat.shiftRight_eq_div_pow]

theorem getOffset_lt (va d : Nat) : getOffset cfg va d < PAGE_SIZE cfg :=
  Nat.mod_lt _ (PAGE_SIZE_pos cfg)

theorem TOP_le (h : cfg.WF) : TOP cfg ≤ PAGE_SIZE cfg := by
  unfold TOP PAGE_SIZE
  apply Nat.pow_le_pow_right (by norm_num)
  have := h.vaw_le
  rw [Nat.add_mul] at this
  omega

/-- The slice of a valid address taken at level `k`. -/
theorem getOffset_eq_mod (h : cfg.WF) {va : Nat} (hva : va < VIRTUAL_MEMORY_SIZE cfg) {k : Nat}
    (hk : k ≤ cfg.TABLES_DEPTH) :
    getOffset cfg va k =
      (va / 2 ^ ((cfg.TABLES_DEPTH - k) * cfg.OFFSET_WIDTH)) % PAGE_SIZE cfg := by
  unfold getOffset
  simp only [GET_BITS_eq]
  have hgt := h.vaw_gt
  have hle := h.vaw_le
  rw [Nat.add_mul] at hle
  rcases Nat.eq_zero_or_pos k with hk0 | hkpos
  · subst hk0
    simp only [Nat.sub_zero]
    have hsmall : va / 2 ^ (cfg.TABLES_DEPTH * cfg.OFFSET_WIDTH) < TOP cfg := by
      unfold TOP
      rw [Nat.div_lt_iff_lt_mul (by positivity), ← Nat.pow_add]
      have : cfg.VIRTUAL_ADDRESS_WIDTH - cfg.TABLES_DEPTH * cfg.OFFSET_WIDTH +
          cfg.TABLES_DEPTH * cfg.OFFSET_WIDTH = cfg.VIRTUAL_ADDRESS_WIDTH := by omega
      rw [this]; exact hva
    have hmin : MIN (cfg.VIRTUAL_ADDRESS_WIDTH - cfg.TABLES_DEPTH * cfg.OFFSET_WIDTH)
        cfg.OFFSET_WIDTH = cfg.VIRTUAL_ADDRESS_WIDTH - cfg.TABLES_DEPTH * cfg.OFFSET_WIDTH := by
      unfold MIN; split <;> omega
    rw [hmin]
    have : va / 2 ^ (cfg.TABLES_DEPTH * cfg.OFFSET_WIDTH) %
        2 ^ (cfg.VIRTUAL_ADDRESS_WIDTH - cfg.TABLES_DEPTH * cfg.OFFSET_WIDTH) =
        va / 2 ^ (cfg.TABLES_DEPTH * cfg.OFFSET_WIDTH) := Nat.mod_eq_of_lt hsmall
    rw [this]
  · have h1 : (cfg.TABLES_DEPTH - k) * cfg.OFFSET_WIDTH
        = cfg.TABLES_DEPTH * cfg.OFFSET_WIDTH - k * cfg.OFFSET_WIDTH := Nat.sub_mul _ _ _
    have h2 : cfg.OFFSET_WIDTH ≤ k * cfg.OFFSET_WIDTH := Nat.le_mul_of_pos_left _ hkpos
    have h3 : k * cfg.OFFSET_WIDTH ≤ cfg.TABLES_DEPTH * cfg.OFFSET_WIDTH :=
      Nat.mul_le_mul_right _ hk
    have hmin : MIN (cfg.VIRTUAL_ADDRESS_WIDTH - (cfg.TABLES_DEPTH - k) * cfg.OFFSET_WIDTH)
        cfg.OFFSET_WIDTH = cfg.OFFSET_WIDTH := by
      unfold MIN; split <;> omega
    rw [hmin]
    unfold PAGE_SIZE
    rw [Nat.mod_mod]

theorem getOffset_zero_lt_TOP (h : cfg.WF) {va : Nat} (hva : va < VIRTUAL_MEMORY_SIZE cfg) :
    getOffset cfg va 0 < TOP cfg := by
  rw [getOffset_eq_mod h hva (Nat.zero_le _)]
  have hgt := h.vaw_gt
  have hsmall : va / 2 ^ (cfg.TABLES_DEPTH * cfg.OFFSET_WIDTH) < TOP cfg := by
    unfold TOP
    rw [Nat.div_lt_iff_lt_mul (by positivity), ← Nat.pow_add]
    have : cfg.VIRTUAL_ADDRESS_WIDTH - cfg.TABLES_DEPTH * cfg.OFFSET_WIDTH +
        cfg.TABLES_DEPTH * cfg.OFFSET_WIDTH = cfg.VIRTUAL_ADDRESS_WIDTH := by omega
    rw [this]; exact hva
  simp only [Nat.sub_zero]
  exact lt_of_le_of_lt (Nat.mod_le _ _) hsmall

theorem getOffset_last (h : cfg.WF) {va : Nat} (hva : va < VIRTUAL_MEMORY_SIZE cfg) :
    getOffset cfg va cfg.TABLES_DEPTH = va % PAGE_SIZE cfg := by
  rw [getOffset_eq_mod h hva (Nat.le_refl _)]
  simp

theorem shiftRight_eq_div (va : Nat) : va >>> cfg.OFFSET_WIDTH = va / PAGE_SIZE cfg := by
  rw [Nat.shiftRight_eq_div_pow]; rfl

/-- `vaStep` without wrap-around is multiply-and-add. -/
theorem vaStep_eq {x o : Nat} (hx : x * PAGE_SIZE cfg < U64) (ho : o < PAGE_SIZE cfg) :
    vaStep cfg x o = x * PAGE_SIZE cfg + o := by
  unfold vaStep
  rw [Nat.shiftLeft_eq]
  have : x * 2 ^ cfg.OFFSET_WIDTH % U64 = x * 2 ^ cfg.OFFSET_WIDTH := Nat.mod_eq_of_lt hx
  rw [this, Nat.mul_comm x, ← Nat.mul_add_lt_is_or ho]
  unfold PAGE_SIZE
  ring

theorem vaPath_length (va : Nat) : (vaPath cfg va).length = cfg.TABLES_DEPTH := by
  simp [vaPath]

theorem vaPath_lt (va : Nat) : ∀ o ∈ vaPath cfg va, o < PAGE_SIZE cfg := by
  intro o ho
  simp only [vaPath, List.mem_map] at ho
  obtain ⟨i, _, rfl⟩ := ho
  exact getOffset_lt va i

theorem pageNum_nil : pageNum cfg [] = 0 := rfl

theorem pageNum_snoc_raw (p : List Nat) (o : Nat) :
    pageNum cfg (p ++ [o]) = vaStep cfg (pageNum cfg p) o := by
  simp [pageNum, List.foldl_append]

theorem pow_page (k : Nat) : PAGE_SIZE cfg ^ k = 2 ^ (k * cfg.OFFSET_WIDTH) := by
  unfold PAGE_SIZE; rw [← Nat.pow_mul, Nat.mul_comm]

theorem pow_page_lt (h : cfg.WF) {k : Nat} (hk : k ≤ cfg.TABLES_DEPTH) :
    PAGE_SIZE cfg ^ k < 2 ^ 63 := by
  rw [pow_page]
  apply Nat.pow_lt_pow_right (by norm_num)
  have := Nat.mul_le_mul_right cfg.OFFSET_WIDTH hk
  have := h.vaw_gt; have := h.vaw_63
  omega

/-- Along a path of slots that are offsets, no longer than `TABLES_DEPTH`, the page
number is built without wrap-around. -/
theorem pageNum_lt (h : cfg.WF) : ∀ (p : List Nat), (∀ o ∈ p, o < PAGE_SIZE cfg) →
    p.length ≤ cfg.TABLES_DEPTH → pageNum cfg p < PAGE_SIZE cfg ^ p.length ∧
      ∀ o, o < PAGE_SIZE cfg → p.length + 1 ≤ cfg.TABLES_DEPTH →
        pageNum cfg (p ++ [o]) = pageNum cfg p * PAGE_SIZE cfg + o := by
  intro p
  induction p using List.reverseRecOn with
  | nil =>
    intro _ _
    refine ⟨by simp [pageNum], ?_⟩
    intro o ho _
    rw [pageNum_snoc_raw, vaStep_eq (by simp [pageNum, U64]) ho]
  | append_singleton p o ih =>
    intro hlt hlen
    simp only [List.length_append, List.length_singleton] at hlen ⊢
    obtain ⟨ih1, ih2⟩ := ih (fun o' ho' => hlt o' (by simp [ho'])) (by omega)
    have ho : o < PAGE_SIZE cfg := hlt o (by simp)
    have hval := ih2 o ho hlen
    have hb : pageNum cfg (p ++ [o]) < PAGE_SIZE cfg ^ (p.length + 1) := by
      rw [hval, Nat.pow_succ]
      calc pageNum cfg p * PAGE_SIZE cfg + o < pageNum cfg p * PAGE_SIZE cfg + PAGE_SIZE cfg := by
            omega
        _ = (pageNum cfg p + 1) * PAGE_SIZE cfg := by ring
        _ ≤ PAGE_SIZE cfg ^ p.length * PAGE_SIZE cfg := Nat.mul_le_mul_right _ ih1
    refine ⟨hb, ?_⟩
    intro o' ho' hlen'
    rw [pageNum_snoc_raw, vaStep_eq ?_ ho']
    have h1 : pageNum cfg (p ++ [o]) * PAGE_SIZE cfg
        < PAGE_SIZE cfg ^ (p.length + 1) * PAGE_SIZE cfg :=
      Nat.mul_lt_mul_of_pos_right hb (PAGE_SIZE_pos cfg)
    have h2 : PAGE_SIZE cfg ^ (p.length + 1) * PAGE_SIZE cfg = PAGE_SIZE cfg ^ (p.length + 2) := by
      rw [← Nat.pow_succ]
    have h3 := pow_page_lt h (k := p.length + 2) (by omega)
    unfold U64
    omega

theorem pageNum_snoc (h : cfg.WF) {p : List Nat} {o : Nat} (hp : ∀ o ∈ p, o < PAGE_SIZE cfg)
    (ho : o < PAGE_SIZE cfg) (hlen : p.length + 1 ≤ cfg.TABLES_DEPTH) :
    pageNum cfg (p ++ [o]) = pageNum cfg p * PAGE_SIZE cfg + o :=
  (pageNum_lt h p hp (by omega)).2 o ho hlen

/-- Paths of the same length with the same reconstructed page number are equal. -/
theorem pageNum_inj (h : cfg.WF) : ∀ (p p' : List Nat), (∀ o ∈ p, o < PAGE_SIZE cfg) →
    (∀ o ∈ p', o < PAGE_SIZE cfg) → p.length = p'.length → p.length ≤ cfg.TABLES_DEPTH →
    pageNum cfg p = pageNum cfg p' → p = p' := by
  intro p
  induction p using List.reverseRecOn with
  | nil =>
    intro p' _ _ hl _ _
    exact (List.length_eq_zero.1 (by simpa using hl.symm)).symm
  | append_singleton p o ih =>
    intro p' hp hp' hl hlen heq
    cases p' using List.reverseRecOn with
    | nil => simp at hl
    | append_singleton p' o' =>
      simp only [List.length_append, List.length_singleton] at hl hlen
      have hpo : ∀ x ∈ p, x < PAGE_SIZE cfg := fun x hx => hp x (by simp [hx])
      have hpo' : ∀ x ∈ p', x < PAGE_SIZE cfg := fun x hx => hp' x (by simp [hx])
      have ho : o < PAGE_SIZE cfg := hp o (by simp)
      have ho' : o' < PAGE_SIZE cfg := hp' o' (by simp)
      rw [pageNum_snoc h hpo ho hlen, pageNum_snoc h hpo' ho' (by omega)] at heq
      obtain ⟨h1, h2⟩ := addr_inj ho ho' heq
      rw [ih p' hpo hpo' (by omega) (by omega) h1, h2]

/-- The page number reconstructed along the first `k` slots of a valid address. -/
theorem pageNum_vaPath_take (h : cfg.WF) {va : Nat} (hva : va < VIRTUAL_MEMORY_SIZE cfg) :
    ∀ k, k ≤ cfg.TABLES_DEPTH →
      pageNum cfg ((List.range k).map (getOffset cfg va)) =
        va / 2 ^ ((cfg.TABLES_DEPTH + 1 - k) * cfg.OFFSET_WIDTH) := by
  intro k
  induction k with
  | zero =>
    intro _
    simp only [List.range_zero, List.map_nil, pageNum_nil, Nat.sub_zero]
    symm
    apply Nat.div_eq_of_lt
    exact lt_of_lt_of_le hva (Nat.pow_le_pow_right (by norm_num) h.vaw_le)
  | succ k ih =>
    intro hk
    rw [List.range_succ, List.map_append, List.map_singleton]
    have hp : ∀ o ∈ (List.range k).map (getOffset cfg va), o < PAGE_SIZE cfg := by
      intro o ho
      simp only [List.mem_map] at ho
      obtain ⟨i, _, rfl⟩ := ho
      exact getOffset_lt va i
    rw [pageNum_snoc h hp (getOffset_lt va k) (by simpa using hk), ih (by omega),
      getOffset_eq_mod h hva (by omega)]
    have e1 : cfg.TABLES_DEPTH + 1 - k = (cfg.TABLES_DEPTH - k) + 1 := by omega
    have e2 : cfg.TABLES_DEPTH + 1 - (k + 1) = cfg.TABLES_DEPTH - k := by omega
    rw [e1, e2, Nat.add_mul, Nat.one_mul, Nat.pow_add, ← Nat.div_div_eq_div_mul]
    exact Nat.div_add_mod' _ _

/-- The page number reconstructed along the slots of a valid address is the page
number of the address. -/
theorem pageNum_vaPath (h : cfg.WF) {va : Nat} (hva : va < VIRTUAL_MEMORY_SIZE cfg) :
    pageNum cfg (vaPath cfg va) = va >>> cfg.OFFSET_WIDTH := by
  unfold vaPath
  rw [pageNum_vaPath_take h hva _ (Nat.le_refl _), Nat.shiftRight_eq_div_pow]
  have : cfg.TABLES_DEPTH + 1 - cfg.TABLES_DEPTH = 1 := by omega
  rw [this, Nat.one_mul]

theorem NUM_PAGES_eq (h : cfg.WF) :
    NUM_PAGES cfg = TOP cfg * PAGE_SIZE cfg ^ (cfg.TABLES_DEPTH - 1) := by
  unfold NUM_PAGES VIRTUAL_MEMORY_SIZE TOP
  rw [pow_page, ← Nat.pow_add]
  unfold PAGE_SIZE
  have hgt := h.vaw_gt
  have htd := h.td_pos
  have h1 : (cfg.TABLES_DEPTH - 1) * cfg.OFFSET_WIDTH
      = cfg.TABLES_DEPTH * cfg.OFFSET_WIDTH - cfg.OFFSET_WIDTH := by
    rw [Nat.sub_mul, Nat.one_mul]
  have h2 : cfg.OFFSET_WIDTH ≤ cfg.TABLES_DEPTH * cfg.OFFSET_WIDTH :=
    Nat.le_mul_of_pos_left _ htd
  rw [Nat.pow_div (by omega) (by norm_num)]
  congr 1
  omega

/-- A path of `TABLES_DEPTH` slots whose first slot is one a valid address can
select reconstructs a page number below `NUM_PAGES`. -/
theorem pageNum_lt_NUM_PAGES (h : cfg.WF) (o0 : Nat) (ho0 : o0 < TOP cfg) :
    ∀ rest : List Nat, (∀ o ∈ rest, o < PAGE_SIZE cfg) → rest.length + 1 ≤ cfg.TABLES_DEPTH →
      pageNum cfg (o0 :: rest) < TOP cfg * PAGE_SIZE cfg ^ rest.length := by
  intro rest
  have hT := TOP_le h
  induction rest using List.reverseRecOn with
  | nil =>
    intro _ _
    have := pageNum_snoc h (p := []) (o := o0) (by simp) (by omega) (by simpa using h.td_pos)
    simp only [List.nil_append] at this
    rw [this]; simp [pageNum_nil]; exact ho0
  | append_singleton r o ih =>
    intro hlt hlen
    simp only [List.length_append, List.length_singleton] at hlen ⊢
    have hr : ∀ x ∈ r, x < PAGE_SIZE cfg := fun x hx => hlt x (by simp [hx])
    have ho : o < PAGE_SIZE cfg := hlt o (by simp)
    have ih' := ih hr (by omega)
    have hcons : o0 :: (r ++ [o]) = (o0 :: r) ++ [o] := by simp
    have hall : ∀ x ∈ o0 :: r, x < PAGE_SIZE cfg := by
      intro x hx
      rcases List.mem_cons.1 hx with hx | hx
      · subst hx; omega
      · exact hr x hx
    rw [hcons, pageNum_snoc h hall ho (by simpa using hlen), Nat.pow_succ, ← Nat.mul_assoc]
    calc pageNum cfg (o0 :: r) * PAGE_SIZE cfg + o
        < pageNum cfg (o0 :: r) * PAGE_SIZE cfg + PAGE_SIZE cfg := by omega
      _ = (pageNum cfg (o0 :: r) + 1) * PAGE_SIZE cfg := by ring
      _ ≤ TOP cfg * PAGE_SIZE cfg ^ r.length * PAGE_SIZE cfg := Nat.mul_le_mul_right _ ih'

theorem NUM_PAGES_lt (h : cfg.WF) : NUM_PAGES cfg < 2 ^ 63 := by
  unfold NUM_PAGES VIRTUAL_MEMORY_SIZE
  have : 2 ^ cfg.VIRTUAL_ADDRESS_WIDTH ≤ 2 ^ 63 := Nat.pow_le_pow_right (by norm_num) h.vaw_63
  have h2 : 2 ^ cfg.VIRTUAL_ADDRESS_WIDTH / PAGE_SIZE cfg ≤ 2 ^ cfg.VIRTUAL_ADDRESS_WIDTH :=
    Nat.div_le_self _ _
  have hps : 1 < PAGE_SIZE cfg := by
    unfold PAGE_SIZE
    have hgt := h.vaw_gt; have hle := h.vaw_le
    rw [Nat.add_mul] at hle
    exact Nat.one_lt_two_pow (by omega)
  have h3 : 2 ^ cfg.VIRTUAL_ADDRESS_WIDTH / PAGE_SIZE cfg < 2 ^ cfg.VIRTUAL_ADDRESS_WIDTH :=
    Nat.div_lt_self (by positivity) hps
  omega

/-- Distinct page numbers below `NUM_PAGES` are at positive cyclic distance. -/
theorem getCyclicDistance_pos (h : cfg.WF) {a b : Nat} (ha : a < NUM_PAGES cfg)
    (hb : b < NUM_PAGES cfg) (hab : a ≠ b) : 0 < getCyclicDistance cfg a b := by
  have hN := NUM_PAGES_lt h
  unfold getCyclicDistance MIN U64
  simp only []
  split
  · have e : (b + 2 ^ 64 - a) % 2 ^ 64 = b - a := by
      rw [show b + 2 ^ 64 - a = (b - a) + 2 ^ 64 by omega, Nat.add_mod_right]
      exact Nat.mod_eq_of_lt (by omega)
    rw [e]
    have e2 : (NUM_PAGES cfg + 2 ^ 64 - (b - a)) % 2 ^ 64 = NUM_PAGES cfg - (b - a) := by
      rw [show NUM_PAGES cfg + 2 ^ 64 - (b - a) = (NUM_PAGES cfg - (b - a)) + 2 ^ 64 by omega,
        Nat.add_mod_right]
      exact Nat.mod_eq_of_lt (by omega)
    rw [e2]
    split <;> omega
  · have e : (a + 2 ^ 64 - b) % 2 ^ 64 = a - b := by
      rw [show a + 2 ^ 64 - b = (a - b) + 2 ^ 64 by omega, Nat.add_mod_right]
      exact Nat.mod_eq_of_lt (by omega)
    rw [e]
    have e2 : (NUM_PAGES cfg + 2 ^ 64 - (a - b)) % 2 ^ 64 = NUM_PAGES cfg - (a - b) := by
      rw [show NUM_PAGES cfg + 2 ^ 64 - (a - b) = (NUM_PAGES cfg - (a - b)) + 2 ^ 64 by omega,
        Nat.add_mod_right]
      exact Nat.mod_eq_of_lt (by omega)
    rw [e2]
    split <;> omega

end

section

variable {cfg : Config}

theorem Val.unique_word {pm : PM} {a : Nat} {v v' : Int} (h : Val cfg pm a v)
    (h' : Val cfg pm a v') : v = v' := by
  rcases h with ⟨f, hf, hv⟩ | ⟨hn, c, hc, hv⟩
  · rcases h' with ⟨f', hf', hv'⟩ | ⟨hn', _⟩
    · rw [← hv, ← hv', Reach.unique hf hf']
    · exact absurd ⟨f, hf⟩ hn'
  · rcases h' with ⟨f', hf', _⟩ | ⟨_, c', hc', hv'⟩
    · exact absurd ⟨f', hf'⟩ hn
    · rw [hc] at hc'; injection hc' with hc'; rw [← hv, ← hv', hc']

theorem inFrame_addr {f o : Nat} (ho : o < PAGE_SIZE cfg) :
    inFrame cfg f (f * PAGE_SIZE cfg + o) := by
  unfold inFrame; omega

theorem inFrame_iff {f a : Nat} :
    inFrame cfg f a ↔ ∃ o, o < PAGE_SIZE cfg ∧ a = f * PAGE_SIZE cfg + o := by
  constructor
  · rintro ⟨h1, h2⟩
    exact ⟨a - f * PAGE_SIZE cfg, by omega, by omega⟩
  · rintro ⟨o, ho, rfl⟩; exact inFrame_addr ho

theorem inFrame_unique {f f' a : Nat} (h : inFrame cfg f a) (h' : inFrame cfg f' a) : f = f' := by
  obtain ⟨o, ho, rfl⟩ := inFrame_iff.1 h
  obtain ⟨o', ho', h2⟩ := inFrame_iff.1 h'
  exact (addr_inj ho ho' h2).1

theorem PMwrite_ram (pm : PM) (A : Nat) (v : Int) (a : Nat) :
    (PMwrite pm A v).ram a = if a = A then v else pm.ram a := rfl

theorem PMwrite_swap (pm : PM) (A : Nat) (v : Int) : (PMwrite pm A v).swap = pm.swap := rfl

theorem PMwrite_unstored (pm : PM) (A : Nat) (v : Int) :
    (PMwrite pm A v).unstored = pm.unstored := rfl

theorem PMwrite_log (pm : PM) (A : Nat) (v : Int) :
    (PMwrite pm A v).log = pm.log ++ [PMOp.write A v] := rfl

/-- `clearTable` as a fold over an arbitrary list of offsets. -/
theorem clear_foldl (f : Nat) (l : List Nat) : ∀ pm : PM,
    (∀ a, (l.foldl (fun acc i => PMwrite acc (getPhysicalAddress cfg f i) 0) pm).ram a =
      if ∃ i ∈ l, a = getPhysicalAddress cfg f i then 0 else pm.ram a) ∧
    (l.foldl (fun acc i => PMwrite acc (getPhysicalAddress cfg f i) 0) pm).swap = pm.swap ∧
    (l.foldl (fun acc i => PMwrite acc (getPhysicalAddress cfg f i) 0) pm).unstored = pm.unstored ∧
    (l.foldl (fun acc i => PMwrite acc (getPhysicalAddress cfg f i) 0) pm).log =
      pm.log ++ l.map (fun i => PMOp.write (getPhysicalAddress cfg f i) 0) := by
  induction l with
  | nil => intro pm; simp
  | cons i l ih =>
    intro pm
    obtain ⟨h1, h2, h3, h4⟩ := ih (PMwrite pm (getPhysicalAddress cfg f i) 0)
    simp only [List.foldl_cons]
    refine ⟨?_, by rw [h2, PMwrite_swap], by rw [h3, PMwrite_unstored], ?_⟩
    · intro a
      rw [h1, PMwrite_ram]
      by_cases ha : ∃ i' ∈ l, a = getPhysicalAddress cfg f i'
      · have : ∃ i' ∈ i :: l, a = getPhysicalAddress cfg f i' := by
          obtain ⟨i', hi', e⟩ := ha; exact ⟨i', by simp [hi'], e⟩
        rw [if_pos ha, if_pos this]
      · rw [if_neg ha]
        by_cases hai : a = getPhysicalAddress cfg f i
        · have : ∃ i' ∈ i :: l, a = getPhysicalAddress cfg f i' := ⟨i, by simp, hai⟩
          rw [if_pos hai, if_pos this]
        · have : ¬ ∃ i' ∈ i :: l, a = getPhysicalAddress cfg f i' := by
            rintro ⟨i', hi', e⟩
            rcases List.mem_cons.1 hi' with h | h
            · subst h; exact hai e
            · exact ha ⟨i', h, e⟩
          rw [if_neg hai, if_neg this]
    · rw [h4, PMwrite_log]; simp

theorem clearTable_swap (pm : PM) (f : Nat) : (clearTable cfg pm f).swap = pm.swap :=
  (clear_foldl f _ pm).2.1

theorem clearTable_unstored (pm : PM) (f : Nat) : (clearTable cfg pm f).unstored = pm.unstored :=
  (clear_foldl f _ pm).2.2.1

theorem clearTable_log (pm : PM) (f : Nat) :
    (clearTable cfg pm f).log =
      pm.log ++ (List.range (PAGE_SIZE cfg)).map
        (fun i => PMOp.write (getPhysicalAddress cfg f i) 0) :=
  (clear_foldl f _ pm).2.2.2

/-- After `clearTable(f)` the words of frame `f` are zero and all others are
unchanged (for a frame number whose addresses do not wrap around). -/
theorem clearTable_ram (h : cfg.WF) (pm : PM) {f : Nat} (hf : f ≤ 2 ^ 32) (a : Nat) :
    (clearTable cfg pm f).ram a = if inFrame cfg f a then 0 else pm.ram a := by
  unfold clearTable
  rw [(clear_foldl f _ pm).1 a]
  have : (∃ i ∈ List.range (PAGE_SIZE cfg), a = getPhysicalAddress cfg f i) ↔ inFrame cfg f a := by
    rw [inFrame_iff]
    constructor
    · rintro ⟨i, hi, e⟩
      rw [List.mem_range] at hi
      exact ⟨i, hi, by rw [e, getPhysicalAddress_eq cfg h f i hf hi]⟩
    · rintro ⟨i, hi, e⟩
      exact ⟨i, List.mem_range.2 hi, by rw [e, getPhysicalAddress_eq cfg h f i hf hi]⟩
  by_cases hin : inFrame cfg f a
  · rw [if_pos hin, if_pos (this.2 hin)]
  · rw [if_neg hin, if_neg (fun hc => hin (this.1 hc))]

theorem PMrestore_ram (pm : PM) (f page a : Nat) :
    (PMrestore cfg pm f page).ram a =
      if inFrame cfg f a then
        match pm.swap page with
        | some c => c (a - f * PAGE_SIZE cfg)
        | none => pm.unstored pm.ram f page (a - f * PAGE_SIZE cfg)
      else pm.ram a := rfl

theorem PMrestore_swap (pm : PM) (f page : Nat) : (PMrestore cfg pm f page).swap = pm.swap := rfl

theorem PMrestore_unstored (pm : PM) (f page : Nat) :
    (PMrestore cfg pm f page).unstored = pm.unstored := rfl

theorem PMevict_ram (pm : PM) (f page : Nat) : (PMevict cfg pm f page).ram = pm.ram := rfl

theorem PMevict_unstored (pm : PM) (f page : Nat) :
    (PMevict cfg pm f page).unstored = pm.unstored := rfl

theorem PMevict_swap (pm : PM) (f page q : Nat) :
    (PMevict cfg pm f page).swap q =
      if q = page then some (fun o => pm.ram (f * PAGE_SIZE cfg + o)) else pm.swap q := rfl

/-- The slot entry of a reachable table, at its unwrapped address. -/
theorem entry_eq (h : cfg.WF) (ram : Nat → Int) {f o : Nat} (hf : f ≤ 2 ^ 32)
    (ho : o < PAGE_SIZE cfg) : entry cfg ram f o = wordToU64 (ram (f * PAGE_SIZE cfg + o)) := by
  unfold entry; rw [getPhysicalAddress_eq cfg h f o hf ho]

end

section

variable {cfg : Config} {pm pm' : PM} {P : List Nat} {F o r pg m : Nat}

/-- Slots of the surviving tables, other than the link slot and the slots that
pointed to `r`, read the same afterwards. -/
theorem Relink.entry_same (hwf : cfg.WF) (R : Relink cfg pm pm' P F o r pg)
    (ho : o < PAGE_SIZE cfg)
    {p : List Nat} {g o' : Nat} (hg : Reach cfg pm.ram p g) (hgr : g ≠ r)
    (ho' : o' < PAGE_SIZE cfg) (hne : ¬ (g = F ∧ o' = o)) (her : entry cfg pm.ram g o' ≠ r) :
    entry cfg pm'.ram g o' = entry cfg pm.ram g o' := by
  have hg32 : g ≤ 2 ^ 32 := Nat.le_of_lt hg.lt_word
  rw [entry_eq hwf _ hg32 ho', entry_eq hwf _ hg32 ho']
  congr 1
  apply R.same
  · intro hin
    exact hgr (inFrame_unique (inFrame_addr ho') hin)
  · intro heq
    exact hne (addr_inj ho' ho heq)
  · intro p' f o'' hf _ ho'' hent heq
    obtain ⟨h1, h2⟩ := addr_inj ho' ho'' heq
    subst h1; subst h2
    exact her hent

theorem Relink.entry_link (hwf : cfg.WF) (R : Relink cfg pm pm' P F o r pg)
    (hF : Reach cfg pm.ram P F) (ho : o < PAGE_SIZE cfg) : entry cfg pm'.ram F o = r := by
  rw [entry_eq hwf _ (Nat.le_of_lt hF.lt_word) ho, R.linked, wordToU64_u64ToWord r R.r_lt]

theorem Relink.entry_r (hwf : cfg.WF) (R : Relink cfg pm pm' P F o r pg)
    (hlen : P.length + 1 < cfg.TABLES_DEPTH) {o' : Nat} (ho' : o' < PAGE_SIZE cfg) :
    entry cfg pm'.ram r o' = 0 := by
  rw [entry_eq hwf _ (Nat.le_of_lt R.r_lt) ho', R.zeroed hlen o' ho', wordToU64_zero]

/-- The frames reached after relinking: those reached before, except `r`, and `r`
along the new path. -/
theorem Relink.reach_iff (hwf : cfg.WF) (R : Relink cfg pm pm' P F o r pg)
    (T : TreeInv cfg pm.ram m) (hF : Reach cfg pm.ram P F) (hlen : P.length < cfg.TABLES_DEPTH)
    (ho : o < PAGE_SIZE cfg) (hz : entry cfg pm.ram F o = 0) (p : List Nat) (g : Nat) :
    Reach cfg pm'.ram p g ↔ (Reach cfg pm.ram p g ∧ g ≠ r) ∨ (p = P ++ [o] ∧ g = r) := by
  have old_to_new : ∀ {p g}, Reach cfg pm.ram p g → g ≠ r → Reach cfg pm'.ram p g := by
    intro p g h
    refine Reach.snoc_induction (motive := fun p g => g ≠ r → Reach cfg pm'.ram p g)
      (fun _ => Reach.root) ?_ h
    intro p f o' hf ih hl ho' hne hgr
    have hfr : f ≠ r := by
      intro hfr; subst hfr
      rcases R.r_terminal p hf with h1 | h1
      · omega
      · exact hne (h1 o' ho')
    have hneF : ¬ (f = F ∧ o' = o) := by
      rintro ⟨rfl, rfl⟩; exact hne hz
    have hsame := R.entry_same hwf ho hf hfr ho' hneF hgr
    rw [← hsame]
    exact Reach.extend (ih hfr) hl ho' (by rw [hsame]; exact hne)
  constructor
  · intro h
    refine Reach.snoc_induction
      (motive := fun p g => (Reach cfg pm.ram p g ∧ g ≠ r) ∨ (p = P ++ [o] ∧ g = r))
      (Or.inl ⟨Reach.root, fun h => R.r_ne_zero h.symm⟩) ?_ h
    intro p f o' _ ih hl ho' hne
    rcases ih with ⟨hf, hfr⟩ | ⟨hp, hfr⟩
    · by_cases hFo : f = F ∧ o' = o
      · obtain ⟨rfl, rfl⟩ := hFo
        right
        rw [R.entry_link hwf hF ho]
        exact ⟨by rw [T.inj _ _ _ hf hF], rfl⟩
      · by_cases her : entry cfg pm.ram f o' = r
        · exfalso
          apply hne
          rw [entry_eq hwf _ (Nat.le_of_lt hf.lt_word) ho', R.cleared p f o' hf hl ho' her,
            wordToU64_zero]
        · have hsame := R.entry_same hwf ho hf hfr ho' hFo her
          left
          rw [hsame]
          exact ⟨Reach.extend hf hl ho' (by rw [← hsame]; exact hne), her⟩
    · exfalso
      subst hfr
      have hlen' : P.length + 1 < cfg.TABLES_DEPTH := by
        rw [hp] at hl; simpa using hl
      exact hne (R.entry_r hwf hlen' ho')
  · rintro (⟨h, hgr⟩ | ⟨rfl, rfl⟩)
    · exact old_to_new h hgr
    · have hF' := old_to_new hF (Ne.symm R.r_ne_F)
      have := Reach.extend hF' hlen ho (by rw [R.entry_link hwf hF ho]; exact R.r_ne_zero)
      rwa [R.entry_link hwf hF ho] at this

/-- Relinking keeps the page table a strict tree. -/
theorem Relink.treeInv (hwf : cfg.WF) (R : Relink cfg pm pm' P F o r pg)
    (T : TreeInv cfg pm.ram m) (hF : Reach cfg pm.ram P F) (hlen : P.length < cfg.TABLES_DEPTH)
    (ho : o < PAGE_SIZE cfg) (hz : entry cfg pm.ram F o = 0)
    (hr : r ≤ m + 1) (hrN : r < cfg.NUM_FRAMES) (htop : P = [] → o < TOP cfg) :
    TreeInv cfg pm'.ram (max m r) := by
  have iff := R.reach_iff hwf T hF hlen ho hz
  constructor
  · have := T.bound
    rcases Nat.le_total m r with h | h
    · rw [max_eq_right h]; exact hrN
    · rw [max_eq_left h]; exact this
  · intro p g hg
    rcases (iff p g).1 hg with ⟨h, _⟩ | ⟨_, rfl⟩
    · exact le_trans (T.range p g h) (le_max_left _ _)
    · exact le_max_right _ _
  · intro p q g hp hq
    rcases (iff p g).1 hp with ⟨h, hgr⟩ | ⟨hp', hgr⟩
    · rcases (iff q g).1 hq with ⟨h', _⟩ | ⟨_, hgr'⟩
      · exact T.inj p q g h h'
      · exact absurd hgr' hgr
    · rcases (iff q g).1 hq with ⟨_, hgr'⟩ | ⟨hq', _⟩
      · exact absurd hgr hgr'
      · rw [hp', hq']
  · intro g hg1 hgm
    by_cases hgr : g = r
    · exact ⟨P ++ [o], (iff _ _).2 (Or.inr ⟨rfl, hgr⟩)⟩
    · have : g ≤ m := by
        rcases Nat.le_total m r with h | h
        · rw [max_eq_right h] at hgm; omega
        · rw [max_eq_left h] at hgm; exact hgm
      obtain ⟨p, hp⟩ := T.surj g hg1 this
      exact ⟨p, (iff _ _).2 (Or.inl ⟨hp, hgr⟩)⟩
  · intro o0 p g hg
    rcases (iff _ g).1 hg with ⟨h, _⟩ | ⟨hp, _⟩
    · exact T.top o0 p g h
    · cases P with
      | nil =>
        simp only [List.nil_append, List.cons.injEq] at hp
        rw [hp.1]; exact htop rfl
      | cons x P' =>
        simp only [List.cons_append, List.cons.injEq] at hp
        rw [hp.1]
        exact T.top x P' F hF

/-- Relinking keeps the word held by every valid virtual address. -/
theorem Relink.val (hwf : cfg.WF) (R : Relink cfg pm pm' P F o r pg)
    (T : TreeInv cfg pm.ram m) (hF : Reach cfg pm.ram P F) (hlen : P.length < cfg.TABLES_DEPTH)
    (ho : o < PAGE_SIZE cfg) (hz : entry cfg pm.ram F o = 0)
    (hpg : P.length + 1 = cfg.TABLES_DEPTH → pg = pageNum cfg (P ++ [o]))
    {a : Nat} {v : Int} (ha : a < VIRTUAL_MEMORY_SIZE cfg) (hv : Val cfg pm a v) :
    Val cfg pm' a v := by
  have iff := R.reach_iff hwf T hF hlen ho hz
  have hPo : ∀ g, ¬ Reach cfg pm.ram (P ++ [o]) g := by
    intro g hg
    obtain ⟨f, hf, _, _, hent, hne⟩ := Reach.extend_inv hg
    rw [Reach.unique hf hF, hz] at hent
    exact hne hent.symm
  have hpn := pageNum_vaPath hwf ha
  rcases hv with ⟨f, hf, hval⟩ | ⟨hn, c, hc, hval⟩
  · by_cases hfr : f = r
    · subst hfr
      right
      obtain ⟨c, hc, hcj⟩ := R.swap_evicted _ hf (vaPath_length a)
      refine ⟨?_, c, ?_, ?_⟩
      · rintro ⟨g, hg⟩
        rcases (iff _ g).1 hg with ⟨h, hgr⟩ | ⟨hp, _⟩
        · exact hgr (Reach.unique h hf)
        · rw [hp] at hf; exact hPo _ hf
      · rw [← hpn]; exact hc
      · rw [hcj _ (getOffset_lt a cfg.TABLES_DEPTH)]; exact hval
    · left
      refine ⟨f, (iff _ f).2 (Or.inl ⟨hf, hfr⟩), ?_⟩
      rw [← hval]
      have hoff := @getOffset_lt cfg a cfg.TABLES_DEPTH
      apply R.same
      · intro hin
        exact hfr (inFrame_unique (inFrame_addr hoff) hin)
      · intro heq
        have := (addr_inj hoff ho heq).1
        subst this
        have := T.inj _ _ _ hf hF
        rw [← this, vaPath_length] at hlen
        omega
      · intro p' f' o' hf' hl' ho' _ heq
        have := (addr_inj hoff ho' heq).1
        subst this
        have := T.inj _ _ _ hf hf'
        rw [← this, vaPath_length] at hl'
        omega
  · have hswap : pm'.swap (a >>> cfg.OFFSET_WIDTH) = pm.swap (a >>> cfg.OFFSET_WIDTH) := by
      apply R.swap_same
      intro p hp hl heq
      rw [← hpn] at heq
      have := pageNum_inj hwf _ _ (vaPath_lt a) hp.slots_lt (by rw [vaPath_length, hl])
        (by rw [vaPath_length]) heq
      exact hn ⟨r, this ▸ hp⟩
    by_cases hres : ∃ g, Reach cfg pm'.ram (vaPath cfg a) g
    · obtain ⟨g, hg⟩ := hres
      rcases (iff _ g).1 hg with ⟨h, _⟩ | ⟨hp, hgr⟩
      · exact absurd ⟨g, h⟩ hn
      · left
        subst hgr
        refine ⟨g, hg, ?_⟩
        have hl : P.length + 1 = cfg.TABLES_DEPTH := by
          have := congrArg List.length hp
          rw [vaPath_length] at this
          simpa using this.symm
        have hpg' : pg = a >>> cfg.OFFSET_WIDTH := by
          rw [hpg hl, ← hp, hpn]
        rw [← hval]
        apply R.restored hl c _ _ (getOffset_lt a cfg.TABLES_DEPTH)
        rw [hpg', hswap, hc]
    · right
      exact ⟨hres, c, by rw [hswap, hc], hval⟩

end

section

variable {cfg : Config} {pm pm1 : PM} {P : List Nat} {F o r pg m : Nat}

theorem finishStep_swap (F o r i page : Nat) :
    (finishStep cfg pm1 F o r i page).swap = pm1.swap := by
  unfold finishStep
  simp only []
  split <;> split <;> simp [PMrestore_swap, PMwrite_swap, clearTable_swap]

theorem finishStep_unstored (F o r i page : Nat) :
    (finishStep cfg pm1 F o r i page).unstored = pm1.unstored := by
  unfold finishStep
  simp only []
  split <;> split <;> simp [PMrestore_unstored, PMwrite_unstored, clearTable_unstored]

/-- Outside the chosen frame and the link slot, finishing the step changes nothing. -/
theorem finishStep_ram_other (hwf : cfg.WF) (hr : r ≤ 2 ^ 32) (F o i page : Nat) {a : Nat}
    (h1 : ¬ inFrame cfg r a) (h2 : a ≠ getPhysicalAddress cfg F o) :
    (finishStep cfg pm1 F o r i page).ram a = pm1.ram a := by
  unfold finishStep
  simp only []
  have hc : (if i < cfg.TABLES_DEPTH - 1 then clearTable cfg pm1 r else pm1).ram a = pm1.ram a := by
    split
    · rw [clearTable_ram hwf pm1 hr, if_neg h1]
    · rfl
  split
  · rw [PMrestore_ram, if_neg h1, PMwrite_ram, if_neg h2, hc]
  · rw [PMwrite_ram, if_neg h2, hc]

theorem finishStep_ram_link (F o i page : Nat)
    (h1 : ¬ inFrame cfg r (getPhysicalAddress cfg F o)) :
    (finishStep cfg pm1 F o r i page).ram (getPhysicalAddress cfg F o) = u64ToWord r := by
  unfold finishStep
  simp only []
  split
  · rw [PMrestore_ram, if_neg h1, PMwrite_ram, if_pos rfl]
  · rw [PMwrite_ram, if_pos rfl]

theorem finishStep_ram_zeroed (hwf : cfg.WF) (hr : r ≤ 2 ^ 32) (F o i page : Nat)
    (hi : i < cfg.TABLES_DEPTH - 1) {a : Nat} (h1 : inFrame cfg r a)
    (h2 : a ≠ getPhysicalAddress cfg F o) :
    (finishStep cfg pm1 F o r i page).ram a = 0 := by
  unfold finishStep
  simp only []
  rw [if_neg (by omega), PMwrite_ram, if_neg h2, if_pos hi, clearTable_ram hwf pm1 hr, if_pos h1]

theorem finishStep_ram_restored (F o i page : Nat) (hi : i = cfg.TABLES_DEPTH - 1)
    {c : Nat → Int} (hc : pm1.swap page = some c) {j : Nat} (hj : j < PAGE_SIZE cfg) :
    (finishStep cfg pm1 F o r i page).ram (r * PAGE_SIZE cfg + j) = c j := by
  unfold finishStep
  simp only []
  rw [if_pos hi, PMrestore_ram, if_pos (inFrame_addr hj), PMwrite_swap, if_neg (by omega), hc]
  simp

/-- Finishing the step after the decision relinks the chosen frame. -/
theorem finishStep_relink (hwf : cfg.WF) (C : Chosen cfg pm pm1 r)
    (hF : Reach cfg pm.ram P F)
    (ho : o < PAGE_SIZE cfg) (hz : entry cfg pm.ram F o = 0) (hrF : r ≠ F) :
    Relink cfg pm (finishStep cfg pm1 F o r P.length pg) P F o r pg := by
  have hr32 : r ≤ 2 ^ 32 := Nat.le_of_lt C.r_lt
  have hlink : getPhysicalAddress cfg F o = F * PAGE_SIZE cfg + o :=
    getPhysicalAddress_eq cfg hwf F o (Nat.le_of_lt hF.lt_word) ho
  have hlink_out : ¬ inFrame cfg r (getPhysicalAddress cfg F o) := by
    rw [hlink]; intro hin
    exact hrF (inFrame_unique hin (inFrame_addr ho))
  -- a slot pointing to `r` lies outside `r` and is not the link slot
  have hpar : ∀ p f o', Reach cfg pm.ram p f → p.length < cfg.TABLES_DEPTH →
      o' < PAGE_SIZE cfg → entry cfg pm.ram f o' = r →
      ¬ inFrame cfg r (f * PAGE_SIZE cfg + o') ∧
        f * PAGE_SIZE cfg + o' ≠ getPhysicalAddress cfg F o := by
    intro p f o' hf hl ho' hent
    constructor
    · intro hin
      have hfr : f = r := inFrame_unique (inFrame_addr ho') hin
      subst hfr
      rcases C.r_terminal p hf with h | h
      · omega
      · rw [h o' ho'] at hent; exact C.r_ne_zero hent.symm
    · rw [hlink]; intro heq
      obtain ⟨h1, h2⟩ := addr_inj ho' ho heq
      subst h1; subst h2
      rw [hz] at hent; exact C.r_ne_zero hent.symm
  constructor
  · exact C.r_ne_zero
  · exact C.r_lt
  · exact hrF
  · exact C.r_terminal
  · intro a h1 h2 h3
    rw [finishStep_ram_other hwf hr32 F o _ pg h1 (by rw [hlink]; exact h2)]
    exact C.same a h3
  · intro p f o' hf hl ho' hent
    obtain ⟨h1, h2⟩ := hpar p f o' hf hl ho' hent
    rw [finishStep_ram_other hwf hr32 F o _ pg h1 h2]
    exact C.cleared p f o' hf hl ho' hent
  · rw [← hlink]; exact finishStep_ram_link F o _ pg hlink_out
  · intro hl j hj
    apply finishStep_ram_zeroed hwf hr32 F o _ pg (by omega) (inFrame_addr hj)
    rw [hlink]; intro heq
    exact hrF (addr_inj hj ho heq).1
  · intro q hq
    rw [finishStep_swap]; exact C.swap_same q hq
  · intro p hp hl
    rw [finishStep_swap]; exact C.swap_evicted p hp hl
  · intro hl c hc j hj
    rw [finishStep_swap] at hc
    exact finishStep_ram_restored F o _ pg (by omega) hc hj

end

section

variable {cfg : Config} {ram : Nat → Int}

theorem framesAlong_length (f : Nat) (q : List Nat) :
    (framesAlong cfg ram f q).length = q.length + 1 := by
  induction q generalizing f with
  | nil => rfl
  | cons o q ih => simp [framesAlong, ih]

theorem head_mem_framesAlong (f : Nat) (q : List Nat) : f ∈ framesAlong cfg ram f q := by
  cases q <;> simp [framesAlong]

theorem mem_framesAlong_of_take {d f : Nat} {q : List Nat} {g : Nat} (k : Nat)
    (h : Descends cfg ram d f (q.take k) g) : g ∈ framesAlong cfg ram f q := by
  induction q generalizing d f k with
  | nil =>
    simp only [List.take_nil] at h
    cases h; simp [framesAlong]
  | cons o q ih =>
    cases k with
    | zero =>
      simp only [List.take_zero] at h
      cases h; simp [framesAlong]
    | succ k =>
      simp only [List.take_succ_cons] at h
      cases h with
      | cons _ _ _ hrest =>
        simp only [framesAlong, List.mem_cons]
        exact Or.inr (ih k hrest)

theorem take_of_mem_framesAlong {d f : Nat} {q : List Nat} {h : Nat}
    (hd : Descends cfg ram d f q h) {g : Nat} (hg : g ∈ framesAlong cfg ram f q) :
    ∃ k, Descends cfg ram d f (q.take k) g := by
  induction hd with
  | nil d f =>
    simp only [framesAlong, List.mem_singleton] at hg
    subst hg
    exact ⟨0, Descends.nil _ _⟩
  | @cons d f o q h hd' ho hne hrest ih =>
    simp only [framesAlong, List.mem_cons] at hg
    rcases hg with hg | hg
    · subst hg; exact ⟨0, Descends.nil _ _⟩
    · obtain ⟨k, hk⟩ := ih hg
      exact ⟨k + 1, by simpa using Descends.cons hd' ho hne hk⟩

/-- Among the numbers `0 .. n` one is missing from a list of at most `n` numbers. -/
theorem exists_le_not_mem (L : List Nat) (n : Nat) (h : L.length ≤ n) :
    ∃ g, g ≤ n ∧ g ∉ L := by
  by_contra hcon
  push_neg at hcon
  have hsub : Finset.range (n + 1) ⊆ L.toFinset := by
    intro g hg
    rw [Finset.mem_range] at hg
    exact List.mem_toFinset.2 (hcon g (by omega))
  have h1 := Finset.card_le_card hsub
  have h2 := List.toFinset_card_le L
  rw [Finset.card_range] at h1
  omega

/-- In a strict tree over at least `TABLES_DEPTH` frames in which every table but
the root and the frame `F` has a non-zero slot, there is a leaf other than `F`. -/
theorem exists_leaf {m : Nat} (T : TreeInv cfg ram m) {P : List Nat} {F : Nat}
    (hF : Reach cfg ram P F) (hlen : P.length < cfg.TABLES_DEPTH) (hm : cfg.TABLES_DEPTH ≤ m)
    (hne : ∀ p g, Reach cfg ram p g → p.length < cfg.TABLES_DEPTH → g ≠ F → g ≠ 0 →
      ∃ o, o < PAGE_SIZE cfg ∧ entry cfg ram g o ≠ 0) :
    ∃ p g, Reach cfg ram p g ∧ p.length = cfg.TABLES_DEPTH ∧ g ≠ F := by
  obtain ⟨g0, hg0m, hg0⟩ := exists_le_not_mem (framesAlong cfg ram 0 P) m
    (by rw [framesAlong_length]; omega)
  have h0 : (0 : Nat) ∈ framesAlong cfg ram 0 P := head_mem_framesAlong 0 P
  have hFL : F ∈ framesAlong cfg ram 0 P :=
    mem_framesAlong_of_take P.length (by rw [List.take_length]; exact hF)
  have hg00 : g0 ≠ 0 := fun h => hg0 (h ▸ h0)
  obtain ⟨p0, hp0⟩ := T.surj g0 (by omega) hg0m
  have descent : ∀ n p g, cfg.TABLES_DEPTH - p.length = n → Reach cfg ram p g →
      g ∉ framesAlong cfg ram 0 P →
      ∃ p g, Reach cfg ram p g ∧ p.length = cfg.TABLES_DEPTH ∧ g ≠ F := by
    intro n
    induction n with
    | zero =>
      intro p g hn hp hg
      have := hp.path_le
      exact ⟨p, g, hp, by omega, fun h => hg (h ▸ hFL)⟩
    | succ n ih =>
      intro p g hn hp hg
      have hpl : p.length < cfg.TABLES_DEPTH := by omega
      obtain ⟨o, ho, hent⟩ := hne p g hp hpl (fun h => hg (h ▸ hFL)) (fun h => hg (h ▸ h0))
      have hchild := Reach.extend hp hpl ho hent
      apply ih (p ++ [o]) _ (by simp; omega) hchild
      intro hmem
      obtain ⟨k, hk⟩ := take_of_mem_framesAlong hF hmem
      have heq : p ++ [o] = P.take k := T.inj _ _ _ hchild hk
      have hp' : p = P.take (min p.length k) := by
        have h1 : (p ++ [o]).take p.length = p := List.take_left' rfl
        rw [heq, List.take_take] at h1
        exact h1.symm
      apply hg
      apply mem_framesAlong_of_take (d := 0) (min p.length k)
      rw [← hp']; exact hp
  exact descent _ p0 g0 rfl hp0 hg0

/-- `NUM_FRAMES - 1` in `uint64_t` arithmetic. -/
theorem num_frames_pred (hwf : cfg.WF) (h : 1 ≤ cfg.NUM_FRAMES) :
    (cfg.NUM_FRAMES + U64 - 1) % U64 = cfg.NUM_FRAMES - 1 := by
  have := hwf.nf_le
  unfold U64
  rw [show cfg.NUM_FRAMES + 2 ^ 64 - 1 = (cfg.NUM_FRAMES - 1) + 2 ^ 64 by omega, Nat.add_mod_right]
  exact Nat.mod_eq_of_lt (by omega)

/-- In a strict tree over the frames `1 .. m` the traversal finds `max_frame = m`. -/
theorem DFSroot_max_eq {m : Nat} (T : TreeInv cfg ram m) (page source_frame : Nat) :
    (DFSroot cfg ram page source_frame).max_frame = m := by
  apply le_antisymm
  · rcases @DFSroot_max_attained cfg ram page source_frame with h | ⟨p, _, hp⟩
    · rw [h]; exact Nat.zero_le _
    · exact T.range _ _ hp
  · rcases Nat.eq_zero_or_pos m with h | h
    · rw [h]; exact Nat.zero_le _
    · obtain ⟨p, hp⟩ := T.surj m h (Nat.le_refl _)
      exact DFSroot_max_ge page source_frame hp

end

section

variable {cfg : Config} {pm : PM} {P : List Nat} {F m : Nat}

/-- Clearing the one slot that points to a terminal frame of a strict tree (and
saving the frame if asked to) gives a `Chosen` state. -/
theorem chosen_of_unlink (T : TreeInv cfg pm.ram m) {pm1 : PM}
    {p' : List Nat} {f' o' r : Nat} (hf' : Reach cfg pm.ram p' f')
    (hl' : p'.length < cfg.TABLES_DEPTH) (ho' : o' < PAGE_SIZE cfg)
    (hent : entry cfg pm.ram f' o' = r) (hr0 : r ≠ 0)
    (hterm : p'.length + 1 = cfg.TABLES_DEPTH ∨ ∀ j, j < PAGE_SIZE cfg → entry cfg pm.ram r j = 0)
    (hram : ∀ a, pm1.ram a = if a = f' * PAGE_SIZE cfg + o' then 0 else pm.ram a)
    (hswap : ∀ q, ¬ (p'.length + 1 = cfg.TABLES_DEPTH ∧ q = pageNum cfg (p' ++ [o'])) →
      pm1.swap q = pm.swap q)
    (hsaved : p'.length + 1 = cfg.TABLES_DEPTH →
      ∃ c, pm1.swap (pageNum cfg (p' ++ [o'])) = some c ∧
        ∀ j, j < PAGE_SIZE cfg → c j = pm.ram (r * PAGE_SIZE cfg + j)) :
    Chosen cfg pm pm1 r := by
  have hr : Reach cfg pm.ram (p' ++ [o']) r := by
    have := Reach.extend hf' hl' ho' (by rw [hent]; exact hr0)
    rwa [hent] at this
  have hpath : ∀ p, Reach cfg pm.ram p r → p = p' ++ [o'] := fun p hp => T.inj _ _ _ hp hr
  have hslot : ∀ p f o'', Reach cfg pm.ram p f → p.length < cfg.TABLES_DEPTH →
      o'' < PAGE_SIZE cfg → entry cfg pm.ram f o'' = r → f = f' ∧ o'' = o' := by
    intro p f o'' hf hl ho'' he
    have h1 : Reach cfg pm.ram (p ++ [o'']) r := by
      have := Reach.extend hf hl ho'' (by rw [he]; exact hr0)
      rwa [he] at this
    have h2 := hpath _ h1
    have h3 : p = p' ∧ o'' = o' := by
      have := List.append_inj' h2 rfl
      exact ⟨this.1, by simpa using this.2⟩
    obtain ⟨rfl, rfl⟩ := h3
    exact ⟨Reach.unique hf hf', rfl⟩
  constructor
  · exact hr0
  · rw [← hent]; exact entry_lt _ _
  · intro p hp
    rw [hpath p hp]
    rcases hterm with h | h
    · left; simpa using h
    · right; exact h
  · intro a ha
    rw [hram, if_neg (ha p' f' o' hf' hl' ho' hent)]
  · intro p f o'' hf hl ho'' he
    obtain ⟨rfl, rfl⟩ := hslot p f o'' hf hl ho'' he
    rw [hram, if_pos rfl]
  · intro q hq
    apply hswap
    rintro ⟨h1, h2⟩
    exact hq _ hr (by simpa using h1) h2
  · intro p hp hl
    rw [hpath p hp] at hl ⊢
    exact hsaved (by simpa using hl)

/-- The three-way decision of `getEmptyFrame` on a strict tree over the frames
`1 .. m` with `NUM_FRAMES ≥ TABLES_DEPTH + 1`, called for a page that is not
resident from a table `F` on the walk: it chooses a frame in `1 .. m + 1` below
`NUM_FRAMES` other than `F`. -/
theorem chooseFrame_chosen (hwf : cfg.WF) (hNF : cfg.TABLES_DEPTH + 1 ≤ cfg.NUM_FRAMES)
    (T : TreeInv cfg pm.ram m) (hF : Reach cfg pm.ram P F) (hlen : P.length < cfg.TABLES_DEPTH)
    (page : Nat) (hpage : page < NUM_PAGES cfg)
    (hnot : ∀ p g, Reach cfg pm.ram p g → p.length = cfg.TABLES_DEPTH → pageNum cfg p ≠ page) :
    Chosen cfg pm (chooseFrame cfg pm (DFSroot cfg pm.ram page F)).1
        (chooseFrame cfg pm (DFSroot cfg pm.ram page F)).2 ∧
      (chooseFrame cfg pm (DFSroot cfg pm.ram page F)).2 ≠ F ∧
      (chooseFrame cfg pm (DFSroot cfg pm.ram page F)).2 ≤ m + 1 ∧
      (chooseFrame cfg pm (DFSroot cfg pm.ram page F)).2 < cfg.NUM_FRAMES ∧
      (chooseFrame cfg pm (DFSroot cfg pm.ram page F)).1.unstored = pm.unstored := by
  have hmax := DFSroot_max_eq T page F
  have hpred := num_frames_pred hwf (by omega : 1 ≤ cfg.NUM_FRAMES)
  have hmN := T.bound
  have hnf := hwf.nf_le
  unfold chooseFrame
  by_cases he : (DFSroot cfg pm.ram page F).empty_frame.number ≠ 0
  · -- option 1: an empty table is reused
    rw [if_pos he]
    obtain ⟨p', f', o', hf', hl', ho', hent, hfa, hsrc, hzero⟩ := DFSroot_empty_some page F he
    have hr : Reach cfg pm.ram (p' ++ [o']) (DFSroot cfg pm.ram page F).empty_frame.number := by
      have := Reach.extend hf' (by omega) ho' (by rw [hent]; exact he)
      rwa [hent] at this
    have hle := T.range _ _ hr
    refine ⟨?_, hsrc, by omega, by omega, rfl⟩
    apply chosen_of_unlink T hf' (by omega) ho' hent he (Or.inr hzero)
    · intro a
      simp only [PMwrite_ram]
      rw [hfa, getPhysicalAddress_eq cfg hwf f' o' (Nat.le_of_lt hf'.lt_word) ho']
    · intro q _; rfl
    · intro h; omega
  · rw [if_neg he]
    have he0 : (DFSroot cfg pm.ram page F).empty_frame.number = 0 := by
      by_contra h; exact he h
    rw [hmax, hpred]
    by_cases hlt : m < cfg.NUM_FRAMES - 1
    · -- option 2: a frame never used
      rw [if_pos hlt]
      have hval : (m + 1) % U64 = m + 1 := Nat.mod_eq_of_lt (by unfold U64; omega)
      simp only [hval]
      have hunreach : ∀ p, ¬ Reach cfg pm.ram p (m + 1) := by
        intro p hp
        have := T.range _ _ hp
        omega
      refine ⟨?_, ?_, Nat.le_refl _, by omega, trivial⟩
      · constructor
        · omega
        · omega
        · intro p hp; exact absurd hp (hunreach p)
        · intro a _; rfl
        · intro p f o' hf hl ho' hent
          exfalso
          have := Reach.extend hf hl ho' (by rw [hent]; omega)
          rw [hent] at this
          exact hunreach _ this
        · intro q _; rfl
        · intro p hp; exact absurd hp (hunreach p)
      · intro h
        have := T.range _ _ hF
        omega
    · rw [if_neg hlt]
      by_cases hev : (DFSroot cfg pm.ram page F).evict_page.frame.number ≠ 0
      · -- option 3: a leaf is evicted
        rw [if_pos hev]
        obtain ⟨p', f', o', hf', hl', ho', hent, hfa, hpn, hsrc⟩ :=
          DFSroot_evict_some hwf.td_pos page F hev
        have hr : Reach cfg pm.ram (p' ++ [o'])
            (DFSroot cfg pm.ram page F).evict_page.frame.number := by
          have := Reach.extend hf' (by omega) ho' (by rw [hent]; exact hev)
          rwa [hent] at this
        have hle := T.range _ _ hr
        refine ⟨?_, hsrc, by omega, by omega, rfl⟩
        have hfa' : (DFSroot cfg pm.ram page F).evict_page.frame.father_pm_address
            = f' * PAGE_SIZE cfg + o' := by
          rw [hfa, getPhysicalAddress_eq cfg hwf f' o' (Nat.le_of_lt hf'.lt_word) ho']
        have hpn' : (DFSroot cfg pm.ram page F).evict_page.page_num = pageNum cfg (p' ++ [o']) :=
          hpn
        apply chosen_of_unlink T hf' (by omega) ho' hent hev (Or.inl hl')
        · intro a
          rw [PMevict_ram, PMwrite_ram, hfa']
        · intro q hq
          rw [PMevict_swap, PMwrite_swap, hpn', if_neg (fun h => hq ⟨hl', h⟩)]
        · intro _
          refine ⟨_, by rw [PMevict_swap, hpn', if_pos rfl], ?_⟩
          intro j hj
          rw [PMwrite_ram, if_neg]
          rw [hfa']
          intro heq
          have hff := (addr_inj hj ho' heq).1
          have hpp := T.inj _ _ _ hr (hff ▸ hf')
          have := congrArg List.length hpp
          simp at this
      · -- no option: impossible
        exfalso
        have hev0 : (DFSroot cfg pm.ram page F).evict_page.frame.number = 0 := by
          by_contra h; exact hev h
        obtain ⟨p, g, hp, hpl, hgF⟩ := exists_leaf T hF hlen (by omega)
          (fun p g hp hl hgF hg0 => DFSroot_empty_none page F he0 hp hl hgF hg0)
        have hd := DFSroot_evict_none hwf.td_pos page F hev0 hp hpl hgF
        have hpos : 0 < getCyclicDistance cfg (pageNum cfg p) page := by
          apply getCyclicDistance_pos hwf _ hpage (hnot p g hp hpl)
          cases p with
          | nil => simp at hpl; have := hwf.td_pos; omega
          | cons o0 rest =>
            have h1 := pageNum_lt_NUM_PAGES hwf o0 (T.top o0 rest g hp) rest
              (fun o ho => hp.slots_lt o (by simp [ho])) (by simpa using hpl.le)
            rw [NUM_PAGES_eq hwf]
            have : rest.length = cfg.TABLES_DEPTH - 1 := by simp at hpl; omega
            rw [← this]; exact h1
        have : pageNum cfg p = p.foldl (vaStep cfg) 0 := rfl
        rw [this] at hpos
        omega

end

section

variable {cfg : Config}

theorem vaPath_take_succ (va : Nat) {k : Nat} (hk : k < cfg.TABLES_DEPTH) :
    (vaPath cfg va).take (k + 1) = (vaPath cfg va).take k ++ [getOffset cfg va k] := by
  unfold vaPath
  rw [← List.map_take, ← List.map_take, List.take_range, List.take_range,
    min_eq_left (by omega), min_eq_left (by omega), List.range_succ, List.map_append,
    List.map_singleton]

theorem vaPath_take_length (va : Nat) {k : Nat} (hk : k ≤ cfg.TABLES_DEPTH) :
    ((vaPath cfg va).take k).length = k := by
  rw [List.length_take, vaPath_length]; omega

theorem OFFSET_WIDTH_lt (hwf : cfg.WF) : cfg.OFFSET_WIDTH < cfg.VIRTUAL_ADDRESS_WIDTH := by
  have h1 := hwf.vaw_gt
  have h2 : cfg.OFFSET_WIDTH ≤ cfg.TABLES_DEPTH * cfg.OFFSET_WIDTH :=
    Nat.le_mul_of_pos_left _ hwf.td_pos
  omega

theorem page_lt_NUM_PAGES (hwf : cfg.WF) {va : Nat} (hva : va < VIRTUAL_MEMORY_SIZE cfg) :
    va >>> cfg.OFFSET_WIDTH < NUM_PAGES cfg := by
  rw [shiftRight_eq_div]
  unfold NUM_PAGES
  apply Nat.div_lt_div_of_lt_of_dvd _ hva
  unfold VIRTUAL_MEMORY_SIZE PAGE_SIZE
  exact Nat.pow_dvd_pow 2 (Nat.le_of_lt (OFFSET_WIDTH_lt hwf))

/-- The iteration of the loop of `ReadWrite` when the slot holds a link. -/
theorem walkStep_present (va page : Nat) (w : PM × Nat) (i : Nat)
    (h : entry cfg w.1.ram w.2 (getOffset cfg va i) ≠ 0) :
    walkStep cfg va page w i = (w.1, entry cfg w.1.ram w.2 (getOffset cfg va i)) := by
  unfold walkStep
  simp only []
  have : wordToU64 (PMread w.1 (getPhysicalAddress cfg w.2 (getOffset cfg va i))) =
      entry cfg w.1.ram w.2 (getOffset cfg va i) := rfl
  rw [this, if_neg h]

/-- The iteration of the loop of `ReadWrite` when the slot is empty: the decision of
`getEmptyFrame`, then `finishStep`. -/
theorem walkStep_absent (va page : Nat) (w : PM × Nat) (i : Nat)
    (h : entry cfg w.1.ram w.2 (getOffset cfg va i) = 0) :
    walkStep cfg va page w i =
      (finishStep cfg (chooseFrame cfg w.1 (DFSroot cfg w.1.ram page w.2)).1 w.2
          (getOffset cfg va i) (chooseFrame cfg w.1 (DFSroot cfg w.1.ram page w.2)).2 i page,
        (chooseFrame cfg w.1 (DFSroot cfg w.1.ram page w.2)).2) := by
  unfold walkStep
  simp only []
  have : wordToU64 (PMread w.1 (getPhysicalAddress cfg w.2 (getOffset cfg va i))) =
      entry cfg w.1.ram w.2 (getOffset cfg va i) := rfl
  rw [this, if_pos h]
  unfold getEmptyFrame finishStep
  simp only []
  by_cases h1 : i < cfg.TABLES_DEPTH - 1
  · simp only [if_pos h1]
  · simp only [if_neg h1]

theorem getEmptyFrame_snd (pm : PM) (page source_frame depth : Nat) :
    (getEmptyFrame cfg pm page source_frame depth).2 =
      (chooseFrame cfg pm (DFSroot cfg pm.ram page source_frame)).2 := by
  unfold getEmptyFrame
  simp only []
  split <;> rfl

/-- One iteration of the loop of `ReadWrite` keeps the loop invariant; when it
allocates, the frame obtained is a frame `1 .. NUM_FRAMES - 1` other than the
source frame. -/
theorem walkStep_inv (hwf : cfg.WF) (hNF : cfg.TABLES_DEPTH + 1 ≤ cfg.NUM_FRAMES)
    {pm0 : PM} {va k : Nat} {w : PM × Nat} (hva : va < VIRTUAL_MEMORY_SIZE cfg)
    (hk : k < cfg.TABLES_DEPTH) (I : WalkInv cfg pm0 va k w) :
    WalkInv cfg pm0 va (k + 1) (walkStep cfg va (va >>> cfg.OFFSET_WIDTH) w k) ∧
    (entry cfg w.1.ram w.2 (getOffset cfg va k) = 0 →
      (getEmptyFrame cfg w.1 (va >>> cfg.OFFSET_WIDTH) w.2 k).2 ≠ 0 ∧
      (getEmptyFrame cfg w.1 (va >>> cfg.OFFSET_WIDTH) w.2 k).2 < cfg.NUM_FRAMES ∧
      (getEmptyFrame cfg w.1 (va >>> cfg.OFFSET_WIDTH) w.2 k).2 ≠ w.2) := by
  obtain ⟨⟨m, T⟩, hF, hV⟩ := I
  have hlen : ((vaPath cfg va).take k).length = k := vaPath_take_length va (Nat.le_of_lt hk)
  have ho := @getOffset_lt cfg va k
  by_cases hz : entry cfg w.1.ram w.2 (getOffset cfg va k) = 0
  · -- the link is absent
    have hnot : ∀ p g, Reach cfg w.1.ram p g → p.length = cfg.TABLES_DEPTH →
        pageNum cfg p ≠ va >>> cfg.OFFSET_WIDTH := by
      intro p g hp hl heq
      rw [← pageNum_vaPath hwf hva] at heq
      have hpe := pageNum_inj hwf _ _ hp.slots_lt (vaPath_lt va) (by rw [hl, vaPath_length])
        (by omega) heq
      rw [hpe] at hp
      obtain ⟨g', hg'⟩ := hp.take (k + 1)
      rw [vaPath_take_succ va hk] at hg'
      obtain ⟨f, hf, _, _, hent, hne⟩ := Reach.extend_inv hg'
      rw [Reach.unique hf hF, hz] at hent
      exact hne hent.symm
    obtain ⟨C, hrF, hrm, hrN, _⟩ := chooseFrame_chosen hwf hNF T hF (by omega)
      (va >>> cfg.OFFSET_WIDTH) (page_lt_NUM_PAGES hwf hva) hnot
    have R := @finishStep_relink cfg _ _ _ _ _ _ (va >>> cfg.OFFSET_WIDTH) hwf C hF ho hz hrF
    rw [hlen] at R
    refine ⟨?_, fun _ => ?_⟩
    · rw [walkStep_absent va _ w k hz]
      refine ⟨⟨_, R.treeInv hwf T hF (by omega) ho hz hrm hrN ?_⟩, ?_, ?_⟩
      · intro hP
        have : k = 0 := by rw [← hlen, hP]; rfl
        subst this
        exact getOffset_zero_lt_TOP hwf hva
      · rw [vaPath_take_succ va hk]
        exact (R.reach_iff hwf T hF (by omega) ho hz _ _).2 (Or.inr ⟨rfl, rfl⟩)
      · intro a v ha hv
        apply R.val hwf T hF (by omega) ho hz _ ha (hV a v ha hv)
        intro hl
        rw [← vaPath_take_succ va hk, ← pageNum_vaPath hwf hva]
        congr 1
        rw [List.take_of_length_le]
        rw [vaPath_length]; omega
    · rw [getEmptyFrame_snd]
      exact ⟨C.r_ne_zero, hrN, hrF⟩
  · refine ⟨?_, fun h => absurd h hz⟩
    rw [walkStep_present va _ w k hz]
    refine ⟨⟨m, T⟩, ?_, hV⟩
    rw [vaPath_take_succ va hk]
    exact Reach.extend hF (by omega) ho hz

theorem walkUpTo_succ (pm : PM) (va k : Nat) :
    walkUpTo cfg pm va (k + 1) =
      walkStep cfg va (va >>> cfg.OFFSET_WIDTH) (walkUpTo cfg pm va k) k := by
  unfold walkUpTo
  rw [List.range_succ, List.foldl_append]
  rfl

/-- The loop invariant holds after every number of iterations. -/
theorem walkUpTo_inv (hwf : cfg.WF) (hNF : cfg.TABLES_DEPTH + 1 ≤ cfg.NUM_FRAMES)
    {pm : PM} {m : Nat} (T : TreeInv cfg pm.ram m) {va : Nat}
    (hva : va < VIRTUAL_MEMORY_SIZE cfg) :
    ∀ k, k ≤ cfg.TABLES_DEPTH → WalkInv cfg pm va k (walkUpTo cfg pm va k) := by
  intro k
  induction k with
  | zero =>
    intro _
    exact ⟨⟨m, T⟩, by simpa [walkUpTo] using Reach.root, fun a v _ hv => hv⟩
  | succ k ih =>
    intro hk
    rw [walkUpTo_succ]
    exact (walkStep_inv hwf hNF hva (by omega) (ih (by omega))).1

end

section

variable {cfg : Config}

theorem TreeInv.congr {ram ram' : Nat → Int} {m : Nat} (T : TreeInv cfg ram m)
    (h : ∀ p g, Reach cfg ram' p g ↔ Reach cfg ram p g) : TreeInv cfg ram' m := by
  constructor
  · exact T.bound
  · intro p g hp; exact T.range p g ((h p g).1 hp)
  · intro p q g hp hq; exact T.inj p q g ((h p g).1 hp) ((h q g).1 hq)
  · intro g h1 h2
    obtain ⟨p, hp⟩ := T.surj g h1 h2
    exact ⟨p, (h p g).2 hp⟩
  · intro o p g hp; exact T.top o p g ((h _ g).1 hp)

/-- Two memories that agree on the slots of the reachable tables of the first reach
the same frames. -/
theorem Reach.congr_iff {ram ram' : Nat → Int}
    (hag : ∀ p g, Reach cfg ram p g → p.length < cfg.TABLES_DEPTH →
      ∀ o, o < PAGE_SIZE cfg → entry cfg ram' g o = entry cfg ram g o) (p : List Nat) (g : Nat) :
    Reach cfg ram' p g ↔ Reach cfg ram p g := by
  constructor
  · intro h
    exact Descends.congr_of_agree_rev h (fun q' g' hq' hl o ho => hag q' g' hq' (by simpa using hl) o ho)
  · intro h
    exact Descends.congr_of_agree h (fun q' g' hq' hl o ho => hag q' g' hq' (by simpa using hl) o ho)

/-- After `VMinitialize()` the page table is the empty tree. -/
theorem VMinitialize_inv (hwf : cfg.WF) (hNF : cfg.TABLES_DEPTH + 1 ≤ cfg.NUM_FRAMES) (pm0 : PM) :
    TreeInv cfg ( VMinitialize cfg pm0).ram 0 := by
  have hroot : ∀ o, o < PAGE_SIZE cfg → entry cfg ( VMinitialize cfg pm0).ram 0 o = 0 := by
    intro o ho
    rw [entry_eq hwf _ (by norm_num) ho]
    unfold VMinitialize
    rw [clearTable_ram hwf pm0 (by norm_num), if_pos (inFrame_addr ho), wordToU64_zero]
  have honly : ∀ p g, Reach cfg ( VMinitialize cfg pm0).ram p g → p = [] ∧ g = 0 := by
    intro p g h
    cases h with
    | nil => exact ⟨rfl, rfl⟩
    | cons _ ho hne _ => exact absurd (hroot _ ho) hne
  constructor
  · omega
  · intro p g h; rw [(honly p g h).2]
  · intro p q g hp hq; rw [(honly p g hp).1, (honly q g hq).1]
  · intro g h1 h2; omega
  · intro o p g h; exact absurd (honly _ g h).1 (by simp)

/-- What a call of `ReadWrite` on a valid address with a proper pointer does, from
a state whose page table is a strict tree: it succeeds, the page table stays a
strict tree, every other valid address keeps its word (and on a read this one
too), and the word read, or written, is the word the address holds afterwards. -/
theorem ReadWrite_spec (hwf : cfg.WF) (hNF : cfg.TABLES_DEPTH + 1 ≤ cfg.NUM_FRAMES)
    {pm : PM} (I : Inv cfg pm) {va : Nat} (hva : va < VIRTUAL_MEMORY_SIZE cfg) (w : Int)
    (action : Nat) :
    (ReadWrite cfg pm va (some w) action).ret = SUCCESS ∧
    Inv cfg (ReadWrite cfg pm va (some w) action).pm ∧
    (∀ a v, a < VIRTUAL_MEMORY_SIZE cfg → (action = READ ∨ a ≠ va) → Val cfg pm a v →
      Val cfg (ReadWrite cfg pm va (some w) action).pm a v) ∧
    (∃ x, (ReadWrite cfg pm va (some w) action).value = some x ∧
      Val cfg (ReadWrite cfg pm va (some w) action).pm va x ∧ (action ≠ READ → x = w)) := by
  obtain ⟨m, T⟩ := I
  obtain ⟨⟨m', T'⟩, hleaf, hV⟩ := walkUpTo_inv hwf hNF T hva cfg.TABLES_DEPTH (Nat.le_refl _)
  rw [List.take_of_length_le (by rw [vaPath_length])] at hleaf
  have hinv : INVALID cfg va (some w) = false := by
    unfold INVALID; simp; exact hva
  have hoff := @getOffset_lt cfg va cfg.TABLES_DEPTH
  have haddr : getPhysicalAddress cfg (walkUpTo cfg pm va cfg.TABLES_DEPTH).2
      (getOffset cfg va cfg.TABLES_DEPTH) =
      (walkUpTo cfg pm va cfg.TABLES_DEPTH).2 * PAGE_SIZE cfg + getOffset cfg va cfg.TABLES_DEPTH :=
    getPhysicalAddress_eq cfg hwf _ _ (Nat.le_of_lt hleaf.lt_word) hoff
  unfold ReadWrite
  rw [hinv]
  simp only [Bool.false_eq_true, if_false]
  by_cases hact : action = READ
  · rw [if_pos hact]
    refine ⟨rfl, ⟨m', T'⟩, fun a v ha _ hv => hV a v ha hv, _, rfl, ?_, fun h => absurd hact h⟩
    left
    exact ⟨_, hleaf, by rw [haddr]; rfl⟩
  · rw [if_neg hact]
    simp only [Option.getD_some]
    -- the write goes to a word of the leaf, which is no slot of a table
    have hagree : ∀ p g, Reach cfg (walkUpTo cfg pm va cfg.TABLES_DEPTH).1.ram p g →
        p.length < cfg.TABLES_DEPTH → ∀ o, o < PAGE_SIZE cfg →
        entry cfg (PMwrite (walkUpTo cfg pm va cfg.TABLES_DEPTH).1
          (getPhysicalAddress cfg (walkUpTo cfg pm va cfg.TABLES_DEPTH).2
            (getOffset cfg va cfg.TABLES_DEPTH)) w).ram g o =
        entry cfg (walkUpTo cfg pm va cfg.TABLES_DEPTH).1.ram g o := by
      intro p g hp hl o ho
      rw [entry_eq hwf _ (Nat.le_of_lt hp.lt_word) ho, entry_eq hwf _ (Nat.le_of_lt hp.lt_word) ho,
        PMwrite_ram, if_neg]
      rw [haddr]
      intro heq
      have hg := (addr_inj ho hoff heq).1
      subst hg
      have := T'.inj _ _ _ hp hleaf
      rw [this, vaPath_length] at hl
      omega
    have hiff := Reach.congr_iff hagree
    refine ⟨trivial, ⟨m', T'.congr hiff⟩, ?_, w, rfl, ?_, fun _ => rfl⟩
    · intro a v ha hne hv
      have hne' : a ≠ va := by
        rcases hne with h | h
        · exact absurd h hact
        · exact h
      rcases hV a v ha hv with ⟨f, hf, hval⟩ | ⟨hn, c, hc, hval⟩
      · left
        refine ⟨f, (hiff _ _).2 hf, ?_⟩
        rw [PMwrite_ram, if_neg, hval]
        rw [haddr]
        intro heq
        obtain ⟨h1, h2⟩ := addr_inj (getOffset_lt a cfg.TABLES_DEPTH) hoff heq
        subst h1
        have hpath := T'.inj _ _ _ hf hleaf
        have hpg : a >>> cfg.OFFSET_WIDTH = va >>> cfg.OFFSET_WIDTH := by
          rw [← pageNum_vaPath hwf ha, ← pageNum_vaPath hwf hva, hpath]
        rw [getOffset_last hwf ha, getOffset_last hwf hva] at h2
        rw [shiftRight_eq_div, shiftRight_eq_div] at hpg
        apply hne'
        rw [← Nat.div_add_mod a (PAGE_SIZE cfg), ← Nat.div_add_mod va (PAGE_SIZE cfg), hpg, h2]
      · right
        refine ⟨?_, c, hc, hval⟩
        rintro ⟨f, hf⟩
        exact hn ⟨f, (hiff _ _).1 hf⟩
    · left
      exact ⟨_, (hiff _ _).2 hleaf, by rw [PMwrite_ram, if_pos haddr.symm]⟩

/-- A call on an invalid address or with the null pointer changes nothing. -/
theorem ReadWrite_invalid (pm : PM) (va : Nat) (value : Option Int) (action : Nat)
    (h : INVALID cfg va value = true) :
    ReadWrite cfg pm va value action = { pm := pm, ret := FAILURE, value := value } := by
  unfold ReadWrite; rw [if_pos h]

theorem INVALID_eq_false {va : Nat} {value : Option Int}
    (h : INVALID cfg va value ≠ true) :
    va < VIRTUAL_MEMORY_SIZE cfg ∧ ∃ w, value = some w := by
  unfold INVALID at h
  cases value with
  | none => simp at h
  | some w =>
    refine ⟨?_, w, rfl⟩
    by_contra hc
    apply h
    simp only [Bool.or_eq_true, decide_eq_true_eq]
    left; omega

/-- Every call keeps the page table a strict tree, and keeps the word of every
valid address other than the one it writes. -/
theorem Op.run_spec (hwf : cfg.WF) (hNF : cfg.TABLES_DEPTH + 1 ≤ cfg.NUM_FRAMES)
    {pm : PM} (I : Inv cfg pm) (op : Op) :
    Inv cfg (op.run cfg pm) ∧
    ∀ a v, a < VIRTUAL_MEMORY_SIZE cfg → ((∃ va b, op = Op.read va b) ∨ a ≠ op.addr) →
      Val cfg pm a v → Val cfg (op.run cfg pm) a v := by
  cases op with
  | read va value =>
    simp only [Op.run, Op.result, VMread, Op.addr]
    by_cases hinv : INVALID cfg va value = true
    · rw [ReadWrite_invalid pm va value READ hinv]
      exact ⟨I, fun a v _ _ hv => hv⟩
    · obtain ⟨hva, w, rfl⟩ := INVALID_eq_false hinv
      obtain ⟨_, h2, h3, _⟩ := ReadWrite_spec hwf hNF I hva w READ
      exact ⟨h2, fun a v ha _ hv => h3 a v ha (Or.inl rfl) hv⟩
  | write va value =>
    simp only [Op.run, Op.result, VMwrite, Op.addr]
    by_cases hinv : INVALID cfg va (some value) = true
    · rw [ReadWrite_invalid pm va (some value) WRITE hinv]
      exact ⟨I, fun a v _ _ hv => hv⟩
    · obtain ⟨hva, _⟩ := INVALID_eq_false hinv
      obtain ⟨_, h2, h3, _⟩ := ReadWrite_spec hwf hNF I hva value WRITE
      refine ⟨h2, fun a v ha hor hv => h3 a v ha (Or.inr ?_) hv⟩
      rcases hor with ⟨va', b, h⟩ | h
      · cases h
      · exact h

/-- In every reachable state the page table is a strict tree. -/
theorem Reachable.inv (hwf : cfg.WF) (hNF : cfg.TABLES_DEPTH + 1 ≤ cfg.NUM_FRAMES)
    {pm : PM} (h : Reachable cfg pm) : Inv cfg pm := by
  induction h with
  | init pm0 => exact ⟨0, VMinitialize_inv hwf hNF pm0⟩
  | step op _ ih => exact (Op.run_spec hwf hNF ih op).1

/-- A sequence of calls keeps the page table a strict tree, and keeps the word of a
valid address that none of its writes addresses. -/
theorem runOps_spec (hwf : cfg.WF) (hNF : cfg.TABLES_DEPTH + 1 ≤ cfg.NUM_FRAMES)
    (ops : List Op) : ∀ {pm : PM}, Inv cfg pm → ∀ {a : Nat} {v : Int},
    a < VIRTUAL_MEMORY_SIZE cfg →
    (∀ op ∈ ops, (∃ va b, op = Op.read va b) ∨ a ≠ op.addr) → Val cfg pm a v →
    Inv cfg (runOps cfg pm ops) ∧ Val cfg (runOps cfg pm ops) a v := by
  induction ops with
  | nil => intro pm I a v _ _ hv; exact ⟨I, hv⟩
  | cons op ops ih =>
    intro pm I a v ha hops hv
    obtain ⟨h1, h2⟩ := Op.run_spec hwf hNF I op
    exact ih h1 ha (fun op' h' => hops op' (List.mem_cons_of_mem _ h'))
      (h2 a v ha (hops op (List.mem_cons_self _ _)) hv)

end

section

variable {cfg : Config}

theorem chooseFrame_empty (pm : PM) (st : DfsState) (h : st.empty_frame.number ≠ 0) :
    chooseFrame cfg pm st =
      (PMwrite pm st.empty_frame.father_pm_address 0, st.empty_frame.number) := by
  unfold chooseFrame; rw [if_pos h]

theorem chooseFrame_unused (pm : PM) (st : DfsState) (h : st.empty_frame.number = 0)
    (hlt : st.max_frame < (cfg.NUM_FRAMES + U64 - 1) % U64) :
    chooseFrame cfg pm st = (pm, (st.max_frame + 1) % U64) := by
  unfold chooseFrame; rw [if_neg (by simpa using h), if_pos hlt]

theorem chooseFrame_evict (pm : PM) (st : DfsState) (h : st.empty_frame.number = 0)
    (hlt : ¬ st.max_frame < (cfg.NUM_FRAMES + U64 - 1) % U64)
    (hev : st.evict_page.frame.number ≠ 0) :
    chooseFrame cfg pm st =
      (PMevict cfg (PMwrite pm st.evict_page.frame.father_pm_address 0)
        st.evict_page.frame.number st.evict_page.page_num, st.evict_page.frame.number) := by
  unfold chooseFrame; rw [if_neg (by simpa using h), if_neg hlt, if_pos hev]

theorem chooseFrame_none (pm : PM) (st : DfsState) (h : st.empty_frame.number = 0)
    (hlt : ¬ st.max_frame < (cfg.NUM_FRAMES + U64 - 1) % U64)
    (hev : st.evict_page.frame.number = 0) :
    chooseFrame cfg pm st = (pm, 0) := by
  unfold chooseFrame; rw [if_neg (by simpa using h), if_neg hlt, if_neg (by simpa using hev)]

theorem getEmptyFrame_interior (pm : PM) (page source_frame depth : Nat)
    (h : depth < cfg.TABLES_DEPTH - 1) :
    getEmptyFrame cfg pm page source_frame depth =
      (clearTable cfg (chooseFrame cfg pm (DFSroot cfg pm.ram page source_frame)).1
          (chooseFrame cfg pm (DFSroot cfg pm.ram page source_frame)).2,
        (chooseFrame cfg pm (DFSroot cfg pm.ram page source_frame)).2) := by
  unfold getEmptyFrame; simp only []; rw [if_pos h]

theorem getEmptyFrame_last (pm : PM) (page source_frame depth : Nat)
    (h : ¬ depth < cfg.TABLES_DEPTH - 1) :
    getEmptyFrame cfg pm page source_frame depth =
      chooseFrame cfg pm (DFSroot cfg pm.ram page source_frame) := by
  unfold getEmptyFrame; simp only []; rw [if_neg h]

/-- The frame numbers the traversal records are bit patterns of words. -/
theorem DFSroot_lt_word (hTD : 1 ≤ cfg.TABLES_DEPTH) (ram : Nat → Int) (page source_frame : Nat) :
    (DFSroot cfg ram page source_frame).empty_frame.number < 2 ^ 32 ∧
    (DFSroot cfg ram page source_frame).max_frame < 2 ^ 32 ∧
    (DFSroot cfg ram page source_frame).evict_page.frame.number < 2 ^ 32 := by
  refine ⟨?_, ?_, ?_⟩
  · by_cases h : (DFSroot cfg ram page source_frame).empty_frame.number = 0
    · rw [h]; norm_num
    · obtain ⟨p, f, o, _, _, _, hent, _⟩ := DFSroot_empty_some page source_frame h
      rw [← hent]; exact entry_lt _ _
  · rcases @DFSroot_max_attained cfg ram page source_frame with h | ⟨p, _, hp⟩
    · rw [h]; norm_num
    · exact hp.lt_word
  · by_cases h : (DFSroot cfg ram page source_frame).evict_page.frame.number = 0
    · rw [h]; norm_num
    · obtain ⟨p, f, o, _, _, _, hent, _⟩ := DFSroot_evict_some hTD page source_frame h
      rw [← hent]; exact entry_lt _ _

/-- The frame number `getEmptyFrame` returns is at most `2^32`. -/
theorem chooseFrame_le_word (hTD : 1 ≤ cfg.TABLES_DEPTH) (pm : PM) (page source_frame : Nat) :
    (chooseFrame cfg pm (DFSroot cfg pm.ram page source_frame)).2 ≤ 2 ^ 32 := by
  obtain ⟨h1, h2, h3⟩ := DFSroot_lt_word hTD pm.ram page source_frame
  unfold chooseFrame
  split
  · exact Nat.le_of_lt h1
  · split
    · have : ((DFSroot cfg pm.ram page source_frame).max_frame + 1) % U64
          = (DFSroot cfg pm.ram page source_frame).max_frame + 1 :=
        Nat.mod_eq_of_lt (by unfold U64; omega)
      simp only [this]; omega
    · split
      · exact Nat.le_of_lt h3
      · simp

end

section

variable {cfg : Config}

theorem LogOK.refl (pm : PM) : LogOK cfg pm pm := ⟨[], by simp, by simp⟩

theorem LogOK.trans {pm pm' pm'' : PM} (h : LogOK cfg pm pm') (h' : LogOK cfg pm' pm'') :
    LogOK cfg pm pm'' := by
  obtain ⟨l, hl, hin⟩ := h
  obtain ⟨l', hl', hin'⟩ := h'
  refine ⟨l ++ l', by rw [hl', hl, List.append_assoc], ?_⟩
  intro op hop
  rcases List.mem_append.1 hop with h | h
  · exact hin op h
  · exact hin' op h

theorem addr_lt {f o : Nat} (hf : f < cfg.NUM_FRAMES) (ho : o < PAGE_SIZE cfg) :
    f * PAGE_SIZE cfg + o < cfg.NUM_FRAMES * PAGE_SIZE cfg := by
  have := Nat.mul_le_mul_right (PAGE_SIZE cfg) (Nat.succ_le_of_lt hf)
  rw [Nat.succ_mul] at this
  omega

theorem LogOK.write {pm : PM} {a : Nat} (v : Int) (ha : a < cfg.NUM_FRAMES * PAGE_SIZE cfg) :
    LogOK cfg pm (PMwrite pm a v) :=
  ⟨[PMOp.write a v], rfl, by simpa [PMOp.inRange] using ha⟩

theorem LogOK.evict {pm : PM} {f : Nat} (p : Nat) (hf : f < cfg.NUM_FRAMES) :
    LogOK cfg pm (PMevict cfg pm f p) :=
  ⟨[PMOp.evict f p], rfl, by simpa [PMOp.inRange] using hf⟩

theorem LogOK.restore {pm : PM} {f : Nat} (p : Nat) (hf : f < cfg.NUM_FRAMES) :
    LogOK cfg pm (PMrestore cfg pm f p) :=
  ⟨[PMOp.restore f p], rfl, by simpa [PMOp.inRange] using hf⟩

theorem LogOK.clear (hwf : cfg.WF) {pm : PM} {f : Nat} (hf : f < cfg.NUM_FRAMES) :
    LogOK cfg pm (clearTable cfg pm f) := by
  refine ⟨_, clearTable_log pm f, ?_⟩
  intro op hop
  simp only [List.mem_map, List.mem_range] at hop
  obtain ⟨i, hi, rfl⟩ := hop
  have hnf := hwf.nf_le
  simp only [PMOp.inRange]
  rw [getPhysicalAddress_eq cfg hwf f i (by omega) hi]
  exact addr_lt hf hi

/-- The calls of the three-way decision on a strict tree stay inside the physical
memory. -/
theorem chooseFrame_logOK (hwf : cfg.WF) {pm : PM} {m : Nat} (T : TreeInv cfg pm.ram m)
    (page source_frame : Nat) :
    LogOK cfg pm (chooseFrame cfg pm (DFSroot cfg pm.ram page source_frame)).1 := by
  have hmN := T.bound
  have hnf := hwf.nf_le
  by_cases he : (DFSroot cfg pm.ram page source_frame).empty_frame.number = 0
  · by_cases hlt : (DFSroot cfg pm.ram page source_frame).max_frame
        < (cfg.NUM_FRAMES + U64 - 1) % U64
    · rw [chooseFrame_unused pm _ he hlt]; exact LogOK.refl pm
    · by_cases hev : (DFSroot cfg pm.ram page source_frame).evict_page.frame.number = 0
      · rw [chooseFrame_none pm _ he hlt hev]; exact LogOK.refl pm
      · rw [chooseFrame_evict pm _ he hlt hev]
        obtain ⟨p, f, o, hf, hl, ho, hent, hfa, _, _⟩ :=
          DFSroot_evict_some hwf.td_pos page source_frame hev
        have hr : Reach cfg pm.ram (p ++ [o])
            (DFSroot cfg pm.ram page source_frame).evict_page.frame.number := by
          have := Reach.extend hf (by omega) ho (by rw [hent]; exact hev)
          rwa [hent] at this
        have h1 := T.range _ _ hf
        have h2 := T.range _ _ hr
        apply LogOK.trans (LogOK.write 0 _) (LogOK.evict _ (by omega))
        rw [hfa, getPhysicalAddress_eq cfg hwf f o (by omega) ho]
        exact addr_lt (by omega) ho
  · rw [chooseFrame_empty pm _ he]
    obtain ⟨p, f, o, hf, hl, ho, hent, hfa, _, _⟩ := DFSroot_empty_some page source_frame he
    have h1 := T.range _ _ hf
    apply LogOK.write
    rw [hfa, getPhysicalAddress_eq cfg hwf f o (by omega) ho]
    exact addr_lt (by omega) ho

/-- The calls that finish a step stay inside the physical memory. -/
theorem finishStep_logOK (hwf : cfg.WF) (pm1 : PM) {F o r : Nat} (i page : Nat)
    (hF : F < cfg.NUM_FRAMES) (ho : o < PAGE_SIZE cfg) (hr : r < cfg.NUM_FRAMES) :
    LogOK cfg pm1 (finishStep cfg pm1 F o r i page) := by
  have hnf := hwf.nf_le
  unfold finishStep
  simp only []
  have hc : LogOK cfg pm1 (if i < cfg.TABLES_DEPTH - 1 then clearTable cfg pm1 r else pm1) := by
    split
    · exact LogOK.clear hwf hr
    · exact LogOK.refl pm1
  have hw : LogOK cfg pm1
      (PMwrite (if i < cfg.TABLES_DEPTH - 1 then clearTable cfg pm1 r else pm1)
        (getPhysicalAddress cfg F o) (u64ToWord r)) := by
    apply LogOK.trans hc (LogOK.write _ _)
    rw [getPhysicalAddress_eq cfg hwf F o (by omega) ho]
    exact addr_lt hF ho
  split
  · exact LogOK.trans hw (LogOK.restore _ hr)
  · exact hw

/-- The calls of one iteration of the loop of `ReadWrite` stay inside the physical
memory. -/
theorem walkStep_logOK (hwf : cfg.WF) (hNF : cfg.TABLES_DEPTH + 1 ≤ cfg.NUM_FRAMES)
    {pm0 : PM} {va k : Nat} {w : PM × Nat} (hva : va < VIRTUAL_MEMORY_SIZE cfg)
    (hk : k < cfg.TABLES_DEPTH) (I : WalkInv cfg pm0 va k w) :
    LogOK cfg w.1 (walkStep cfg va (va >>> cfg.OFFSET_WIDTH) w k).1 := by
  have hstep := walkStep_inv hwf hNF hva hk I
  obtain ⟨⟨m, T⟩, hF, _⟩ := I
  by_cases hz : entry cfg w.1.ram w.2 (getOffset cfg va k) = 0
  · obtain ⟨_, hrN, _⟩ := hstep.2 hz
    rw [getEmptyFrame_snd] at hrN
    rw [walkStep_absent va _ w k hz]
    have hFN : w.2 < cfg.NUM_FRAMES := lt_of_le_of_lt (T.range _ _ hF) T.bound
    exact LogOK.trans (chooseFrame_logOK hwf T _ _)
      (finishStep_logOK hwf _ k _ hFN (getOffset_lt va k) hrN)
  · rw [walkStep_present va _ w k hz]
    exact LogOK.refl _

theorem walkUpTo_logOK (hwf : cfg.WF) (hNF : cfg.TABLES_DEPTH + 1 ≤ cfg.NUM_FRAMES)
    {pm : PM} {m : Nat} (T : TreeInv cfg pm.ram m) {va : Nat}
    (hva : va < VIRTUAL_MEMORY_SIZE cfg) :
    ∀ k, k ≤ cfg.TABLES_DEPTH → LogOK cfg pm (walkUpTo cfg pm va k).1 := by
  intro k
  induction k with
  | zero => intro _; exact LogOK.refl pm
  | succ k ih =>
    intro hk
    rw [walkUpTo_succ]
    exact LogOK.trans (ih (by omega))
      (walkStep_logOK hwf hNF hva (by omega) (walkUpTo_inv hwf hNF T hva k (by omega)))

/-- The frame the walk has reached after `k` iterations is a frame of the physical
memory, and not the root after the first iteration. -/
theorem walkUpTo_frame (hwf : cfg.WF) (hNF : cfg.TABLES_DEPTH + 1 ≤ cfg.NUM_FRAMES)
    {pm : PM} {m : Nat} (T : TreeInv cfg pm.ram m) {va : Nat}
    (hva : va < VIRTUAL_MEMORY_SIZE cfg) {k : Nat} (hk : k ≤ cfg.TABLES_DEPTH) :
    (walkUpTo cfg pm va k).2 < cfg.NUM_FRAMES ∧ (1 ≤ k → 1 ≤ (walkUpTo cfg pm va k).2) := by
  obtain ⟨⟨m', T'⟩, hF, _⟩ := walkUpTo_inv hwf hNF T hva k hk
  refine ⟨lt_of_le_of_lt (T'.range _ _ hF) T'.bound, fun h1 => ?_⟩
  apply Nat.one_le_iff_ne_zero.2
  apply hF.ne_root
  intro hnil
  have := @vaPath_take_length cfg va k hk
  rw [hnil] at this
  simp at this
  omega

end

/-- The constants of the illustration are related as the header relates them. -/
theorem cfgDemo_wf : cfgDemo.WF :=
  ⟨by decide, by decide, by decide, by decide, by decide, by decide, by decide⟩

/-- `max_frame` after the traversal is the largest frame number stored in a
non-zero slot of a visited table. -/
theorem DFSroot_max_of_isMaxStored {cfg : Config} {ram : Nat → Int} {m : Nat} (hm : IsMaxStored cfg ram m)
    (page source_frame : Nat) : (DFSroot cfg ram page source_frame).max_frame = m := by
  obtain ⟨hub, hatt⟩ := hm
  apply le_antisymm
  · rcases @DFSroot_max_attained cfg ram page source_frame with h | ⟨p, hp0, hp⟩
    · rw [h]; exact Nat.zero_le _
    · rcases List.eq_nil_or_concat p with h | ⟨p0, o, h⟩
      · exact absurd h hp0
      · subst h
        rw [List.concat_eq_append] at hp
        obtain ⟨f, hf, hl, ho, hent, _⟩ := Reach.extend_inv hp
        rw [← hent]
        exact hub p0 f o hf hl ho
  · rcases hatt with h | ⟨p, f, o, hf, hl, ho, hent⟩
    · rw [h]; exact Nat.zero_le _
    · rcases Nat.eq_zero_or_pos m with h | h
      · rw [h]; exact Nat.zero_le _
      · have := Reach.extend hf hl ho (by rw [hent]; omega)
        rw [hent] at this
        exact DFSroot_max_ge page source_frame this

/-- In `pmOneLeaf` the largest frame number stored in a visited slot is 2. -/
theorem pmOneLeaf_isMaxStored : IsMaxStored cfgDemo pmOneLeaf.ram 2 := by
  constructor
  · intro p f o _ _ _
    unfold entry pmOneLeaf
    simp only []
    split
    · decide
    · split <;> decide
  · right
    refine ⟨[0], 1, 0, ?_, by decide, by decide, by decide⟩
    exact Descends.cons (by decide) (by decide) (by decide) (Descends.nil _ _)

/-- C1: assuming `NUM_FRAMES ≥ TABLES_DEPTH + 1`, in every state reachable from
`VMinitialize` by `VMread`/`VMwrite` calls, for every address `a <
VIRTUAL_MEMORY_SIZE` and every word `v`, `VMwrite(a, v)` returns success, and the
immediately following `VMread(a)` returns success and delivers exactly `v`
(whether or not the write had to allocate, reuse or evict frames on the way).
(For build constants related as in `Config.WF`.) -/
theorem write_then_read (cfg : Config) (hwf : cfg.WF)
    (hNF : cfg.TABLES_DEPTH + 1 ≤ cfg.NUM_FRAMES) (pm : PM) (hpm : Reachable cfg pm)
    (a : Nat) (ha : a < VIRTUAL_MEMORY_SIZE cfg) (v buf : Int) :
    (VMwrite cfg pm a v).ret = SUCCESS ∧
    (VMread cfg (VMwrite cfg pm a v).pm a (some buf)).ret = SUCCESS ∧
    (VMread cfg (VMwrite cfg pm a v).pm a (some buf)).value = some v := by
  obtain ⟨h1, h2, _, x, _, hx, hxv⟩ := ReadWrite_spec hwf hNF (hpm.inv hwf hNF) ha v WRITE
  have hxv' : x = v := hxv (by decide)
  subst hxv'
  obtain ⟨h3, _, h5, y, hy, hyv, _⟩ :=
    ReadWrite_spec hwf hNF h2 ha buf READ
  refine ⟨h1, h3, ?_⟩
  have := h5 a x ha (Or.inl rfl) hx
  unfold VMread VMwrite
  rw [hy, Val.unique_word hyv this]

/-- An instance of C1: scenario 1 of the specification, `initialize(); write(13, 3);
read(13) == 3`. -/
theorem write_then_read_witness :
    (VMwrite cfgDemo ( VMinitialize cfgDemo pmZero) 13 3).ret = SUCCESS ∧
    (VMread cfgDemo (VMwrite cfgDemo ( VMinitialize cfgDemo pmZero) 13 3).pm 13 (some 0)).ret
      = SUCCESS ∧
    (VMread cfgDemo (VMwrite cfgDemo ( VMinitialize cfgDemo pmZero) 13 3).pm 13 (some 0)).value
      = some 3 :=
  write_then_read cfgDemo cfgDemo_wf (by decide) _ (Reachable.init pmZero) 13 (by decide) 3 0

/-- C2: assuming `NUM_FRAMES ≥ TABLES_DEPTH + 1` and a faithful backing store (a
restore copies into the frame what was most recently saved for the page), in every
reachable state, for every valid address `a` and word `v`: after `VMwrite(a, v)`
followed by any finite sequence of `VMread`/`VMwrite` calls on addresses different
from `a` (whatever they evict), `VMread(a)` delivers `v`.
(For build constants related as in `Config.WF`.) -/
theorem write_survives_other_calls (cfg : Config) (hwf : cfg.WF)
    (hNF : cfg.TABLES_DEPTH + 1 ≤ cfg.NUM_FRAMES) (pm : PM) (hpm : Reachable cfg pm)
    (a : Nat) (ha : a < VIRTUAL_MEMORY_SIZE cfg) (v : Int) (ops : List Op)
    (hops : ∀ op ∈ ops, op.addr ≠ a) (buf : Int) :
    (VMread cfg (runOps cfg (VMwrite cfg pm a v).pm ops) a (some buf)).ret = SUCCESS ∧
    (VMread cfg (runOps cfg (VMwrite cfg pm a v).pm ops) a (some buf)).value = some v := by
  obtain ⟨_, h2, _, x, _, hx, hxv⟩ := ReadWrite_spec hwf hNF (hpm.inv hwf hNF) ha v WRITE
  have hxv' : x = v := hxv (by decide)
  subst hxv'
  obtain ⟨h3, h4⟩ := runOps_spec hwf hNF ops h2 ha
    (fun op hop => Or.inr (fun h => hops op hop h.symm)) hx
  obtain ⟨h5, _, h6, y, hy, hyv, _⟩ := ReadWrite_spec hwf hNF h3 ha buf READ
  refine ⟨h5, ?_⟩
  have := h6 a x ha (Or.inl rfl) h4
  unfold VMread VMwrite
  rw [hy, Val.unique_word hyv this]

/-- An instance of C2: scenario 2 of the specification, a write to `0x375` and a read
of it between `write(13, 3)` and `read(13)`. -/
theorem write_survives_other_calls_witness :
    (VMread cfgDemo (runOps cfgDemo (VMwrite cfgDemo ( VMinitialize cfgDemo pmZero) 13 3).pm
      [Op.write 0x375 7, Op.read 0x375 (some 0)]) 13 (some 0)).ret = SUCCESS ∧
    (VMread cfgDemo (runOps cfgDemo (VMwrite cfgDemo ( VMinitialize cfgDemo pmZero) 13 3).pm
      [Op.write 0x375 7, Op.read 0x375 (some 0)]) 13 (some 0)).value = some 3 :=
  write_survives_other_calls cfgDemo cfgDemo_wf (by decide) _ (Reachable.init pmZero) 13
    (by decide) 3 _ (by decide) 0

/-- C3: `VMread(a, out)` returns failure (0) if and only if `a ≥ VIRTUAL_MEMORY_SIZE`
or `out` is the null pointer, and `VMwrite(a, v)` returns failure if and only if
`a ≥ VIRTUAL_MEMORY_SIZE`; in every other case the result is success (1), in
particular for `a = VIRTUAL_MEMORY_SIZE - 1`. On failure nothing is done: no
`PMwrite`, `PMevict` or `PMrestore` is performed, and physical memory and backing
store are unchanged. -/
theorem failure_iff_invalid (cfg : Config) (pm : PM) (a : Nat) (out : Option Int) (v : Int) :
    ((VMread cfg pm a out).ret = FAILURE ↔ (a ≥ VIRTUAL_MEMORY_SIZE cfg ∨ out = none)) ∧
    ((VMread cfg pm a out).ret ≠ FAILURE → (VMread cfg pm a out).ret = SUCCESS) ∧
    ((VMwrite cfg pm a v).ret = FAILURE ↔ a ≥ VIRTUAL_MEMORY_SIZE cfg) ∧
    ((VMwrite cfg pm a v).ret ≠ FAILURE → (VMwrite cfg pm a v).ret = SUCCESS) ∧
    ((VMread cfg pm a out).ret = FAILURE → (VMread cfg pm a out).pm = pm) ∧
    ((VMwrite cfg pm a v).ret = FAILURE → (VMwrite cfg pm a v).pm = pm) ∧
    (VMread cfg pm (VIRTUAL_MEMORY_SIZE cfg - 1) (some v)).ret = SUCCESS ∧
    (VMwrite cfg pm (VIRTUAL_MEMORY_SIZE cfg - 1) v).ret = SUCCESS := by
  have hpos : 0 < VIRTUAL_MEMORY_SIZE cfg := by unfold VIRTUAL_MEMORY_SIZE; positivity
  have key : ∀ (x : Nat) (value : Option Int) (action : Nat),
      ((ReadWrite cfg pm x value action).ret = FAILURE ↔
        (x ≥ VIRTUAL_MEMORY_SIZE cfg ∨ value = none)) ∧
      ((ReadWrite cfg pm x value action).ret ≠ FAILURE →
        (ReadWrite cfg pm x value action).ret = SUCCESS) ∧
      ((ReadWrite cfg pm x value action).ret = FAILURE →
        (ReadWrite cfg pm x value action).pm = pm) := by
    intro x value action
    by_cases hinv : INVALID cfg x value = true
    · rw [ReadWrite_invalid pm x value action hinv]
      refine ⟨⟨fun _ => ?_, fun _ => rfl⟩, fun h => absurd rfl h, fun _ => rfl⟩
      unfold INVALID at hinv
      simp only [Bool.or_eq_true, decide_eq_true_eq] at hinv
      rcases hinv with h | h
      · exact Or.inl h
      · right
        cases value with
        | none => rfl
        | some w => simp at h
    · obtain ⟨hx, w, hw⟩ := INVALID_eq_false hinv
      have hret : (ReadWrite cfg pm x value action).ret = SUCCESS := by
        unfold ReadWrite
        rw [if_neg hinv]
        simp only []
        split <;> rfl
      rw [hret]
      refine ⟨⟨fun h => absurd h (by decide), ?_⟩, fun _ => rfl, fun h => absurd h (by decide)⟩
      rintro (h | h)
      · omega
      · rw [hw] at h; cases h
  refine ⟨(key a out READ).1, (key a out READ).2.1, ?_, (key a (some v) WRITE).2.1,
    (key a out READ).2.2, (key a (some v) WRITE).2.2, ?_, ?_⟩
  · unfold VMwrite
    rw [(key a (some v) WRITE).1]
    simp
  · apply (key _ (some v) READ).2.1
    intro h
    rcases (key _ (some v) READ).1.1 h with h | h
    · omega
    · cases h
  · apply (key _ (some v) WRITE).2.1
    intro h
    rcases (key _ (some v) WRITE).1.1 h with h | h
    · omega
    · cases h

/-- C4: assuming `NUM_FRAMES ≥ TABLES_DEPTH + 1`, for every call
`getEmptyFrame(page, source_frame, depth)` that the driver makes in a state
reachable from `VMinitialize` (at level `i` of the walk of a valid address, when
the slot read is 0), the frame returned satisfies `1 ≤ r < NUM_FRAMES` and
`r ≠ source_frame`; the branch without empty frame, unused frame and eviction
candidate (result 0) is not taken.
(For build constants related as in `Config.WF`.) -/
theorem getEmptyFrame_result_in_range (cfg : Config) (hwf : cfg.WF)
    (hNF : cfg.TABLES_DEPTH + 1 ≤ cfg.NUM_FRAMES) (pm : PM) (hpm : Reachable cfg pm)
    (va : Nat) (hva : va < VIRTUAL_MEMORY_SIZE cfg) (i : Nat) (hi : i < cfg.TABLES_DEPTH)
    (hz : entry cfg (walkUpTo cfg pm va i).1.ram (walkUpTo cfg pm va i).2 (getOffset cfg va i) = 0) :
    1 ≤ (getEmptyFrame cfg (walkUpTo cfg pm va i).1 (va >>> cfg.OFFSET_WIDTH)
          (walkUpTo cfg pm va i).2 i).2 ∧
    (getEmptyFrame cfg (walkUpTo cfg pm va i).1 (va >>> cfg.OFFSET_WIDTH)
          (walkUpTo cfg pm va i).2 i).2 < cfg.NUM_FRAMES ∧
    (getEmptyFrame cfg (walkUpTo cfg pm va i).1 (va >>> cfg.OFFSET_WIDTH)
          (walkUpTo cfg pm va i).2 i).2 ≠ (walkUpTo cfg pm va i).2 ∧
    ¬ ((DFSroot cfg (walkUpTo cfg pm va i).1.ram (va >>> cfg.OFFSET_WIDTH)
            (walkUpTo cfg pm va i).2).empty_frame.number = 0 ∧
        ¬ (DFSroot cfg (walkUpTo cfg pm va i).1.ram (va >>> cfg.OFFSET_WIDTH)
            (walkUpTo cfg pm va i).2).max_frame < (cfg.NUM_FRAMES + U64 - 1) % U64 ∧
        (DFSroot cfg (walkUpTo cfg pm va i).1.ram (va >>> cfg.OFFSET_WIDTH)
            (walkUpTo cfg pm va i).2).evict_page.frame.number = 0) := by
  obtain ⟨m, T⟩ := hpm.inv hwf hNF
  have I := walkUpTo_inv hwf hNF T hva i (Nat.le_of_lt hi)
  obtain ⟨h1, h2, h3⟩ := (walkStep_inv hwf hNF hva hi I).2 hz
  refine ⟨Nat.one_le_iff_ne_zero.2 h1, h2, h3, ?_⟩
  rintro ⟨e1, e2, e3⟩
  apply h1
  rw [getEmptyFrame_snd, chooseFrame_none _ _ e1 e2 e3]

/-- An instance of C4: the first allocation of `write(13, _)` on the empty tree. -/
theorem getEmptyFrame_result_in_range_witness :
    1 ≤ (getEmptyFrame cfgDemo (walkUpTo cfgDemo ( VMinitialize cfgDemo pmZero) 13 0).1
          (13 >>> cfgDemo.OFFSET_WIDTH)
          (walkUpTo cfgDemo ( VMinitialize cfgDemo pmZero) 13 0).2 0).2 ∧
    (getEmptyFrame cfgDemo (walkUpTo cfgDemo ( VMinitialize cfgDemo pmZero) 13 0).1
          (13 >>> cfgDemo.OFFSET_WIDTH)
          (walkUpTo cfgDemo ( VMinitialize cfgDemo pmZero) 13 0).2 0).2 < cfgDemo.NUM_FRAMES ∧
    (getEmptyFrame cfgDemo (walkUpTo cfgDemo ( VMinitialize cfgDemo pmZero) 13 0).1
          (13 >>> cfgDemo.OFFSET_WIDTH)
          (walkUpTo cfgDemo ( VMinitialize cfgDemo pmZero) 13 0).2 0).2 ≠
      (walkUpTo cfgDemo ( VMinitialize cfgDemo pmZero) 13 0).2 ∧
    ¬ ((DFSroot cfgDemo (walkUpTo cfgDemo ( VMinitialize cfgDemo pmZero) 13 0).1.ram
            (13 >>> cfgDemo.OFFSET_WIDTH)
            (walkUpTo cfgDemo ( VMinitialize cfgDemo pmZero) 13 0).2).empty_frame.number = 0 ∧
        ¬ (DFSroot cfgDemo (walkUpTo cfgDemo ( VMinitialize cfgDemo pmZero) 13 0).1.ram
            (13 >>> cfgDemo.OFFSET_WIDTH)
            (walkUpTo cfgDemo ( VMinitialize cfgDemo pmZero) 13 0).2).max_frame
              < (cfgDemo.NUM_FRAMES + U64 - 1) % U64 ∧
        (DFSroot cfgDemo (walkUpTo cfgDemo ( VMinitialize cfgDemo pmZero) 13 0).1.ram
            (13 >>> cfgDemo.OFFSET_WIDTH)
            (walkUpTo cfgDemo ( VMinitialize cfgDemo pmZero) 13 0).2).evict_page.frame.number = 0) :=
  getEmptyFrame_result_in_range cfgDemo cfgDemo_wf (by decide) _ (Reachable.init pmZero) 13
    (by decide) 0 (by decide) (by decide)

/-- C5: for every memory state and every call `getEmptyFrame(page, source_frame,
depth)` with `depth < TABLES_DEPTH - 1`, every one of the `PAGE_SIZE` words of the
frame `r` returned (physical addresses `r * PAGE_SIZE .. r * PAGE_SIZE + PAGE_SIZE
- 1`) is zero after the call, whichever of the three options produced `r`.
(For build constants related as in `Config.WF`.) -/
theorem getEmptyFrame_interior_zeroed (cfg : Config) (hwf : cfg.WF) (pm : PM)
    (page source_frame depth : Nat) (hd : depth < cfg.TABLES_DEPTH - 1)
    (j : Nat) (hj : j < PAGE_SIZE cfg) :
    (getEmptyFrame cfg pm page source_frame depth).1.ram
      ((getEmptyFrame cfg pm page source_frame depth).2 * PAGE_SIZE cfg + j) = 0 := by
  rw [getEmptyFrame_interior pm page source_frame depth hd]
  simp only []
  rw [clearTable_ram hwf _ (chooseFrame_le_word hwf.td_pos pm page source_frame),
    if_pos (inFrame_addr hj)]

/-- An instance of C5, on the ill-formed memory `pmLoop`. -/
theorem getEmptyFrame_interior_zeroed_witness :
    (getEmptyFrame cfgDemo pmLoop 21 0 0).1.ram
      ((getEmptyFrame cfgDemo pmLoop 21 0 0).2 * PAGE_SIZE cfgDemo + 0) = 0 :=
  getEmptyFrame_interior_zeroed cfgDemo cfgDemo_wf pmLoop 21 0 0 (by decide) 0 (by decide)

/-- Every state in which the driver calls the engine has a strict tree as page
table: the state after any number of iterations of the loop of `ReadWrite`, for a
valid address, started in a reachable state. -/
theorem engine_call_inv {cfg : Config} (hwf : cfg.WF)
    (hNF : cfg.TABLES_DEPTH + 1 ≤ cfg.NUM_FRAMES) {pm : PM} (hr : Reachable cfg pm)
    {va : Nat} (hva : va < VIRTUAL_MEMORY_SIZE cfg) {i : Nat} (hi : i ≤ cfg.TABLES_DEPTH) :
    Inv cfg (walkUpTo cfg pm va i).1 := by
  obtain ⟨m, T⟩ := Reachable.inv hwf hNF hr
  exact (walkUpTo_inv hwf hNF T hva i hi).1

/-- C7: in `getEmptyFrame`, whenever the `DFS` found an empty-frame candidate (frame
`e ≠ 0`, with the address `s` of the slot that points to it), the engine writes 0 to
`s` and returns `e`, in preference to both other options: no `PMevict` is called
(the only further calls are the zero writes of `clearTable(e)` for an interior
level, and the backing store is unchanged) and `max_used_frame + 1` is not
returned, whatever `max_used_frame` is. -/
theorem getEmptyFrame_reuses_empty (cfg : Config) (pm : PM) (page source_frame depth : Nat)
    (he : (DFSroot cfg pm.ram page source_frame).empty_frame.number ≠ 0) :
    (getEmptyFrame cfg pm page source_frame depth).2
      = (DFSroot cfg pm.ram page source_frame).empty_frame.number ∧
    (getEmptyFrame cfg pm page source_frame depth).1.log
      = pm.log ++
        PMOp.write (DFSroot cfg pm.ram page source_frame).empty_frame.father_pm_address 0 ::
          (if depth < cfg.TABLES_DEPTH - 1 then
            clearWrites cfg (DFSroot cfg pm.ram page source_frame).empty_frame.number
          else []) ∧
    (∀ f p, PMOp.evict f p ∈ (getEmptyFrame cfg pm page source_frame depth).1.log →
      PMOp.evict f p ∈ pm.log) ∧
    (getEmptyFrame cfg pm page source_frame depth).1.swap = pm.swap ∧
    (getEmptyFrame cfg pm page source_frame depth).2
      ≠ ((DFSroot cfg pm.ram page source_frame).max_frame + 1) % U64 ∧
    (∃ p f o, Reach cfg pm.ram p f ∧ p.length < cfg.TABLES_DEPTH ∧ o < PAGE_SIZE cfg ∧
      entry cfg pm.ram f o = (DFSroot cfg pm.ram page source_frame).empty_frame.number ∧
      (DFSroot cfg pm.ram page source_frame).empty_frame.father_pm_address
        = getPhysicalAddress cfg f o) := by
  obtain ⟨p, f, o, hf, hl, ho, hent, hfa, _, _⟩ := DFSroot_empty_some page source_frame he
  have hr : Reach cfg pm.ram (p ++ [o])
      (DFSroot cfg pm.ram page source_frame).empty_frame.number := by
    have := Reach.extend hf (by omega) ho (by rw [hent]; exact he)
    rwa [hent] at this
  have hle := DFSroot_max_ge page source_frame hr
  have hmax : (DFSroot cfg pm.ram page source_frame).max_frame < 2 ^ 32 := by
    rcases @DFSroot_max_attained cfg pm.ram page source_frame with h | ⟨_, _, hp⟩
    · rw [h]; norm_num
    · exact hp.lt_word
  have hmod : ((DFSroot cfg pm.ram page source_frame).max_frame + 1) % U64
      = (DFSroot cfg pm.ram page source_frame).max_frame + 1 :=
    Nat.mod_eq_of_lt (by unfold U64; omega)
  have hlog : (getEmptyFrame cfg pm page source_frame depth).1.log
      = pm.log ++
        PMOp.write (DFSroot cfg pm.ram page source_frame).empty_frame.father_pm_address 0 ::
          (if depth < cfg.TABLES_DEPTH - 1 then
            clearWrites cfg (DFSroot cfg pm.ram page source_frame).empty_frame.number
          else []) := by
    by_cases hd : depth < cfg.TABLES_DEPTH - 1
    · rw [getEmptyFrame_interior pm page source_frame depth hd, chooseFrame_empty pm _ he, if_pos hd]
      simp only []
      rw [clearTable_log, PMwrite_log]
      simp [clearWrites]
    · rw [getEmptyFrame_last pm page source_frame depth hd, chooseFrame_empty pm _ he, if_neg hd]
      simp only []
      rw [PMwrite_log]
  refine ⟨?_, hlog, ?_, ?_, ?_, p, f, o, hf, by omega, ho, hent, hfa⟩
  · rw [getEmptyFrame_snd, chooseFrame_empty pm _ he]
  · intro f' p' hmem
    rw [hlog] at hmem
    rcases List.mem_append.1 hmem with h | h
    · exact h
    · exfalso
      rcases List.mem_cons.1 h with h | h
      · cases h
      · split at h
        · simp [clearWrites] at h
        · simp at h
  · by_cases hd : depth < cfg.TABLES_DEPTH - 1
    · rw [getEmptyFrame_interior pm page source_frame depth hd, chooseFrame_empty pm _ he]
      simp only []
      rw [clearTable_swap, PMwrite_swap]
    · rw [getEmptyFrame_last pm page source_frame depth hd, chooseFrame_empty pm _ he]
      rfl
  · rw [getEmptyFrame_snd, chooseFrame_empty pm _ he, hmod]
    simp only []
    omega

/-- An instance of C7: in `pmOneTable` frame 1 is an empty table, and it is returned
although frames 2 to 7 were never used. -/
theorem getEmptyFrame_reuses_empty_witness :
    (getEmptyFrame cfgDemo pmOneTable 21 0 1).2
      = (DFSroot cfgDemo pmOneTable.ram 21 0).empty_frame.number :=
  (getEmptyFrame_reuses_empty cfgDemo pmOneTable 21 0 1 (by decide)).1

/-- C8: let `m` be the largest frame number stored in a non-zero slot of a table
that the `DFS` visits from the root at the depths `0 .. TABLES_DEPTH - 1` (`m = 0`
if there is none). In `getEmptyFrame`, when there is no empty-frame candidate and
`m + 1 < NUM_FRAMES`, the engine returns exactly `m + 1`, clears no parent slot and
calls no `PMevict`: its only writes are the zeroing of frame `m + 1` when
`depth < TABLES_DEPTH - 1`.
(For build constants related as in `Config.WF`.) -/
theorem getEmptyFrame_takes_unused (cfg : Config) (hwf : cfg.WF) (pm : PM)
    (page source_frame depth m : Nat) (hm : IsMaxStored cfg pm.ram m)
    (he : (DFSroot cfg pm.ram page source_frame).empty_frame.number = 0)
    (hlt : m + 1 < cfg.NUM_FRAMES) :
    (getEmptyFrame cfg pm page source_frame depth).2 = m + 1 ∧
    (getEmptyFrame cfg pm page source_frame depth).1.log
      = pm.log ++ (if depth < cfg.TABLES_DEPTH - 1 then clearWrites cfg (m + 1) else []) ∧
    (∀ i, i < PAGE_SIZE cfg →
      getPhysicalAddress cfg (m + 1) i = (m + 1) * PAGE_SIZE cfg + i) ∧
    (getEmptyFrame cfg pm page source_frame depth).1.swap = pm.swap ∧
    (∀ a, ¬ inFrame cfg (m + 1) a →
      (getEmptyFrame cfg pm page source_frame depth).1.ram a = pm.ram a) := by
  have hmax := DFSroot_max_of_isMaxStored hm page source_frame
  have hnf := hwf.nf_le
  have hmod : (m + 1) % U64 = m + 1 := Nat.mod_eq_of_lt (by unfold U64; omega)
  have hch : chooseFrame cfg pm (DFSroot cfg pm.ram page source_frame) = (pm, m + 1) := by
    rw [chooseFrame_unused pm _ he
      (by rw [hmax, num_frames_pred hwf (by omega)]; omega), hmax, hmod]
  refine ⟨by rw [getEmptyFrame_snd, hch], ?_, ?_, ?_, ?_⟩
  · by_cases hd : depth < cfg.TABLES_DEPTH - 1
    · rw [getEmptyFrame_interior pm page source_frame depth hd, hch, if_pos hd]
      simp only []
      rw [clearTable_log]; rfl
    · rw [getEmptyFrame_last pm page source_frame depth hd, hch, if_neg hd]
      simp
  · intro i hi
    exact getPhysicalAddress_eq cfg hwf _ _ (by omega) hi
  · by_cases hd : depth < cfg.TABLES_DEPTH - 1
    · rw [getEmptyFrame_interior pm page source_frame depth hd, hch]
      simp only []
      rw [clearTable_swap]
    · rw [getEmptyFrame_last pm page source_frame depth hd, hch]
  · intro a ha
    by_cases hd : depth < cfg.TABLES_DEPTH - 1
    · rw [getEmptyFrame_interior pm page source_frame depth hd, hch]
      simp only []
      rw [clearTable_ram hwf pm (by omega), if_neg ha]
    · rw [getEmptyFrame_last pm page source_frame depth hd, hch]

/-- An instance of C8: in `pmOneLeaf` the largest stored frame number is 2 and the
engine returns frame 3. -/
theorem getEmptyFrame_takes_unused_witness :
    (getEmptyFrame cfgDemo pmOneLeaf 21 1 1).2 = 2 + 1 :=
  (getEmptyFrame_takes_unused cfgDemo cfgDemo_wf pmOneLeaf 21 1 1 2 pmOneLeaf_isMaxStored
    (by decide) (by decide)).1

/-- C9: assuming `NUM_FRAMES ≥ TABLES_DEPTH + 1`, in every state reachable from
`VMinitialize` by `VMread`/`VMwrite` calls, every non-zero entry of every table
reachable from the root at a depth below `TABLES_DEPTH` is a frame number in
`[1, NUM_FRAMES)`; consequently in every `VMread`/`VMwrite` on a valid address every
frame the walk descends into is non-zero and at most `NUM_FRAMES - 1`, and every
physical address accessed is below `NUM_FRAMES * PAGE_SIZE`: the slot read at each
level and the word read or written at the end, every word of every frame reachable
at any point of the walk (which covers the slots `DFS` reads), and every address
written, and every frame evicted or restored, during the call.
(For build constants related as in `Config.WF`.) -/
theorem entries_and_addresses_in_range (cfg : Config) (hwf : cfg.WF)
    (hNF : cfg.TABLES_DEPTH + 1 ≤ cfg.NUM_FRAMES) (pm : PM) (hpm : Reachable cfg pm) :
    (∀ p f o, Reach cfg pm.ram p f → p.length < cfg.TABLES_DEPTH → o < PAGE_SIZE cfg →
      entry cfg pm.ram f o ≠ 0 → 1 ≤ entry cfg pm.ram f o ∧ entry cfg pm.ram f o < cfg.NUM_FRAMES) ∧
    (∀ va, va < VIRTUAL_MEMORY_SIZE cfg →
      (∀ k, 1 ≤ k → k ≤ cfg.TABLES_DEPTH →
        1 ≤ (walkUpTo cfg pm va k).2 ∧ (walkUpTo cfg pm va k).2 ≤ cfg.NUM_FRAMES - 1) ∧
      (∀ k, k ≤ cfg.TABLES_DEPTH →
        getPhysicalAddress cfg (walkUpTo cfg pm va k).2 (getOffset cfg va k)
          < cfg.NUM_FRAMES * PAGE_SIZE cfg) ∧
      (∀ k, k ≤ cfg.TABLES_DEPTH → ∀ p f o, Reach cfg (walkUpTo cfg pm va k).1.ram p f →
        o < PAGE_SIZE cfg → getPhysicalAddress cfg f o < cfg.NUM_FRAMES * PAGE_SIZE cfg) ∧
      (∀ (w : Int) (action : Nat), ∃ l,
        (ReadWrite cfg pm va (some w) action).pm.log = pm.log ++ l ∧
        ∀ op ∈ l, op.inRange cfg)) := by
  obtain ⟨m, T⟩ := hpm.inv hwf hNF
  have hnf := hwf.nf_le
  refine ⟨?_, ?_⟩
  · intro p f o hf hl ho hne
    have := T.range _ _ (Reach.extend hf hl ho hne)
    have := T.bound
    omega
  · intro va hva
    have hfinal : getPhysicalAddress cfg (walkUpTo cfg pm va cfg.TABLES_DEPTH).2
        (getOffset cfg va cfg.TABLES_DEPTH) < cfg.NUM_FRAMES * PAGE_SIZE cfg := by
      have h1 := (walkUpTo_frame hwf hNF T hva (Nat.le_refl _)).1
      rw [getPhysicalAddress_eq cfg hwf _ _ (by omega) (getOffset_lt va _)]
      exact addr_lt h1 (getOffset_lt va _)
    refine ⟨?_, ?_, ?_, ?_⟩
    · intro k h1 hk
      obtain ⟨h2, h3⟩ := walkUpTo_frame hwf hNF T hva hk
      exact ⟨h3 h1, by omega⟩
    · intro k hk
      have h1 := (walkUpTo_frame hwf hNF T hva hk).1
      rw [getPhysicalAddress_eq cfg hwf _ _ (by omega) (getOffset_lt va k)]
      exact addr_lt h1 (getOffset_lt va k)
    · intro k hk p f o hf ho
      obtain ⟨⟨m', T'⟩, _, _⟩ := walkUpTo_inv hwf hNF T hva k hk
      have h1 : f < cfg.NUM_FRAMES := lt_of_le_of_lt (T'.range _ _ hf) T'.bound
      rw [getPhysicalAddress_eq cfg hwf _ _ (by omega) ho]
      exact addr_lt h1 ho
    · intro w action
      have hinv : INVALID cfg va (some w) = false := by
        unfold INVALID; simp; exact hva
      have hwalk := walkUpTo_logOK hwf hNF T hva cfg.TABLES_DEPTH (Nat.le_refl _)
      unfold ReadWrite
      rw [hinv]
      simp only [Bool.false_eq_true, if_false]
      split
      · exact hwalk
      · exact LogOK.trans hwalk (LogOK.write _ hfinal)

/-- An instance of C9: the first frame the walk of address 13 descends into. -/
theorem entries_and_addresses_in_range_witness :
    1 ≤ (walkUpTo cfgDemo ( VMinitialize cfgDemo pmZero) 13 1).2 ∧
    (walkUpTo cfgDemo ( VMinitialize cfgDemo pmZero) 13 1).2 ≤ cfgDemo.NUM_FRAMES - 1 :=
  ((entries_and_addresses_in_range cfgDemo cfgDemo_wf (by decide) _
    (Reachable.init pmZero)).2 13 (by decide)).1 1 (by decide) (by decide)

/-- C10: assuming `NUM_FRAMES ≥ TABLES_DEPTH + 1` and a faithful backing store, in
every reachable state and for every valid address `a`, two `VMread(a)` calls
separated only by `VMread` calls (on any addresses) deliver identical values; in
particular two consecutive `VMread(a)` calls deliver the same value.
(For build constants related as in `Config.WF`.) -/
theorem repeated_reads_agree (cfg : Config) (hwf : cfg.WF)
    (hNF : cfg.TABLES_DEPTH + 1 ≤ cfg.NUM_FRAMES) (pm : PM) (hpm : Reachable cfg pm)
    (a : Nat) (ha : a < VIRTUAL_MEMORY_SIZE cfg) (ops : List Op)
    (hops : ∀ op ∈ ops, ∃ va b, op = Op.read va b) (buf buf' : Int) :
    (∃ x, (VMread cfg pm a (some buf)).value = some x ∧
      (VMread cfg (runOps cfg (VMread cfg pm a (some buf)).pm ops) a (some buf')).value = some x) ∧
    (VMread cfg (VMread cfg pm a (some buf)).pm a (some buf')).value
      = (VMread cfg pm a (some buf)).value := by
  obtain ⟨_, h2, _, x, hxe, hx, _⟩ := ReadWrite_spec hwf hNF (hpm.inv hwf hNF) ha buf READ
  have key : ∀ ops : List Op, (∀ op ∈ ops, ∃ va b, op = Op.read va b) →
      (VMread cfg (runOps cfg (VMread cfg pm a (some buf)).pm ops) a (some buf')).value
        = some x := by
    intro ops hops
    obtain ⟨h3, h4⟩ := runOps_spec hwf hNF ops h2 ha (fun op hop => Or.inl (hops op hop)) hx
    obtain ⟨_, _, h6, y, hy, hyv, _⟩ := ReadWrite_spec hwf hNF h3 ha buf' READ
    have := h6 a x ha (Or.inl rfl) h4
    unfold VMread
    rw [hy, Val.unique_word hyv this]
  refine ⟨⟨x, hxe, key ops hops⟩, ?_⟩
  have := key [] (by simp)
  rw [show (VMread cfg pm a (some buf)).value = some x from hxe]
  exact this

/-- An instance of C10: two reads of address 13, with and without a read of `0x375`
in between. -/
theorem repeated_reads_agree_witness :
    (∃ x, (VMread cfgDemo ( VMinitialize cfgDemo pmZero) 13 (some 0)).value = some x ∧
      (VMread cfgDemo (runOps cfgDemo (VMread cfgDemo ( VMinitialize cfgDemo pmZero) 13 (some 0)).pm
        [Op.read 0x375 (some 0)]) 13 (some 1)).value = some x) ∧
    (VMread cfgDemo (VMread cfgDemo ( VMinitialize cfgDemo pmZero) 13 (some 0)).pm 13 (some 1)).value
      = (VMread cfgDemo ( VMinitialize cfgDemo pmZero) 13 (some 0)).value :=
  repeated_reads_agree cfgDemo cfgDemo_wf (by decide) _ (Reachable.init pmZero) 13 (by decide)
    [Op.read 0x375 (some 0)] (by simp) 0 1

section

variable {cfg : Config}

/-- When every slot the walk reads holds a link, the loop of `ReadWrite` leaves the
state as it is and follows the slots of the address. -/
theorem walkUpTo_present (pm : PM) (va : Nat) :
    ∀ k, k ≤ cfg.TABLES_DEPTH →
      (∀ i, i < k →
        entry cfg (walkUpTo cfg pm va i).1.ram (walkUpTo cfg pm va i).2 (getOffset cfg va i) ≠ 0) →
      (walkUpTo cfg pm va k).1 = pm ∧
      Reach cfg pm.ram ((vaPath cfg va).take k) (walkUpTo cfg pm va k).2 := by
  intro k
  induction k with
  | zero =>
    intro _ _
    exact ⟨rfl, by simpa [walkUpTo] using Reach.root⟩
  | succ k ih =>
    intro hk hl
    obtain ⟨h1, h2⟩ := ih (by omega) (fun i hi => hl i (by omega))
    have hne := hl k (by omega)
    rw [walkUpTo_succ, walkStep_present va _ _ k hne]
    refine ⟨h1, ?_⟩
    rw [vaPath_take_succ va (by omega)]
    simp only []
    rw [h1] at hne ⊢
    exact Reach.extend h2 (by rw [vaPath_take_length va (by omega)]; omega)
      (getOffset_lt va k) hne

/-- In a strict tree the slot that points to a frame does not lie in that frame. -/
theorem TreeInv.slot_outside (hwf : cfg.WF) {ram : Nat → Int} {m : Nat} (T : TreeInv cfg ram m)
    {p : List Nat} {f o : Nat} (hf : Reach cfg ram p f) (hl : p.length < cfg.TABLES_DEPTH)
    (ho : o < PAGE_SIZE cfg) (hne : entry cfg ram f o ≠ 0) :
    ¬ inFrame cfg (entry cfg ram f o) (getPhysicalAddress cfg f o) := by
  intro hin
  have hr := Reach.extend hf hl ho hne
  rw [getPhysicalAddress_eq cfg hwf f o (Nat.le_of_lt hf.lt_word) ho] at hin
  have hff := inFrame_unique (inFrame_addr ho) hin
  have hpp := T.inj _ _ _ hr (hff ▸ hf)
  have := congrArg List.length hpp
  simp at this

end

section

variable {cfg : Config}

/-- A frame just above the frames of a strict tree is chosen without any change of
the memory. -/
theorem chosen_fresh {pm : PM} {m : Nat} (T : TreeInv cfg pm.ram m) (hm : m + 1 < 2 ^ 32) :
    Chosen cfg pm pm (m + 1) := by
  have hno : ∀ p, ¬ Reach cfg pm.ram p (m + 1) := by
    intro p hp
    have := T.range _ _ hp
    omega
  have hslot : ∀ p f o', Reach cfg pm.ram p f → p.length < cfg.TABLES_DEPTH →
      o' < PAGE_SIZE cfg → entry cfg pm.ram f o' ≠ m + 1 := by
    intro p f o' hf hl ho' hent
    have := Reach.extend hf hl ho' (by rw [hent]; omega)
    rw [hent] at this
    exact hno _ this
  constructor
  · omega
  · exact hm
  · intro p hp; exact absurd hp (hno p)
  · intro a _; rfl
  · intro p f o' hf hl ho' hent; exact absurd hent (hslot p f o' hf hl ho')
  · intro q _; rfl
  · intro p hp; exact absurd hp (hno p)

/-- Finishing a step calls `PMevict` never: the record of operations grows by
operations none of which is a `PMevict`. -/
theorem finishStep_no_evict (pm1 : PM) (F o r i page : Nat) :
    ∃ ops, (finishStep cfg pm1 F o r i page).log = pm1.log ++ ops ∧
      ∀ f p, PMOp.evict f p ∉ ops := by
  have hc : ∃ ops, (if i < cfg.TABLES_DEPTH - 1 then clearTable cfg pm1 r else pm1).log
      = pm1.log ++ ops ∧ ∀ f p, PMOp.evict f p ∉ ops := by
    split
    · exact ⟨_, clearTable_log pm1 r, by simp⟩
    · exact ⟨[], by simp, by simp⟩
  obtain ⟨ops, h1, h2⟩ := hc
  unfold finishStep
  simp only []
  split
  · refine ⟨ops ++ [PMOp.write (getPhysicalAddress cfg F o) (u64ToWord r), PMOp.restore r page],
      ?_, ?_⟩
    · show ((if i < cfg.TABLES_DEPTH - 1 then clearTable cfg pm1 r else pm1).log ++
        [PMOp.write (getPhysicalAddress cfg F o) (u64ToWord r)]) ++ [PMOp.restore r page] = _
      rw [h1]; simp
    · intro f p h
      simp only [List.mem_append, List.mem_cons, reduceCtorEq, List.mem_singleton, or_false,
        List.not_mem_nil] at h
      exact h2 f p h
  · refine ⟨ops ++ [PMOp.write (getPhysicalAddress cfg F o) (u64ToWord r)], ?_, ?_⟩
    · rw [PMwrite_log, h1]; simp
    · intro f p h
      simp only [List.mem_append, List.mem_singleton, reduceCtorEq, or_false] at h
      exact h2 f p h

/-- When the frames reached are `0, 1, ..., k` along the slots of `a`, the link of
level `i` sits in slot `getOffset(a, i)` of frame `i` and every other slot of the
frames `0, ..., k - 1` is empty. -/
theorem single_path_entries {ram : Nat → Int} {a k : Nat} (hk : k ≤ cfg.TABLES_DEPTH)
    (hchar : ∀ p g, Reach cfg ram p g ↔ ∃ j, j ≤ k ∧ p = (vaPath cfg a).take j ∧ g = j) :
    ∀ i, i < k → entry cfg ram i (getOffset cfg a i) = i + 1 ∧
      ∀ o, o < PAGE_SIZE cfg → o ≠ getOffset cfg a i → entry cfg ram i o = 0 := by
  intro i hi
  have hri : Reach cfg ram ((vaPath cfg a).take i) i := (hchar _ _).2 ⟨i, by omega, rfl, rfl⟩
  constructor
  · have h1 : Reach cfg ram ((vaPath cfg a).take (i + 1)) (i + 1) :=
      (hchar _ _).2 ⟨i + 1, by omega, rfl, rfl⟩
    rw [vaPath_take_succ a (by omega)] at h1
    obtain ⟨g, hg, _, _, hent, _⟩ := Reach.extend_inv h1
    rw [← Reach.unique hri hg] at hent
    exact hent
  · intro o ho hne
    by_contra hnz
    have h1 := Reach.extend hri (by rw [vaPath_take_length a (by omega)]; omega) ho hnz
    obtain ⟨j, hj, hp, _⟩ := (hchar _ _).1 h1
    have hlen := congrArg List.length hp
    rw [List.length_append, vaPath_take_length a (by omega), vaPath_take_length a (by omega)] at hlen
    simp only [List.length_singleton] at hlen
    subst hlen
    rw [vaPath_take_succ a (by omega)] at hp
    have := List.append_inj_right' hp rfl
    simp only [List.cons.injEq, and_true] at this
    exact hne this

end

section

variable {cfg : Config}

/-- One iteration of the first walk after `VMinitialize`: when the frames reached
are `0, ..., k` along the slots of `a` and the walk is at frame `k`, the slot of
level `k` is empty, the traversal finds no empty table, the engine returns frame
`k + 1` without evicting, and afterwards the frames reached are `0, ..., k + 1`. -/
theorem first_walk_step (hwf : cfg.WF) (hNF : cfg.TABLES_DEPTH + 1 ≤ cfg.NUM_FRAMES)
    {a k : Nat} (ha : a < VIRTUAL_MEMORY_SIZE cfg) (hk : k < cfg.TABLES_DEPTH)
    (w : PM × Nat) (hw2 : w.2 = k) (T : TreeInv cfg w.1.ram k)
    (hchar : ∀ p g, Reach cfg w.1.ram p g ↔ ∃ j, j ≤ k ∧ p = (vaPath cfg a).take j ∧ g = j) :
    entry cfg w.1.ram w.2 (getOffset cfg a k) = 0 ∧
    (getEmptyFrame cfg w.1 (a >>> cfg.OFFSET_WIDTH) w.2 k).2 = k + 1 ∧
    (walkStep cfg a (a >>> cfg.OFFSET_WIDTH) w k).2 = k + 1 ∧
    TreeInv cfg (walkStep cfg a (a >>> cfg.OFFSET_WIDTH) w k).1.ram (k + 1) ∧
    (∀ p g, Reach cfg (walkStep cfg a (a >>> cfg.OFFSET_WIDTH) w k).1.ram p g ↔
      ∃ j, j ≤ k + 1 ∧ p = (vaPath cfg a).take j ∧ g = j) ∧
    (walkStep cfg a (a >>> cfg.OFFSET_WIDTH) w k).1.swap = w.1.swap ∧
    (∃ ops, (walkStep cfg a (a >>> cfg.OFFSET_WIDTH) w k).1.log = w.1.log ++ ops ∧
      ∀ f p, PMOp.evict f p ∉ ops) := by
  have hlen : ((vaPath cfg a).take k).length = k := vaPath_take_length a (Nat.le_of_lt hk)
  have ho := @getOffset_lt cfg a k
  have hF : Reach cfg w.1.ram ((vaPath cfg a).take k) w.2 :=
    (hchar _ _).2 ⟨k, Nat.le_refl _, rfl, hw2⟩
  have hz : entry cfg w.1.ram w.2 (getOffset cfg a k) = 0 := by
    by_contra hnz
    have h1 := Reach.extend hF (by omega) ho hnz
    obtain ⟨j, hj, hp, _⟩ := (hchar _ _).1 h1
    have hl := congrArg List.length hp
    rw [List.length_append, hlen, vaPath_take_length a (by omega)] at hl
    simp only [List.length_singleton] at hl
    omega
  have he : (DFSroot cfg w.1.ram (a >>> cfg.OFFSET_WIDTH) w.2).empty_frame.number = 0 := by
    by_contra hne
    obtain ⟨p, f, o, hf, hl, ho', hent, _, hsrc, hzero⟩ :=
      DFSroot_empty_some (a >>> cfg.OFFSET_WIDTH) w.2 hne
    have h1 := Reach.extend hf (by omega) ho' (by rw [hent]; exact hne)
    rw [hent] at h1
    obtain ⟨j, hj, _, hg⟩ := (hchar _ _).1 h1
    have hjk : j < k := by
      rcases Nat.lt_or_ge j k with h | h
      · exact h
      · exfalso; apply hsrc; rw [hg, hw2]; omega
    have h2 := (single_path_entries (Nat.le_of_lt hk) hchar j hjk).1
    have h3 := hzero _ (@getOffset_lt cfg a j)
    rw [hg] at h3
    omega
  have hmax := DFSroot_max_eq T (a >>> cfg.OFFSET_WIDTH) w.2
  have hpred := num_frames_pred hwf hwf.nf_pos
  have hnf := hwf.nf_le
  have hlt : (DFSroot cfg w.1.ram (a >>> cfg.OFFSET_WIDTH) w.2).max_frame
      < (cfg.NUM_FRAMES + U64 - 1) % U64 := by
    rw [hmax, hpred]
    exact Nat.lt_sub_of_add_lt (by omega)
  have hch : chooseFrame cfg w.1 (DFSroot cfg w.1.ram (a >>> cfg.OFFSET_WIDTH) w.2)
      = (w.1, k + 1) := by
    rw [chooseFrame_unused w.1 _ he hlt, hmax]
    have h264 : (2:Nat) ^ 31 < 2 ^ 64 := by norm_num
    have hm : (k + 1) % U64 = k + 1 := Nat.mod_eq_of_lt (by unfold U64; omega)
    rw [hm]
  have hstep := walkStep_absent a (a >>> cfg.OFFSET_WIDTH) w k hz
  rw [hch] at hstep
  simp only [] at hstep
  have C : Chosen cfg w.1 w.1 (k + 1) := chosen_fresh T (by omega)
  have R := @finishStep_relink cfg w.1 w.1 ((vaPath cfg a).take k) w.2 (getOffset cfg a k)
    (k + 1) (a >>> cfg.OFFSET_WIDTH) hwf C hF ho hz (by omega)
  rw [hlen] at R
  have iff := R.reach_iff hwf T hF (by omega) ho hz
  have T2 := R.treeInv hwf T hF (by omega) ho hz (Nat.le_refl _) (by omega)
    (fun hnil => by
      have h0 : k = 0 := by rw [← hlen, hnil]; rfl
      subst h0
      exact getOffset_zero_lt_TOP hwf ha)
  rw [max_eq_right (Nat.le_succ k)] at T2
  rw [hstep]
  refine ⟨hz, by rw [getEmptyFrame_snd, hch], rfl, T2, ?_, finishStep_swap _ _ _ _ _,
    finishStep_no_evict _ _ _ _ _ _⟩
  intro p g
  simp only []
  rw [iff p g, hchar p g]
  constructor
  · rintro (⟨⟨j, hj, hp, hg⟩, _⟩ | ⟨hp, hg⟩)
    · exact ⟨j, by omega, hp, hg⟩
    · exact ⟨k + 1, Nat.le_refl _, by rw [vaPath_take_succ a hk]; exact hp, hg⟩
  · rintro ⟨j, hj, hp, hg⟩
    rcases Nat.lt_or_ge j (k + 1) with h | h
    · exact Or.inl ⟨⟨j, by omega, hp, hg⟩, by omega⟩
    · have : j = k + 1 := by omega
      subst this
      exact Or.inr ⟨by rw [hp, vaPath_take_succ a hk], hg⟩

/-- The first walk after `VMinitialize`: after `k` iterations the walk is at frame
`k`, the frames reached are `0, ..., k` along the slots of `a`, and `PMevict` was
not called. -/
theorem first_walk (hwf : cfg.WF) (hNF : cfg.TABLES_DEPTH + 1 ≤ cfg.NUM_FRAMES)
    (pm0 : PM) {a : Nat} (ha : a < VIRTUAL_MEMORY_SIZE cfg) :
    ∀ k, k ≤ cfg.TABLES_DEPTH →
      (walkUpTo cfg ( VMinitialize cfg pm0) a k).2 = k ∧
      TreeInv cfg (walkUpTo cfg ( VMinitialize cfg pm0) a k).1.ram k ∧
      (∀ p g, Reach cfg (walkUpTo cfg ( VMinitialize cfg pm0) a k).1.ram p g ↔
        ∃ j, j ≤ k ∧ p = (vaPath cfg a).take j ∧ g = j) ∧
      (walkUpTo cfg ( VMinitialize cfg pm0) a k).1.swap = pm0.swap ∧
      (∃ ops, (walkUpTo cfg ( VMinitialize cfg pm0) a k).1.log = pm0.log ++ ops ∧
        ∀ f p, PMOp.evict f p ∉ ops) := by
  intro k
  induction k with
  | zero =>
    intro _
    have T := VMinitialize_inv hwf hNF pm0
    refine ⟨rfl, T, ?_, ?_, ?_⟩
    · intro p g
      show Reach cfg ( VMinitialize cfg pm0).ram p g ↔ _
      constructor
      · intro h
        have hg : g = 0 := Nat.le_zero.1 (T.range _ _ h)
        subst hg
        have hp := T.inj _ _ _ h Reach.root
        exact ⟨0, Nat.le_refl _, by simpa using hp, rfl⟩
      · rintro ⟨j, hj, hp, hg⟩
        have : j = 0 := by omega
        subst this
        subst hg
        simp only [List.take_zero] at hp
        subst hp
        exact Reach.root
    · show ( VMinitialize cfg pm0).swap = pm0.swap
      unfold VMinitialize
      rw [clearTable_swap]
    · refine ⟨_, clearTable_log pm0 0, by simp⟩
  | succ k ih =>
    intro hk
    obtain ⟨h1, h2, h3, h4, ops, h5, h6⟩ := ih (by omega)
    obtain ⟨_, _, s1, s2, s3, s4, ops', s5, s6⟩ :=
      first_walk_step hwf hNF ha (by omega) _ h1 h2 h3
    rw [walkUpTo_succ]
    refine ⟨s1, s2, s3, by rw [s4, h4], ops ++ ops', by rw [s5, h5, List.append_assoc], ?_⟩
    intro f p h
    rcases List.mem_append.1 h with h | h
    · exact h6 f p h
    · exact s6 f p h

end

section

variable {cfg : Config} {ram : Nat → Int}

/-- The visits do not depend on the bound of the recursion, once it reaches
`TABLES_DEPTH - d`. -/
theorem visits_fuel (fuel : Nat) : ∀ (fuel' d father cur va : Nat),
    d ≤ cfg.TABLES_DEPTH → cfg.TABLES_DEPTH ≤ d + fuel → cfg.TABLES_DEPTH ≤ d + fuel' →
    visits cfg ram fuel d father cur va = visits cfg ram fuel' d father cur va := by
  induction fuel with
  | zero =>
    intro fuel' d father cur va h0 h1 h2
    have hd : d = cfg.TABLES_DEPTH := by omega
    cases fuel' with
    | zero => rfl
    | succ f' =>
      unfold visits
      rw [if_pos hd, if_pos hd]
  | succ fuel ih =>
    intro fuel' d father cur va h0 h1 h2
    cases fuel' with
    | zero =>
      have hd : d = cfg.TABLES_DEPTH := by omega
      unfold visits
      rw [if_pos hd, if_pos hd]
    | succ f' =>
      unfold visits
      by_cases hd : d = cfg.TABLES_DEPTH
      · rw [if_pos hd, if_pos hd]
      · rw [if_neg hd, if_neg hd]
        congr 1
        congr 1
        funext offset
        split
        · rw [ih f' (d + 1) _ _ _ (by omega) (by omega) (by omega)]
        · rfl

/-- The outputs of `DFS` do not depend on the bound of the recursion, once it
reaches `TABLES_DEPTH - d`. -/
theorem DFS_fuel (page source_frame fuel fuel' : Nat) (st : DfsState) (d father cur va : Nat)
    (h0 : d ≤ cfg.TABLES_DEPTH) (h1 : cfg.TABLES_DEPTH ≤ d + fuel)
    (h2 : cfg.TABLES_DEPTH ≤ d + fuel') :
    DFS cfg ram page source_frame fuel st d father cur va =
      DFS cfg ram page source_frame fuel' st d father cur va := by
  rw [DFS_eq_foldl, DFS_eq_foldl, visits_fuel fuel fuel' d father cur va h0 h1 h2]

/-- The calls do not depend on the bound of the recursion, once it reaches
`TABLES_DEPTH - d`. -/
theorem calls_fuel (fuel : Nat) : ∀ (fuel' d cur : Nat),
    d ≤ cfg.TABLES_DEPTH → cfg.TABLES_DEPTH ≤ d + fuel → cfg.TABLES_DEPTH ≤ d + fuel' →
    calls cfg ram fuel d cur = calls cfg ram fuel' d cur := by
  induction fuel with
  | zero =>
    intro fuel' d cur h0 h1 h2
    have hd : d = cfg.TABLES_DEPTH := by omega
    cases fuel' with
    | zero => rfl
    | succ f' =>
      unfold calls
      rw [if_pos hd, if_pos hd]
  | succ fuel ih =>
    intro fuel' d cur h0 h1 h2
    cases fuel' with
    | zero =>
      have hd : d = cfg.TABLES_DEPTH := by omega
      unfold calls
      rw [if_pos hd, if_pos hd]
    | succ f' =>
      unfold calls
      by_cases hd : d = cfg.TABLES_DEPTH
      · rw [if_pos hd, if_pos hd]
      · rw [if_neg hd, if_neg hd]
        congr 1
        congr 1
        funext offset
        split
        · rw [ih f' (d + 1) _ (by omega) (by omega) (by omega)]
        · rfl

/-- The calls of `DFS` are the visits that end a call, in the same order. -/
theorem calls_eq_visits (fuel : Nat) : ∀ (d father cur va : Nat),
    (calls cfg ram fuel d cur).map Prod.snd =
      (visits cfg ram fuel d father cur va).filterMap Visit.frame := by
  induction fuel with
  | zero =>
    intro d father cur va
    unfold calls visits
    split <;> simp [Visit.frame]
  | succ fuel ih =>
    intro d father cur va
    unfold calls visits
    by_cases hd : d = cfg.TABLES_DEPTH
    · rw [if_pos hd, if_pos hd]; simp [Visit.frame]
    · rw [if_neg hd, if_neg hd, List.map_append, List.filterMap_append, List.map_flatMap,
        List.filterMap_flatMap]
      congr 1
      · congr 1
        funext offset
        split
        · rw [List.filterMap_cons]
          simp only [Visit.frame]
          exact ih _ _ _ _
        · rfl

/-- Every call is at a depth between the depth of the first call and
`TABLES_DEPTH`. -/
theorem calls_depth (fuel : Nat) : ∀ (d cur : Nat), d ≤ cfg.TABLES_DEPTH →
    ∀ c ∈ calls cfg ram fuel d cur, d ≤ c.1 ∧ c.1 ≤ cfg.TABLES_DEPTH := by
  induction fuel with
  | zero =>
    intro d cur hd c hc
    unfold calls at hc
    split at hc
    · simp only [List.mem_singleton] at hc
      subst hc; exact ⟨Nat.le_refl _, hd⟩
    · simp at hc
  | succ fuel ih =>
    intro d cur hd c hc
    unfold calls at hc
    by_cases hTD : d = cfg.TABLES_DEPTH
    · rw [if_pos hTD] at hc
      simp only [List.mem_singleton] at hc
      subst hc; exact ⟨Nat.le_refl _, hd⟩
    · rw [if_neg hTD] at hc
      rcases List.mem_append.1 hc with h | h
      · obtain ⟨o, _, ho⟩ := List.mem_flatMap.1 h
        split at ho
        · have := ih (d + 1) _ (by omega) c ho
          omega
        · simp at ho
      · simp only [List.mem_singleton] at h
        subst h; exact ⟨Nat.le_refl _, hd⟩

/-- A bound on a count over a concatenation of lists. -/
theorem countP_flatMap_le {α β : Type} (P : β → Bool) (G : α → List β) (B : Nat)
    (h : ∀ o, (G o).countP P ≤ B) :
    ∀ l : List α, (l.flatMap G).countP P ≤ l.length * B := by
  intro l
  induction l with
  | nil => simp
  | cons a l ih =>
    rw [List.flatMap_cons, List.countP_append, List.length_cons, Nat.succ_mul]
    have := h a
    omega

/-- At most `PAGE_SIZE ^ (e - d)` of the calls made from a call at depth `d` are at
depth `e`. -/
theorem calls_count (fuel : Nat) : ∀ (d cur e : Nat), d ≤ cfg.TABLES_DEPTH → d ≤ e →
    (calls cfg ram fuel d cur).countP (fun c => decide (c.1 = e)) ≤
      PAGE_SIZE cfg ^ (e - d) := by
  induction fuel with
  | zero =>
    intro d cur e hd hde
    unfold calls
    have hpos : 0 < PAGE_SIZE cfg ^ (e - d) := Nat.pow_pos (PAGE_SIZE_pos cfg)
    split
    · rw [List.countP_cons, List.countP_nil]
      split <;> omega
    · simp
  | succ fuel ih =>
    intro d cur e hd hde
    unfold calls
    have hpos : 0 < PAGE_SIZE cfg ^ (e - d) := Nat.pow_pos (PAGE_SIZE_pos cfg)
    by_cases hTD : d = cfg.TABLES_DEPTH
    · rw [if_pos hTD, List.countP_cons, List.countP_nil]
      split <;> omega
    · rw [if_neg hTD, List.countP_append]
      by_cases hed : e = d
      · -- the calls below are all deeper
        subst hed
        have hz : ((List.range (PAGE_SIZE cfg)).flatMap (fun offset =>
            if entry cfg ram cur offset ≠ 0 then
              calls cfg ram fuel (e + 1) (entry cfg ram cur offset)
            else [])).countP (fun c => decide (c.1 = e)) = 0 := by
          rw [List.countP_eq_zero]
          intro c hc
          obtain ⟨o, _, ho⟩ := List.mem_flatMap.1 hc
          split at ho
          · have := calls_depth fuel (e + 1) _ (by omega) c ho
            simp only [decide_eq_true_eq]
            omega
          · simp at ho
        rw [hz]
        simp
      · have hlt : d + 1 ≤ e := by omega
        have hb := countP_flatMap_le (fun c : Nat × Nat => decide (c.1 = e))
          (fun offset =>
            if entry cfg ram cur offset ≠ 0 then
              calls cfg ram fuel (d + 1) (entry cfg ram cur offset)
            else [])
          (PAGE_SIZE cfg ^ (e - (d + 1)))
          (fun o => by
            simp only []
            split
            · exact ih (d + 1) _ e (by omega) hlt
            · simp)
          (List.range (PAGE_SIZE cfg))
        rw [List.length_range] at hb
        have hpow : PAGE_SIZE cfg * PAGE_SIZE cfg ^ (e - (d + 1)) = PAGE_SIZE cfg ^ (e - d) := by
          rw [← Nat.pow_succ']
          congr 1
          omega
        rw [hpow] at hb
        have hlast : List.countP (fun c : Nat × Nat => decide (c.1 = e)) [(d, cur)] = 0 := by
          rw [List.countP_cons, List.countP_nil]
          simp
          omega
        rw [hlast]
        exact hb

end

section

variable {cfg : Config} {page source_frame : Nat}

/-- The eviction candidate after a sequence of visits: either no leaf that is not
the source frame lies beyond the initial `max_dist` and nothing is recorded, or the
recorded page is that of the first leaf, not the source frame, at the largest cyclic
distance: every such leaf before it is strictly nearer, every one after it is not
farther. -/
theorem foldl_evict_first (vs : List Visit) : ∀ st st' : DfsState,
    vs.foldl (Visit.apply cfg page source_frame) st = st' →
    (st'.evict_page = st.evict_page ∧ st'.max_dist = st.max_dist ∧
      ∀ fa g q, Visit.leaf fa g q ∈ vs → g ≠ source_frame →
        getCyclicDistance cfg q page ≤ st.max_dist) ∨
    (∃ l1 l2 fa g q, vs = l1 ++ Visit.leaf fa g q :: l2 ∧
      st'.evict_page = { frame := { father_pm_address := fa, number := g }, page_num := q } ∧
      st'.max_dist = getCyclicDistance cfg q page ∧ g ≠ source_frame ∧
      st.max_dist < getCyclicDistance cfg q page ∧
      (∀ fa' g' q', Visit.leaf fa' g' q' ∈ l1 → g' ≠ source_frame →
        getCyclicDistance cfg q' page < getCyclicDistance cfg q page) ∧
      (∀ fa' g' q', Visit.leaf fa' g' q' ∈ l2 → g' ≠ source_frame →
        getCyclicDistance cfg q' page ≤ getCyclicDistance cfg q page)) := by
  induction vs with
  | nil =>
    intro st st' h
    simp only [List.foldl_nil] at h
    subst h
    exact Or.inl ⟨rfl, rfl, by simp⟩
  | cons v vs ih =>
    intro st st' h
    simp only [List.foldl_cons] at h
    -- a visit that leaves the candidate as it is
    have hkeep : (Visit.apply cfg page source_frame st v).evict_page = st.evict_page →
        (Visit.apply cfg page source_frame st v).max_dist = st.max_dist →
        (∀ fa g q, v = Visit.leaf fa g q → g ≠ source_frame →
          getCyclicDistance cfg q page ≤ st.max_dist) →
        (st'.evict_page = st.evict_page ∧ st'.max_dist = st.max_dist ∧
          ∀ fa g q, Visit.leaf fa g q ∈ v :: vs → g ≠ source_frame →
            getCyclicDistance cfg q page ≤ st.max_dist) ∨
        (∃ l1 l2 fa g q, v :: vs = l1 ++ Visit.leaf fa g q :: l2 ∧
          st'.evict_page = { frame := { father_pm_address := fa, number := g }, page_num := q } ∧
          st'.max_dist = getCyclicDistance cfg q page ∧ g ≠ source_frame ∧
          st.max_dist < getCyclicDistance cfg q page ∧
          (∀ fa' g' q', Visit.leaf fa' g' q' ∈ l1 → g' ≠ source_frame →
            getCyclicDistance cfg q' page < getCyclicDistance cfg q page) ∧
          (∀ fa' g' q', Visit.leaf fa' g' q' ∈ l2 → g' ≠ source_frame →
            getCyclicDistance cfg q' page ≤ getCyclicDistance cfg q page)) := by
      intro he hd hv
      rcases ih _ _ h with ⟨h1, h2, h3⟩ | ⟨l1, l2, fa, g, q, h1, h2, h3, h4, h5, h6, h7⟩
      · left
        refine ⟨by rw [h1, he], by rw [h2, hd], ?_⟩
        intro fa g q hm hg
        rcases List.mem_cons.1 hm with hm | hm
        · exact hv fa g q hm.symm hg
        · have := h3 fa g q hm hg
          rw [hd] at this; exact this
      · right
        rw [hd] at h5
        refine ⟨v :: l1, l2, fa, g, q, by rw [h1]; rfl, h2, h3, h4, h5, ?_, h7⟩
        intro fa' g' q' hm hg
        rcases List.mem_cons.1 hm with hm | hm
        · have := hv fa' g' q' hm.symm hg
          omega
        · exact h6 fa' g' q' hm hg
    cases v with
    | edge nf =>
      apply hkeep
      · simp only [Visit.apply]; split <;> rfl
      · simp only [Visit.apply]; split <;> rfl
      · intro fa g q hv; exact absurd hv (by simp)
    | table fa g e =>
      apply hkeep
      · exact DFSempty_evict_page st e fa g
      · exact DFSempty_max_dist st e fa g
      · intro fa' g' q hv; exact absurd hv (by simp)
    | leaf fa g q =>
      by_cases hc : getCyclicDistance cfg q page > st.max_dist ∧ g ≠ source_frame
      · -- the leaf is recorded
        have hap : Visit.apply cfg page source_frame st (Visit.leaf fa g q) =
            { st with
              max_dist := getCyclicDistance cfg q page
              evict_page := { frame := { father_pm_address := fa, number := g },
                              page_num := q } } := by
          simp only [Visit.apply, DFSleaf]
          rw [if_pos hc]
        rw [hap] at h
        rcases ih _ _ h with ⟨h1, h2, h3⟩ | ⟨l1, l2, fa', g', q', h1, h2, h3, h4, h5, h6, h7⟩
        · right
          exact ⟨[], vs, fa, g, q, rfl, h1, h2, hc.2, hc.1, by simp, h3⟩
        · right
          simp only [] at h5
          refine ⟨Visit.leaf fa g q :: l1, l2, fa', g', q', by rw [h1]; rfl, h2, h3, h4,
            by omega, ?_, h7⟩
          intro fa'' g'' q'' hm hg
          rcases List.mem_cons.1 hm with hm | hm
          · simp only [Visit.leaf.injEq] at hm
            obtain ⟨_, _, rfl⟩ := hm
            exact h5
          · exact h6 fa'' g'' q'' hm hg
      · have hap : Visit.apply cfg page source_frame st (Visit.leaf fa g q) = st := by
          simp only [Visit.apply, DFSleaf]
          rw [if_neg hc]
        apply hkeep
        · rw [hap]
        · rw [hap]
        · intro fa' g' q' hv hg
          simp only [Visit.leaf.injEq] at hv
          obtain ⟨_, rfl, rfl⟩ := hv
          by_contra hlt
          exact hc ⟨by omega, hg⟩

/-- The empty-frame candidate after a sequence of visits, starting with none
recorded: either every table found empty is the source frame or frame 0 and the
number recorded is still 0, or the candidate is the first table found empty that is
neither the source frame nor frame 0, with the father address of its visit. -/
theorem foldl_empty_first (vs : List Visit) : ∀ st st' : DfsState,
    st.empty_frame.number = 0 →
    vs.foldl (Visit.apply cfg page source_frame) st = st' →
    (st'.empty_frame.number = 0 ∧
      ∀ fa g, Visit.table fa g true ∈ vs → g = source_frame ∨ g = 0) ∨
    (∃ l1 l2 fa g, vs = l1 ++ Visit.table fa g true :: l2 ∧
      st'.empty_frame = { father_pm_address := fa, number := g } ∧
      g ≠ source_frame ∧ g ≠ 0 ∧
      ∀ fa' g', Visit.table fa' g' true ∈ l1 → g' = source_frame ∨ g' = 0) := by
  induction vs with
  | nil =>
    intro st st' h0 h
    simp only [List.foldl_nil] at h
    subst h
    exact Or.inl ⟨h0, by simp⟩
  | cons v vs ih =>
    intro st st' h0 h
    simp only [List.foldl_cons] at h
    have hkeep : (Visit.apply cfg page source_frame st v).empty_frame.number = 0 →
        (∀ fa g, v = Visit.table fa g true → g = source_frame ∨ g = 0) →
        (st'.empty_frame.number = 0 ∧
          ∀ fa g, Visit.table fa g true ∈ v :: vs → g = source_frame ∨ g = 0) ∨
        (∃ l1 l2 fa g, v :: vs = l1 ++ Visit.table fa g true :: l2 ∧
          st'.empty_frame = { father_pm_address := fa, number := g } ∧
          g ≠ source_frame ∧ g ≠ 0 ∧
          ∀ fa' g', Visit.table fa' g' true ∈ l1 → g' = source_frame ∨ g' = 0) := by
      intro he hv
      rcases ih _ _ he h with ⟨h1, h2⟩ | ⟨l1, l2, fa, g, h1, h2, h3, h4, h5⟩
      · left
        refine ⟨h1, ?_⟩
        intro fa g hm
        rcases List.mem_cons.1 hm with hm | hm
        · exact hv fa g hm.symm
        · exact h2 fa g hm
      · right
        refine ⟨v :: l1, l2, fa, g, by rw [h1]; rfl, h2, h3, h4, ?_⟩
        intro fa' g' hm
        rcases List.mem_cons.1 hm with hm | hm
        · exact hv fa' g' hm.symm
        · exact h5 fa' g' hm
    cases v with
    | edge nf =>
      apply hkeep
      · simp only [Visit.apply]; split <;> exact h0
      · intro fa g hv; exact absurd hv (by simp)
    | leaf fa g q =>
      apply hkeep
      · simp only [Visit.apply]; rw [DFSleaf_empty_frame]; exact h0
      · intro fa' g' hv; exact absurd hv (by simp)
    | table fa g e =>
      by_cases hc : e = true ∧ g ≠ source_frame ∧ st.empty_frame.number = 0
      · have hap : Visit.apply cfg page source_frame st (Visit.table fa g e) =
            { st with empty_frame := { father_pm_address := fa, number := g } } := by
          simp only [Visit.apply, DFSempty]
          rw [if_pos hc]
        by_cases hg : g = 0
        · apply hkeep
          · rw [hap]; exact hg
          · intro fa' g' hv
            simp only [Visit.table.injEq] at hv
            right; rw [← hv.2.1]; exact hg
        · right
          rw [hap] at h
          have hk := @foldl_empty_keep cfg page source_frame vs
            { st with empty_frame := { father_pm_address := fa, number := g } } hg
          rw [h] at hk
          obtain ⟨he, _, _⟩ := hc
          subst he
          exact ⟨[], vs, fa, g, rfl, hk, by tauto, hg, by simp⟩
      · have hap : Visit.apply cfg page source_frame st (Visit.table fa g e) = st := by
          simp only [Visit.apply, DFSempty]
          rw [if_neg hc]
        apply hkeep
        · rw [hap]; exact h0
        · intro fa' g' hv
          simp only [Visit.table.injEq] at hv
          obtain ⟨_, rfl, rfl⟩ := hv
          left
          by_contra hne
          exact hc ⟨rfl, hne, h0⟩

end

section

variable {cfg : Config} {ram : Nat → Int}

/-- The leaves visited below a call of `DFS` at depth `d` with page-number prefix
`va` have their page numbers in the block of `va`, and are visited in the order of
their page numbers. -/
theorem visits_leaf_sorted (hwf : cfg.WF) (fuel : Nat) : ∀ (d father cur va : Nat),
    d ≤ cfg.TABLES_DEPTH → va < PAGE_SIZE cfg ^ d →
    (∀ fa g q, Visit.leaf fa g q ∈ visits cfg ram fuel d father cur va →
      va * PAGE_SIZE cfg ^ (cfg.TABLES_DEPTH - d) ≤ q ∧
      q < (va + 1) * PAGE_SIZE cfg ^ (cfg.TABLES_DEPTH - d)) ∧
    List.Pairwise Visit.pageLt (visits cfg ram fuel d father cur va) := by
  have hleafcase : ∀ (d father cur va : Nat), d = cfg.TABLES_DEPTH →
      (∀ fa g q, Visit.leaf fa g q ∈ [Visit.leaf father cur va] →
        va * PAGE_SIZE cfg ^ (cfg.TABLES_DEPTH - d) ≤ q ∧
        q < (va + 1) * PAGE_SIZE cfg ^ (cfg.TABLES_DEPTH - d)) ∧
      List.Pairwise Visit.pageLt [Visit.leaf father cur va] := by
    intro d father cur va hd
    refine ⟨?_, List.pairwise_singleton _ _⟩
    intro fa g q hm
    simp only [List.mem_singleton, Visit.leaf.injEq] at hm
    obtain ⟨_, _, rfl⟩ := hm
    rw [hd, Nat.sub_self, Nat.pow_zero]
    omega
  induction fuel with
  | zero =>
    intro d father cur va hd hva
    unfold visits
    by_cases hTD : d = cfg.TABLES_DEPTH
    · rw [if_pos hTD]; exact hleafcase d father cur va hTD
    · rw [if_neg hTD]; exact ⟨by simp, List.Pairwise.nil⟩
  | succ fuel ih =>
    intro d father cur va hd hva
    unfold visits
    by_cases hTD : d = cfg.TABLES_DEPTH
    · rw [if_pos hTD]; exact hleafcase d father cur va hTD
    · rw [if_neg hTD]
      have hlt : d + 1 ≤ cfg.TABLES_DEPTH := by omega
      have hpow : PAGE_SIZE cfg ^ (cfg.TABLES_DEPTH - d) =
          PAGE_SIZE cfg * PAGE_SIZE cfg ^ (cfg.TABLES_DEPTH - (d + 1)) := by
        rw [← Nat.pow_succ']
        congr 1
        omega
      have hvaP : (va + 1) * PAGE_SIZE cfg ≤ PAGE_SIZE cfg ^ (d + 1) := by
        rw [Nat.pow_succ]
        exact Nat.mul_le_mul_right _ hva
      have h63 := pow_page_lt hwf hlt
      have hstep : ∀ o, o < PAGE_SIZE cfg →
          (((va <<< cfg.OFFSET_WIDTH) % U64) ||| o) = va * PAGE_SIZE cfg + o := by
        intro o ho
        have : va * PAGE_SIZE cfg < U64 := by
          rw [Nat.add_mul] at hvaP
          unfold U64; omega
        exact vaStep_eq this ho
      -- the leaves below slot `o`
      have hsub : ∀ o, o < PAGE_SIZE cfg → ∀ fa g q,
          Visit.leaf fa g q ∈ (if entry cfg ram cur o ≠ 0 then
            Visit.edge (entry cfg ram cur o) ::
              visits cfg ram fuel (d + 1) (getPhysicalAddress cfg cur o) (entry cfg ram cur o)
                (((va <<< cfg.OFFSET_WIDTH) % U64) ||| o)
            else []) →
          (va * PAGE_SIZE cfg + o) * PAGE_SIZE cfg ^ (cfg.TABLES_DEPTH - (d + 1)) ≤ q ∧
          q < (va * PAGE_SIZE cfg + o + 1) * PAGE_SIZE cfg ^ (cfg.TABLES_DEPTH - (d + 1)) := by
        intro o ho fa g q hm
        split at hm
        · simp only [List.mem_cons, reduceCtorEq, false_or] at hm
          rw [hstep o ho] at hm
          exact (ih (d + 1) _ _ _ hlt (by rw [Nat.add_mul] at hvaP; omega)).1 fa g q hm
        · simp at hm
      constructor
      · intro fa g q hm
        simp only [List.mem_append, List.mem_singleton, reduceCtorEq, or_false] at hm
        obtain ⟨o, ho, hmo⟩ := List.mem_flatMap.1 hm
        rw [List.mem_range] at ho
        obtain ⟨h1, h2⟩ := hsub o ho fa g q hmo
        rw [hpow]
        constructor
        · calc va * (PAGE_SIZE cfg * PAGE_SIZE cfg ^ (cfg.TABLES_DEPTH - (d + 1)))
              = (va * PAGE_SIZE cfg) * PAGE_SIZE cfg ^ (cfg.TABLES_DEPTH - (d + 1)) := by ring
            _ ≤ (va * PAGE_SIZE cfg + o) * PAGE_SIZE cfg ^ (cfg.TABLES_DEPTH - (d + 1)) :=
              Nat.mul_le_mul_right _ (Nat.le_add_right _ _)
            _ ≤ q := h1
        · calc q < (va * PAGE_SIZE cfg + o + 1) * PAGE_SIZE cfg ^ (cfg.TABLES_DEPTH - (d + 1)) := h2
            _ ≤ ((va + 1) * PAGE_SIZE cfg) * PAGE_SIZE cfg ^ (cfg.TABLES_DEPTH - (d + 1)) :=
              Nat.mul_le_mul_right _ (by rw [Nat.add_mul]; omega)
            _ = (va + 1) * (PAGE_SIZE cfg * PAGE_SIZE cfg ^ (cfg.TABLES_DEPTH - (d + 1))) := by ring
      · rw [List.pairwise_append]
        refine ⟨?_, List.pairwise_singleton _ _, ?_⟩
        · rw [List.pairwise_flatMap]
          constructor
          · intro o ho
            rw [List.mem_range] at ho
            split
            · rw [List.pairwise_cons]
              refine ⟨?_, ?_⟩
              · intro b _ fa g q fa' g' q' hv _
                exact absurd hv (by simp)
              · rw [hstep o ho]
                exact (ih (d + 1) _ _ _ hlt (by rw [Nat.add_mul] at hvaP; omega)).2
            · exact List.Pairwise.nil
          · refine List.Pairwise.imp_of_mem ?_ (List.pairwise_lt_range (PAGE_SIZE cfg))
            intro o1 o2 ho1 ho2 hlt12 x hx y hy fa g q fa' g' q' hxe hye
            rw [List.mem_range] at ho1 ho2
            subst hxe; subst hye
            have h1 := (hsub o1 ho1 fa g q hx).2
            have h2 := (hsub o2 ho2 fa' g' q' hy).1
            calc q < (va * PAGE_SIZE cfg + o1 + 1) * PAGE_SIZE cfg ^ (cfg.TABLES_DEPTH - (d + 1)) := h1
              _ ≤ (va * PAGE_SIZE cfg + o2) * PAGE_SIZE cfg ^ (cfg.TABLES_DEPTH - (d + 1)) :=
                Nat.mul_le_mul_right _ (by omega)
              _ ≤ q' := h2
        · intro a _ b hb fa g q fa' g' q' _ hbe
          simp only [List.mem_singleton] at hb
          rw [hb] at hbe
          exact absurd hbe (by simp)

/-- In the traversal from the root the leaves are visited in the order of their page
numbers: a leaf visited before another has the smaller page number. -/
theorem visits_split_pages (hwf : cfg.WF) {l1 l2 : List Visit} {fa g q : Nat}
    (h : visits cfg ram cfg.TABLES_DEPTH 0 0 0 0 = l1 ++ Visit.leaf fa g q :: l2) :
    (∀ fa' g' q', Visit.leaf fa' g' q' ∈ l1 → q' < q) ∧
    (∀ fa' g' q', Visit.leaf fa' g' q' ∈ l2 → q < q') := by
  have hs := (@visits_leaf_sorted cfg ram hwf cfg.TABLES_DEPTH 0 0 0 0 (Nat.zero_le _)
    (by simp)).2
  rw [h, List.pairwise_append, List.pairwise_cons] at hs
  obtain ⟨_, ⟨h2, _⟩, h3⟩ := hs
  constructor
  · intro fa' g' q' hm
    exact h3 _ hm _ (List.mem_cons_self _ _) fa' g' q' fa g q rfl rfl
  · intro fa' g' q' hm
    exact h2 _ hm fa g q fa' g' q' rfl rfl

end

section

variable {cfg : Config} {ram : Nat → Int}

/-- A leaf visited by the traversal from the root is the frame stored in a slot of a
table reached along `TABLES_DEPTH - 1` slots; it is visited with the address of that
slot and the page number of its path. -/
theorem leaf_visit_path (hTD : 1 ≤ cfg.TABLES_DEPTH) {fa g q : Nat}
    (hm : Visit.leaf fa g q ∈ visits cfg ram cfg.TABLES_DEPTH 0 0 0 0) :
    ∃ p f o, Reach cfg ram p f ∧ p.length + 1 = cfg.TABLES_DEPTH ∧ o < PAGE_SIZE cfg ∧
      entry cfg ram f o = g ∧ g ≠ 0 ∧ fa = getPhysicalAddress cfg f o ∧
      q = pageNum cfg (p ++ [o]) := by
  obtain ⟨p', ha, hl⟩ :=
    (mem_visits cfg.TABLES_DEPTH 0 0 0 0 (Visit.leaf fa g q) (by omega) (by omega)).1 hm
  rcases ha.father_eq with ⟨hq, _⟩ | ⟨q0, o, f, hq, hd, hf⟩
  · subst hq; simp at hl; omega
  · subst hq
    obtain ⟨f', hf', _, ho, hent, hne⟩ := Reach.extend_inv ha.descends
    have hff : f' = f := Reach.unique hf' hd
    subst hff
    refine ⟨q0, f', o, hf', ?_, ho, hent, hne, hf, ha.va_eq⟩
    simp at hl
    omega

/-- With an all-zero root the traversal visits no table but the root. -/
theorem table_visit_root (hroot : ∀ o, o < PAGE_SIZE cfg → entry cfg ram 0 o = 0)
    {fa g : Nat} {b : Bool}
    (hm : Visit.table fa g b ∈ visits cfg ram cfg.TABLES_DEPTH 0 0 0 0) : g = 0 := by
  obtain ⟨p, va, ha, _, _⟩ :=
    (mem_visits cfg.TABLES_DEPTH 0 0 0 0 (Visit.table fa g b) (by omega) (by omega)).1 hm
  have hd := ha.descends
  cases hd with
  | nil => rfl
  | cons _ ho hne _ => exact absurd (hroot _ ho) hne

end

/-- C11: for every call `getEmptyFrame(page, source_frame, depth)` with `depth =
TABLES_DEPTH - 1` the engine performs no `clearTable`. Either it performs no
operation at all and leaves the physical memory as it is, or its operations are the
single write of 0 to the slot address `s` recorded with the candidate it returns
(the reused empty table, or the evicted leaf, in which case `PMevict` follows the
write): then `s` is the address of the slot that points to the returned frame, the
only word of physical memory that can differ after the call is the word at `s`,
which is 0, so whenever `s` lies outside the returned frame every word of the
returned frame is the same after the call as before it, and `s` lies outside the
returned frame in every strict tree. (For build constants related as in
`Config.WF`.) -/
theorem getEmptyFrame_last_level_effect (cfg : Config) (hwf : cfg.WF) (pm : PM)
    (page source_frame depth : Nat) (hd : depth = cfg.TABLES_DEPTH - 1) :
    ((getEmptyFrame cfg pm page source_frame depth).1.log = pm.log ∧
      (getEmptyFrame cfg pm page source_frame depth).1.ram = pm.ram) ∨
    ∃ s,
      (((DFSroot cfg pm.ram page source_frame).empty_frame.number ≠ 0 ∧
          s = (DFSroot cfg pm.ram page source_frame).empty_frame.father_pm_address ∧
          (getEmptyFrame cfg pm page source_frame depth).2 =
            (DFSroot cfg pm.ram page source_frame).empty_frame.number ∧
          (getEmptyFrame cfg pm page source_frame depth).1.log = pm.log ++ [PMOp.write s 0]) ∨
        ((DFSroot cfg pm.ram page source_frame).empty_frame.number = 0 ∧
          (DFSroot cfg pm.ram page source_frame).evict_page.frame.number ≠ 0 ∧
          s = (DFSroot cfg pm.ram page source_frame).evict_page.frame.father_pm_address ∧
          (getEmptyFrame cfg pm page source_frame depth).2 =
            (DFSroot cfg pm.ram page source_frame).evict_page.frame.number ∧
          (getEmptyFrame cfg pm page source_frame depth).1.log = pm.log ++
            [PMOp.write s 0,
              PMOp.evict (DFSroot cfg pm.ram page source_frame).evict_page.frame.number
                (DFSroot cfg pm.ram page source_frame).evict_page.page_num])) ∧
      (∃ p f o, Reach cfg pm.ram p f ∧ p.length < cfg.TABLES_DEPTH ∧ o < PAGE_SIZE cfg ∧
        entry cfg pm.ram f o = (getEmptyFrame cfg pm page source_frame depth).2 ∧
        s = getPhysicalAddress cfg f o) ∧
      (∀ a, (getEmptyFrame cfg pm page source_frame depth).1.ram a =
        if a = s then 0 else pm.ram a) ∧
      (¬ inFrame cfg (getEmptyFrame cfg pm page source_frame depth).2 s →
        ∀ j, j < PAGE_SIZE cfg →
          (getEmptyFrame cfg pm page source_frame depth).1.ram
              ((getEmptyFrame cfg pm page source_frame depth).2 * PAGE_SIZE cfg + j) =
            pm.ram ((getEmptyFrame cfg pm page source_frame depth).2 * PAGE_SIZE cfg + j)) ∧
      (∀ m, TreeInv cfg pm.ram m →
        ¬ inFrame cfg (getEmptyFrame cfg pm page source_frame depth).2 s) := by
  have hnd : ¬ depth < cfg.TABLES_DEPTH - 1 := by omega
  rw [getEmptyFrame_last pm page source_frame depth hnd]
  have hframe : ∀ (pm' : PM) (r s : Nat), (∀ a, pm'.ram a = if a = s then 0 else pm.ram a) →
      ¬ inFrame cfg r s → ∀ j, j < PAGE_SIZE cfg →
        pm'.ram (r * PAGE_SIZE cfg + j) = pm.ram (r * PAGE_SIZE cfg + j) := by
    intro pm' r s hram hout j hj
    rw [hram, if_neg]
    intro h
    exact hout (h ▸ inFrame_addr hj)
  by_cases he : (DFSroot cfg pm.ram page source_frame).empty_frame.number = 0
  · by_cases hlt : (DFSroot cfg pm.ram page source_frame).max_frame
        < (cfg.NUM_FRAMES + U64 - 1) % U64
    · left
      rw [chooseFrame_unused pm _ he hlt]
      exact ⟨rfl, rfl⟩
    · by_cases hev : (DFSroot cfg pm.ram page source_frame).evict_page.frame.number = 0
      · left
        rw [chooseFrame_none pm _ he hlt hev]
        exact ⟨rfl, rfl⟩
      · right
        rw [chooseFrame_evict pm _ he hlt hev]
        obtain ⟨p, f, o, hf, hl, ho, hent, hfa, _, _⟩ :=
          DFSroot_evict_some hwf.td_pos page source_frame hev
        have hram : ∀ a, (PMevict cfg (PMwrite pm
            (DFSroot cfg pm.ram page source_frame).evict_page.frame.father_pm_address 0)
            (DFSroot cfg pm.ram page source_frame).evict_page.frame.number
            (DFSroot cfg pm.ram page source_frame).evict_page.page_num).ram a =
            if a = (DFSroot cfg pm.ram page source_frame).evict_page.frame.father_pm_address
              then 0 else pm.ram a := by
          intro a; rw [PMevict_ram, PMwrite_ram]
        refine ⟨_, Or.inr ⟨he, hev, rfl, rfl, ?_⟩, ⟨p, f, o, hf, by omega, ho, hent, hfa⟩,
          hram, hframe _ _ _ hram, ?_⟩
        · show (pm.log ++ [PMOp.write _ 0]) ++ [PMOp.evict _ _] = _
          simp
        · intro m T
          simp only []
          rw [hfa, ← hent]
          exact T.slot_outside hwf hf (by omega) ho (by rw [hent]; exact hev)
  · right
    rw [chooseFrame_empty pm _ he]
    obtain ⟨p, f, o, hf, hl, ho, hent, hfa, _, _⟩ := DFSroot_empty_some page source_frame he
    have hram : ∀ a, (PMwrite pm
        (DFSroot cfg pm.ram page source_frame).empty_frame.father_pm_address 0).ram a =
        if a = (DFSroot cfg pm.ram page source_frame).empty_frame.father_pm_address
          then 0 else pm.ram a := by
      intro a; rw [PMwrite_ram]
    refine ⟨_, Or.inl ⟨he, rfl, rfl, rfl⟩, ⟨p, f, o, hf, by omega, ho, hent, hfa⟩,
      hram, hframe _ _ _ hram, ?_⟩
    intro m T
    simp only []
    rw [hfa, ← hent]
    exact T.slot_outside hwf hf (by omega) ho (by rw [hent]; exact he)

/-- An instance of C11 on the saturated memory `pmFull`: the call for page 21 at the
last level, from the table in frame 1. -/
theorem getEmptyFrame_last_level_effect_witness :
    ((getEmptyFrame cfgDemo pmFull 21 1 1).1.log = pmFull.log ∧
      (getEmptyFrame cfgDemo pmFull 21 1 1).1.ram = pmFull.ram) ∨
    ∃ s,
      (((DFSroot cfgDemo pmFull.ram 21 1).empty_frame.number ≠ 0 ∧
          s = (DFSroot cfgDemo pmFull.ram 21 1).empty_frame.father_pm_address ∧
          (getEmptyFrame cfgDemo pmFull 21 1 1).2 =
            (DFSroot cfgDemo pmFull.ram 21 1).empty_frame.number ∧
          (getEmptyFrame cfgDemo pmFull 21 1 1).1.log = pmFull.log ++ [PMOp.write s 0]) ∨
        ((DFSroot cfgDemo pmFull.ram 21 1).empty_frame.number = 0 ∧
          (DFSroot cfgDemo pmFull.ram 21 1).evict_page.frame.number ≠ 0 ∧
          s = (DFSroot cfgDemo pmFull.ram 21 1).evict_page.frame.father_pm_address ∧
          (getEmptyFrame cfgDemo pmFull 21 1 1).2 =
            (DFSroot cfgDemo pmFull.ram 21 1).evict_page.frame.number ∧
          (getEmptyFrame cfgDemo pmFull 21 1 1).1.log = pmFull.log ++
            [PMOp.write s 0,
              PMOp.evict (DFSroot cfgDemo pmFull.ram 21 1).evict_page.frame.number
                (DFSroot cfgDemo pmFull.ram 21 1).evict_page.page_num])) ∧
      (∃ p f o, Reach cfgDemo pmFull.ram p f ∧ p.length < cfgDemo.TABLES_DEPTH ∧ o < PAGE_SIZE cfgDemo ∧
        entry cfgDemo pmFull.ram f o = (getEmptyFrame cfgDemo pmFull 21 1 1).2 ∧
        s = getPhysicalAddress cfgDemo f o) ∧
      (∀ a, (getEmptyFrame cfgDemo pmFull 21 1 1).1.ram a =
        if a = s then 0 else pmFull.ram a) ∧
      (¬ inFrame cfgDemo (getEmptyFrame cfgDemo pmFull 21 1 1).2 s →
        ∀ j, j < PAGE_SIZE cfgDemo →
          (getEmptyFrame cfgDemo pmFull 21 1 1).1.ram
              ((getEmptyFrame cfgDemo pmFull 21 1 1).2 * PAGE_SIZE cfgDemo + j) =
            pmFull.ram ((getEmptyFrame cfgDemo pmFull 21 1 1).2 * PAGE_SIZE cfgDemo + j)) ∧
      (∀ m, TreeInv cfgDemo pmFull.ram m →
        ¬ inFrame cfgDemo (getEmptyFrame cfgDemo pmFull 21 1 1).2 s) :=
  getEmptyFrame_last_level_effect cfgDemo cfgDemo_wf pmFull 21 1 1 (by decide)

/-- C12: for every memory state, page `P` and `source_frame`, the eviction candidate
the `DFS` started by `getEmptyFrame` reports: the leaves are the frames reached at
depth exactly `TABLES_DEPTH`, each visited with the address of its parent slot and
its reconstructed page number `q`. If no leaf whose frame differs from
`source_frame` has `getCyclicDistance(q, P) > 0`, the candidate stays (frame 0,
page 0). Otherwise the candidate is, among those leaves, one with the maximal
`getCyclicDistance(q, P)`, and among leaves of equal maximal distance the first
visited in DFS order (every such leaf visited before it is strictly nearer), which
is the one with the lowest page number; it is reported with its frame number and
the physical address of its parent slot. (For build constants related as in
`Config.WF`; the bound `P < NUM_PAGES` is not needed.) -/
theorem DFS_eviction_candidate (cfg : Config) (hwf : cfg.WF) (ram : Nat → Int)
    (page source_frame : Nat) :
    (∀ fa g q, Visit.leaf fa g q ∈ visits cfg ram cfg.TABLES_DEPTH 0 0 0 0 ↔
      ∃ p, Arrives cfg ram 0 0 0 0 p fa g q ∧ p.length = cfg.TABLES_DEPTH) ∧
    ((∀ fa g q, Visit.leaf fa g q ∈ visits cfg ram cfg.TABLES_DEPTH 0 0 0 0 →
        g ≠ source_frame → getCyclicDistance cfg q page = 0) →
      (DFSroot cfg ram page source_frame).evict_page =
        { frame := { father_pm_address := 0, number := 0 }, page_num := 0 }) ∧
    ((∃ fa g q, Visit.leaf fa g q ∈ visits cfg ram cfg.TABLES_DEPTH 0 0 0 0 ∧
        g ≠ source_frame ∧ 0 < getCyclicDistance cfg q page) →
      ∃ l1 l2 fa g q,
        visits cfg ram cfg.TABLES_DEPTH 0 0 0 0 = l1 ++ Visit.leaf fa g q :: l2 ∧
        (DFSroot cfg ram page source_frame).evict_page =
          { frame := { father_pm_address := fa, number := g }, page_num := q } ∧
        g ≠ source_frame ∧ 0 < getCyclicDistance cfg q page ∧
        (∀ fa' g' q', Visit.leaf fa' g' q' ∈ visits cfg ram cfg.TABLES_DEPTH 0 0 0 0 →
          g' ≠ source_frame → getCyclicDistance cfg q' page ≤ getCyclicDistance cfg q page) ∧
        (∀ fa' g' q', Visit.leaf fa' g' q' ∈ l1 → g' ≠ source_frame →
          getCyclicDistance cfg q' page < getCyclicDistance cfg q page) ∧
        (∀ fa' g' q', Visit.leaf fa' g' q' ∈ visits cfg ram cfg.TABLES_DEPTH 0 0 0 0 →
          g' ≠ source_frame → getCyclicDistance cfg q' page = getCyclicDistance cfg q page →
          q ≤ q') ∧
        ∃ p f o, Reach cfg ram p f ∧ p.length + 1 = cfg.TABLES_DEPTH ∧ o < PAGE_SIZE cfg ∧
          entry cfg ram f o = g ∧ g ≠ 0 ∧ fa = getPhysicalAddress cfg f o ∧
          q = pageNum cfg (p ++ [o])) := by
  have hfold := @foldl_evict_first cfg page source_frame
    (visits cfg ram cfg.TABLES_DEPTH 0 0 0 0) DfsState.init
    (DFSroot cfg ram page source_frame) (DFSroot_eq page source_frame).symm
  have hinit : DfsState.init.max_dist = 0 := rfl
  refine ⟨?_, ?_, ?_⟩
  · intro fa g q
    rw [mem_visits cfg.TABLES_DEPTH 0 0 0 0 (Visit.leaf fa g q) (by omega) (by omega)]
    simp
  · intro hnone
    rcases hfold with ⟨h1, _, _⟩ | ⟨l1, l2, fa, g, q, h1, _, _, h4, h5, _, _⟩
    · rw [h1]; rfl
    · exfalso
      have := hnone fa g q (by rw [h1]; simp) h4
      omega
  · rintro ⟨fa0, g0, q0, hm0, hg0, hd0⟩
    rcases hfold with ⟨_, _, h3⟩ | ⟨l1, l2, fa, g, q, h1, h2, _, h4, h5, h6, h7⟩
    · exfalso
      have := h3 fa0 g0 q0 hm0 hg0
      omega
    · obtain ⟨s1, s2⟩ := visits_split_pages hwf h1
      have hmem : Visit.leaf fa g q ∈ visits cfg ram cfg.TABLES_DEPTH 0 0 0 0 := by
        rw [h1]; simp
      refine ⟨l1, l2, fa, g, q, h1, h2, h4, by omega, ?_, h6, ?_, leaf_visit_path hwf.td_pos hmem⟩
      · intro fa' g' q' hm hg
        rw [h1] at hm
        rcases List.mem_append.1 hm with hm | hm
        · exact Nat.le_of_lt (h6 fa' g' q' hm hg)
        · rcases List.mem_cons.1 hm with hm | hm
          · simp only [Visit.leaf.injEq] at hm
            rw [hm.2.2]
          · exact h7 fa' g' q' hm hg
      · intro fa' g' q' hm hg heq
        rw [h1] at hm
        rcases List.mem_append.1 hm with hm | hm
        · have := h6 fa' g' q' hm hg
          omega
        · rcases List.mem_cons.1 hm with hm | hm
          · simp only [Visit.leaf.injEq] at hm
            rw [hm.2.2]
          · exact Nat.le_of_lt (s2 fa' g' q' hm)

/-- An instance of C12 on the saturated memory `pmFull` (the leaves are the pages
0 to 5 in the frames 2 to 7): for page 21 a leaf at positive distance exists, and
the candidate is the first leaf at the largest distance. -/
theorem DFS_eviction_candidate_witness :
    ∃ l1 l2 fa g q,
      visits cfgDemo pmFull.ram cfgDemo.TABLES_DEPTH 0 0 0 0 = l1 ++ Visit.leaf fa g q :: l2 ∧
      (DFSroot cfgDemo pmFull.ram 21 0).evict_page =
        { frame := { father_pm_address := fa, number := g }, page_num := q } ∧
      g ≠ 0 ∧ 0 < getCyclicDistance cfgDemo q 21 ∧
      (∀ fa' g' q', Visit.leaf fa' g' q' ∈ visits cfgDemo pmFull.ram cfgDemo.TABLES_DEPTH 0 0 0 0 →
        g' ≠ 0 → getCyclicDistance cfgDemo q' 21 ≤ getCyclicDistance cfgDemo q 21) ∧
      (∀ fa' g' q', Visit.leaf fa' g' q' ∈ l1 → g' ≠ 0 →
        getCyclicDistance cfgDemo q' 21 < getCyclicDistance cfgDemo q 21) ∧
      (∀ fa' g' q', Visit.leaf fa' g' q' ∈ visits cfgDemo pmFull.ram cfgDemo.TABLES_DEPTH 0 0 0 0 →
        g' ≠ 0 → getCyclicDistance cfgDemo q' 21 = getCyclicDistance cfgDemo q 21 →
        q ≤ q') ∧
      ∃ p f o, Reach cfgDemo pmFull.ram p f ∧ p.length + 1 = cfgDemo.TABLES_DEPTH ∧ o < PAGE_SIZE cfgDemo ∧
        entry cfgDemo pmFull.ram f o = g ∧ g ≠ 0 ∧ fa = getPhysicalAddress cfgDemo f o ∧
        q = pageNum cfgDemo (p ++ [o]) :=
  (DFS_eviction_candidate cfgDemo cfgDemo_wf pmFull.ram 21 0).2.2
    ⟨16, 2, 0, by decide, by decide, by decide⟩

/-- C13: for every memory state and `source_frame`, the empty-frame candidate the
`DFS` started by `getEmptyFrame` reports: the tables are the frames visited at a
depth `< TABLES_DEPTH`, each found empty exactly when all its `PAGE_SIZE` entries
are zero. If some table found empty is neither frame 0 nor `source_frame`, the
candidate is the first such table in the order of the traversal (depth first,
ascending slot offsets), reported with the physical address of the slot that points
to it; if there is none, the candidate number stays 0. In particular nothing is
reported for a root whose entries are all zero, and the candidate is never
`source_frame`: an all-zero source frame is passed over for a later empty table. -/
theorem DFS_empty_candidate (cfg : Config) (ram : Nat → Int) (page source_frame : Nat) :
    (∀ fa g b, Visit.table fa g b ∈ visits cfg ram cfg.TABLES_DEPTH 0 0 0 0 ↔
      ∃ p va, Arrives cfg ram 0 0 0 0 p fa g va ∧ p.length < cfg.TABLES_DEPTH ∧
        b = isEmptyTable cfg ram g) ∧
    (∀ g, isEmptyTable cfg ram g = true ↔ ∀ o, o < PAGE_SIZE cfg → entry cfg ram g o = 0) ∧
    ((∀ fa g, Visit.table fa g true ∈ visits cfg ram cfg.TABLES_DEPTH 0 0 0 0 →
        g = source_frame ∨ g = 0) →
      (DFSroot cfg ram page source_frame).empty_frame.number = 0) ∧
    ((∃ fa g, Visit.table fa g true ∈ visits cfg ram cfg.TABLES_DEPTH 0 0 0 0 ∧
        g ≠ source_frame ∧ g ≠ 0) →
      ∃ l1 l2 fa g,
        visits cfg ram cfg.TABLES_DEPTH 0 0 0 0 = l1 ++ Visit.table fa g true :: l2 ∧
        (DFSroot cfg ram page source_frame).empty_frame =
          { father_pm_address := fa, number := g } ∧
        g ≠ source_frame ∧ g ≠ 0 ∧
        (∀ fa' g', Visit.table fa' g' true ∈ l1 → g' = source_frame ∨ g' = 0) ∧
        ∃ p f o, Reach cfg ram p f ∧ p.length + 1 < cfg.TABLES_DEPTH ∧ o < PAGE_SIZE cfg ∧
          entry cfg ram f o = g ∧ fa = getPhysicalAddress cfg f o ∧
          ∀ o', o' < PAGE_SIZE cfg → entry cfg ram g o' = 0) ∧
    ((∀ o, o < PAGE_SIZE cfg → entry cfg ram 0 o = 0) →
      (DFSroot cfg ram page source_frame).empty_frame.number = 0) ∧
    ((DFSroot cfg ram page source_frame).empty_frame.number ≠ 0 →
      (DFSroot cfg ram page source_frame).empty_frame.number ≠ source_frame) := by
  have hfold := @foldl_empty_first cfg page source_frame
    (visits cfg ram cfg.TABLES_DEPTH 0 0 0 0) DfsState.init
    (DFSroot cfg ram page source_frame) rfl (DFSroot_eq page source_frame).symm
  have hnone : (∀ fa g, Visit.table fa g true ∈ visits cfg ram cfg.TABLES_DEPTH 0 0 0 0 →
      g = source_frame ∨ g = 0) →
      (DFSroot cfg ram page source_frame).empty_frame.number = 0 := by
    intro hall
    rcases hfold with ⟨h1, _⟩ | ⟨l1, l2, fa, g, h1, _, h3, h4, _⟩
    · exact h1
    · exfalso
      rcases hall fa g (by rw [h1]; simp) with h | h
      · exact h3 h
      · exact h4 h
  refine ⟨?_, isEmptyTable_iff, hnone, ?_, ?_, ?_⟩
  · intro fa g b
    rw [mem_visits cfg.TABLES_DEPTH 0 0 0 0 (Visit.table fa g b) (by omega) (by omega)]
    simp
  · rintro ⟨fa0, g0, hm0, hs0, hz0⟩
    rcases hfold with ⟨_, h2⟩ | ⟨l1, l2, fa, g, h1, h2, h3, h4, h5⟩
    · exfalso
      rcases h2 fa0 g0 hm0 with h | h
      · exact hs0 h
      · exact hz0 h
    · have hne : (DFSroot cfg ram page source_frame).empty_frame.number ≠ 0 := by
        rw [h2]; exact h4
      obtain ⟨p, f, o, hf, hl, ho, hent, hfa, _, hzero⟩ :=
        DFSroot_empty_some page source_frame hne
      rw [h2] at hent hfa hzero
      exact ⟨l1, l2, fa, g, h1, h2, h3, h4, h5, p, f, o, hf, hl, ho, hent, hfa, hzero⟩
  · intro hroot
    apply hnone
    intro fa g hm
    exact Or.inr (table_visit_root hroot hm)
  · intro hne
    exact (DFSroot_empty_some page source_frame hne).choose_spec.choose_spec.choose_spec.2.2.2.2.2.1

/-- An instance of C13 on the memory `pmOneTable`, whose only table besides the root
is the empty table in frame 1: a table found empty other than frame 0 and the source
frame exists, and the candidate is the first such table. -/
theorem DFS_empty_candidate_witness :
    ∃ l1 l2 fa g,
      visits cfgDemo pmOneTable.ram cfgDemo.TABLES_DEPTH 0 0 0 0 = l1 ++ Visit.table fa g true :: l2 ∧
      (DFSroot cfgDemo pmOneTable.ram 0 0).empty_frame =
        { father_pm_address := fa, number := g } ∧
      g ≠ 0 ∧ g ≠ 0 ∧
      (∀ fa' g', Visit.table fa' g' true ∈ l1 → g' = 0 ∨ g' = 0) ∧
      ∃ p f o, Reach cfgDemo pmOneTable.ram p f ∧ p.length + 1 < cfgDemo.TABLES_DEPTH ∧ o < PAGE_SIZE cfgDemo ∧
        entry cfgDemo pmOneTable.ram f o = g ∧ fa = getPhysicalAddress cfgDemo f o ∧
        ∀ o', o' < PAGE_SIZE cfgDemo → entry cfgDemo pmOneTable.ram g o' = 0 :=
  (DFS_empty_candidate cfgDemo pmOneTable.ram 0 0).2.2.2.1 ⟨0, 1, by decide, by decide, by decide⟩

/-- C14: for every virtual address `va` and every level `d` in `[0, TABLES_DEPTH]`,
with `idx = (TABLES_DEPTH - d) * OFFSET_WIDTH`: `getOffset(va, d) = (va >> idx) mod
2^min(VIRTUAL_ADDRESS_WIDTH - idx, OFFSET_WIDTH)`, that is, it is the bits of `va`
at the positions `[idx, idx + OFFSET_WIDTH)` with every bit at a position
`≥ VIRTUAL_ADDRESS_WIDTH` read as zero, and the result is in `[0, PAGE_SIZE)`.
(For build constants related as in `Config.WF`, for which `idx` and the number of
bits are the non-negative `int`s of the source.) -/
theorem getOffset_bits (cfg : Config) (hwf : cfg.WF) (va d : Nat) (_hd : d ≤ cfg.TABLES_DEPTH) :
    (cfg.TABLES_DEPTH - d) * cfg.OFFSET_WIDTH < cfg.VIRTUAL_ADDRESS_WIDTH ∧
    getOffset cfg va d =
      (va >>> ((cfg.TABLES_DEPTH - d) * cfg.OFFSET_WIDTH)) %
        2 ^ (min (cfg.VIRTUAL_ADDRESS_WIDTH - (cfg.TABLES_DEPTH - d) * cfg.OFFSET_WIDTH)
          cfg.OFFSET_WIDTH) ∧
    (∀ i, (getOffset cfg va d).testBit i =
      (decide (i < cfg.OFFSET_WIDTH) &&
        decide ((cfg.TABLES_DEPTH - d) * cfg.OFFSET_WIDTH + i < cfg.VIRTUAL_ADDRESS_WIDTH) &&
        va.testBit ((cfg.TABLES_DEPTH - d) * cfg.OFFSET_WIDTH + i))) ∧
    getOffset cfg va d < PAGE_SIZE cfg := by
  have hidx : (cfg.TABLES_DEPTH - d) * cfg.OFFSET_WIDTH ≤ cfg.TABLES_DEPTH * cfg.OFFSET_WIDTH :=
    Nat.mul_le_mul_right _ (Nat.sub_le _ _)
  have hgt := hwf.vaw_gt
  have hmin : ∀ x y : Nat, MIN x y = min x y := by
    intro x y; unfold MIN; split <;> omega
  have hval : getOffset cfg va d =
      (va >>> ((cfg.TABLES_DEPTH - d) * cfg.OFFSET_WIDTH)) %
        2 ^ (min (cfg.VIRTUAL_ADDRESS_WIDTH - (cfg.TABLES_DEPTH - d) * cfg.OFFSET_WIDTH)
          cfg.OFFSET_WIDTH) := by
    unfold getOffset
    simp only [GET_BITS_eq, hmin, Nat.shiftRight_eq_div_pow]
    apply Nat.mod_eq_of_lt
    apply lt_of_lt_of_le (Nat.mod_lt _ (by positivity))
    unfold PAGE_SIZE
    exact Nat.pow_le_pow_right (by norm_num) (min_le_right _ _)
  refine ⟨by omega, hval, ?_, getOffset_lt va d⟩
  intro i
  rw [hval, Nat.testBit_mod_two_pow, Nat.testBit_shiftRight]
  by_cases h1 : i < cfg.OFFSET_WIDTH
  · by_cases h2 : (cfg.TABLES_DEPTH - d) * cfg.OFFSET_WIDTH + i < cfg.VIRTUAL_ADDRESS_WIDTH
    · have : i < min (cfg.VIRTUAL_ADDRESS_WIDTH - (cfg.TABLES_DEPTH - d) * cfg.OFFSET_WIDTH)
          cfg.OFFSET_WIDTH := by
        rw [lt_min_iff]; omega
      simp [h1, h2, this]
    · have : ¬ i < min (cfg.VIRTUAL_ADDRESS_WIDTH - (cfg.TABLES_DEPTH - d) * cfg.OFFSET_WIDTH)
          cfg.OFFSET_WIDTH := by
        rw [lt_min_iff]; omega
      simp [h2, this]
  · have : ¬ i < min (cfg.VIRTUAL_ADDRESS_WIDTH - (cfg.TABLES_DEPTH - d) * cfg.OFFSET_WIDTH)
        cfg.OFFSET_WIDTH := by
      rw [lt_min_iff]; omega
    simp [h1, this]

/-- An instance of C14: level 0 of the address `0x375` for the constants of the
illustration. -/
theorem getOffset_bits_witness :
    getOffset cfgDemo 0x375 0 =
      (0x375 >>> ((cfgDemo.TABLES_DEPTH - 0) * cfgDemo.OFFSET_WIDTH)) %
        2 ^ (min (cfgDemo.VIRTUAL_ADDRESS_WIDTH - (cfgDemo.TABLES_DEPTH - 0) * cfgDemo.OFFSET_WIDTH)
          cfgDemo.OFFSET_WIDTH) :=
  (getOffset_bits cfgDemo cfgDemo_wf 0x375 0 (by decide)).2.1

/-- C15: for all page numbers `a, b < NUM_PAGES`, `getCyclicDistance(a, b) =
min(|a - b|, NUM_PAGES - |a - b|)`, computed without unsigned wrap-around; hence it
is symmetric in its arguments, at most `NUM_PAGES / 2`, and equal to 0 if and only
if `a = b`. (For build constants related as in `Config.WF`.) -/
theorem getCyclicDistance_eq_min (cfg : Config) (hwf : cfg.WF) (a b : Nat)
    (ha : a < NUM_PAGES cfg) (hb : b < NUM_PAGES cfg) :
    getCyclicDistance cfg a b = min (Nat.dist a b) (NUM_PAGES cfg - Nat.dist a b) ∧
    getCyclicDistance cfg a b = getCyclicDistance cfg b a ∧
    getCyclicDistance cfg a b ≤ NUM_PAGES cfg / 2 ∧
    (getCyclicDistance cfg a b = 0 ↔ a = b) := by
  have hN := NUM_PAGES_lt hwf
  have key : ∀ x y : Nat, x < NUM_PAGES cfg → y < NUM_PAGES cfg →
      getCyclicDistance cfg x y = min (Nat.dist x y) (NUM_PAGES cfg - Nat.dist x y) := by
    intro x y hx hy
    unfold getCyclicDistance MIN U64 Nat.dist
    simp only []
    split
    · have e : (y + 2 ^ 64 - x) % 2 ^ 64 = y - x := by
        rw [show y + 2 ^ 64 - x = (y - x) + 2 ^ 64 by omega, Nat.add_mod_right]
        exact Nat.mod_eq_of_lt (by omega)
      rw [e]
      have e2 : (NUM_PAGES cfg + 2 ^ 64 - (y - x)) % 2 ^ 64 = NUM_PAGES cfg - (y - x) := by
        rw [show NUM_PAGES cfg + 2 ^ 64 - (y - x) = (NUM_PAGES cfg - (y - x)) + 2 ^ 64 by omega,
          Nat.add_mod_right]
        exact Nat.mod_eq_of_lt (by omega)
      rw [e2]
      split <;> omega
    · have e : (x + 2 ^ 64 - y) % 2 ^ 64 = x - y := by
        rw [show x + 2 ^ 64 - y = (x - y) + 2 ^ 64 by omega, Nat.add_mod_right]
        exact Nat.mod_eq_of_lt (by omega)
      rw [e]
      have e2 : (NUM_PAGES cfg + 2 ^ 64 - (x - y)) % 2 ^ 64 = NUM_PAGES cfg - (x - y) := by
        rw [show NUM_PAGES cfg + 2 ^ 64 - (x - y) = (NUM_PAGES cfg - (x - y)) + 2 ^ 64 by omega,
          Nat.add_mod_right]
        exact Nat.mod_eq_of_lt (by omega)
      rw [e2]
      split <;> omega
  have hab := key a b ha hb
  have hba := key b a hb ha
  refine ⟨hab, ?_, ?_, ?_⟩
  · rw [hab, hba, Nat.dist_comm]
  · rw [hab]; unfold Nat.dist; omega
  · rw [hab]; unfold Nat.dist
    constructor
    · intro h; omega
    · intro h; subst h; simp

/-- An instance of C15: the pages 3 and 250 of 256 are at cyclic distance 9. -/
theorem getCyclicDistance_eq_min_witness :
    getCyclicDistance cfgDemo 3 250 = min (Nat.dist 3 250) (NUM_PAGES cfgDemo - Nat.dist 3 250) :=
  (getCyclicDistance_eq_min cfgDemo cfgDemo_wf 3 250 (by decide) (by decide)).1

/-- C16: assume `NUM_FRAMES ≥ TABLES_DEPTH + 1`. In every state reachable from
`VMinitialize` by `VMread`/`VMwrite` calls the page table is a strict tree: no frame
number is stored in two different slots of tables reachable from the root, no frame
reached through a slot is frame 0 (a slot holding 0 is empty), no frame is its own
ancestor, and the frame numbers stored in the tree are exactly `1, ..., m` for some
`m < NUM_FRAMES`. (For build constants related as in `Config.WF`.) -/
theorem reachable_strict_tree (cfg : Config) (hwf : cfg.WF)
    (hNF : cfg.NUM_FRAMES ≥ cfg.TABLES_DEPTH + 1) (pm : PM) (hr : Reachable cfg pm) :
    (∀ p f o q f' o', Reach cfg pm.ram p f → p.length < cfg.TABLES_DEPTH → o < PAGE_SIZE cfg →
      Reach cfg pm.ram q f' → q.length < cfg.TABLES_DEPTH → o' < PAGE_SIZE cfg →
      entry cfg pm.ram f o ≠ 0 → entry cfg pm.ram f o = entry cfg pm.ram f' o' →
      f = f' ∧ o = o') ∧
    (∀ p g, Reach cfg pm.ram p g → p ≠ [] → g ≠ 0) ∧
    (∀ p q g, Reach cfg pm.ram p g → Reach cfg pm.ram (p ++ q) g → q = []) ∧
    ∃ m, m < cfg.NUM_FRAMES ∧
      ∀ g, (∃ p, p ≠ [] ∧ Reach cfg pm.ram p g) ↔ (1 ≤ g ∧ g ≤ m) := by
  obtain ⟨m, T⟩ := Reachable.inv hwf hNF hr
  refine ⟨?_, ?_, ?_, m, T.bound, ?_⟩
  · intro p f o q f' o' hp hpl ho hq hql ho' hne heq
    have h1 := Reach.extend hp hpl ho hne
    have h2 := Reach.extend hq hql ho' (heq ▸ hne)
    rw [← heq] at h2
    have h3 := T.inj _ _ _ h1 h2
    obtain ⟨h4, h5⟩ := List.append_inj' h3 rfl
    subst h4
    exact ⟨Reach.unique hp hq, by simpa using h5⟩
  · intro p g hp hne
    exact hp.ne_root hne
  · intro p q g hp hpq
    have := T.inj _ _ _ hp hpq
    simpa using this
  · intro g
    constructor
    · rintro ⟨p, hne, hp⟩
      exact ⟨Nat.one_le_iff_ne_zero.2 (hp.ne_root hne), T.range _ _ hp⟩
    · rintro ⟨h1, h2⟩
      obtain ⟨p, hp⟩ := T.surj g h1 h2
      refine ⟨p, ?_, hp⟩
      rintro rfl
      have := Reach.nil_eq hp
      omega

/-- An instance of C16: in the state after `VMinitialize` and `VMwrite(13, 3)` on a
memory of zeros the frames stored in the tree are `1, ..., m` for some `m`. -/
theorem reachable_strict_tree_witness :
    ∃ m, m < cfgDemo.NUM_FRAMES ∧
      ∀ g, (∃ p, p ≠ [] ∧
        Reach cfgDemo (Op.run cfgDemo ( VMinitialize cfgDemo pmZero) (Op.write 13 3)).ram p g) ↔
        (1 ≤ g ∧ g ≤ m) :=
  (reachable_strict_tree cfgDemo cfgDemo_wf (by decide) _
    (Reachable.step (Op.write 13 3) (Reachable.init pmZero))).2.2.2

/-- C17: assume `NUM_FRAMES ≥ TABLES_DEPTH + 1`. From the state produced by
`VMinitialize` on arbitrary physical memory, `VMwrite(a, v)` for any valid `a`
succeeds and calls `PMevict` never (the record of operations grows by operations
none of which is a `PMevict`, and the backing store is unchanged); at each level
`i = 0 .. TABLES_DEPTH - 1` the walk is at frame `i`, finds the slot empty and
obtains frame `i + 1` from the engine; afterwards the frames reached from the root
are exactly `0, 1, ..., TABLES_DEPTH`, frame `j` along the first `j` slots of `a`:
the link of level `i` sits in slot `getOffset(a, i)` of frame `i` and holds
`i + 1`, every other slot of the frames `0 .. TABLES_DEPTH - 1` is empty, and `v`
is stored at offset `getOffset(a, TABLES_DEPTH)` of frame `TABLES_DEPTH`. (For
build constants related as in `Config.WF`.) -/
theorem first_write_single_path (cfg : Config) (hwf : cfg.WF)
    (hNF : cfg.NUM_FRAMES ≥ cfg.TABLES_DEPTH + 1) (pm0 : PM) (a : Nat) (v : Int)
    (ha : a < VIRTUAL_MEMORY_SIZE cfg) :
    (VMwrite cfg ( VMinitialize cfg pm0) a v).ret = SUCCESS ∧
    (∃ ops, (VMwrite cfg ( VMinitialize cfg pm0) a v).pm.log = pm0.log ++ ops ∧
      ∀ f p, PMOp.evict f p ∉ ops) ∧
    (VMwrite cfg ( VMinitialize cfg pm0) a v).pm.swap = pm0.swap ∧
    (∀ i, i < cfg.TABLES_DEPTH →
      (walkUpTo cfg ( VMinitialize cfg pm0) a i).2 = i ∧
      entry cfg (walkUpTo cfg ( VMinitialize cfg pm0) a i).1.ram
        (walkUpTo cfg ( VMinitialize cfg pm0) a i).2 (getOffset cfg a i) = 0 ∧
      (getEmptyFrame cfg (walkUpTo cfg ( VMinitialize cfg pm0) a i).1 (a >>> cfg.OFFSET_WIDTH)
        (walkUpTo cfg ( VMinitialize cfg pm0) a i).2 i).2 = i + 1) ∧
    (∀ p g, Reach cfg (VMwrite cfg ( VMinitialize cfg pm0) a v).pm.ram p g ↔
      ∃ j, j ≤ cfg.TABLES_DEPTH ∧
        p = ((List.range cfg.TABLES_DEPTH).map (getOffset cfg a)).take j ∧ g = j) ∧
    (∀ i, i < cfg.TABLES_DEPTH →
      entry cfg (VMwrite cfg ( VMinitialize cfg pm0) a v).pm.ram i (getOffset cfg a i) = i + 1 ∧
      ∀ o, o < PAGE_SIZE cfg → o ≠ getOffset cfg a i →
        entry cfg (VMwrite cfg ( VMinitialize cfg pm0) a v).pm.ram i o = 0) ∧
    (VMwrite cfg ( VMinitialize cfg pm0) a v).pm.ram
      (cfg.TABLES_DEPTH * PAGE_SIZE cfg + getOffset cfg a cfg.TABLES_DEPTH) = v := by
  have hinv : ¬ INVALID cfg a (some v) = true := by
    unfold INVALID
    simp
    exact ha
  obtain ⟨h1, h2, h3, h4, ops, h5, h6⟩ := first_walk hwf hNF pm0 ha cfg.TABLES_DEPTH (Nat.le_refl _)
  have hoff := @getOffset_lt cfg a cfg.TABLES_DEPTH
  have hnf := hwf.nf_le
  have haddr : getPhysicalAddress cfg (walkUpTo cfg ( VMinitialize cfg pm0) a cfg.TABLES_DEPTH).2
      (getOffset cfg a cfg.TABLES_DEPTH) =
      cfg.TABLES_DEPTH * PAGE_SIZE cfg + getOffset cfg a cfg.TABLES_DEPTH := by
    rw [h1, getPhysicalAddress_eq cfg hwf _ _ (by omega) hoff]
  have hrw : VMwrite cfg ( VMinitialize cfg pm0) a v =
      { pm := PMwrite (walkUpTo cfg ( VMinitialize cfg pm0) a cfg.TABLES_DEPTH).1
          (cfg.TABLES_DEPTH * PAGE_SIZE cfg + getOffset cfg a cfg.TABLES_DEPTH) v,
        ret := SUCCESS, value := some v } := by
    unfold VMwrite ReadWrite
    rw [if_neg hinv]
    simp only []
    rw [if_neg (by decide : ¬ WRITE = READ), haddr]
    rfl
  have hreach : ∀ p g, Reach cfg (PMwrite (walkUpTo cfg ( VMinitialize cfg pm0) a cfg.TABLES_DEPTH).1
      (cfg.TABLES_DEPTH * PAGE_SIZE cfg + getOffset cfg a cfg.TABLES_DEPTH) v).ram p g ↔
      ∃ j, j ≤ cfg.TABLES_DEPTH ∧ p = (vaPath cfg a).take j ∧ g = j := by
    intro p g
    rw [← h3 p g]
    apply Reach.congr_iff
    intro q f hq hl o ho
    obtain ⟨j, hj, hp, hf⟩ := (h3 q f).1 hq
    have hjl : j < cfg.TABLES_DEPTH := by
      rw [hp, vaPath_take_length a hj] at hl
      exact hl
    subst hf
    rw [entry_eq hwf _ (by omega) ho, entry_eq hwf _ (by omega) ho, PMwrite_ram, if_neg]
    intro heq
    have := (addr_inj ho hoff heq).1
    omega
  rw [hrw]
  refine ⟨rfl, ⟨ops ++ [PMOp.write _ v], by rw [PMwrite_log, h5, List.append_assoc], ?_⟩,
    by rw [PMwrite_swap, h4], ?_, hreach, single_path_entries (Nat.le_refl _) hreach, ?_⟩
  · intro f p h
    simp only [List.mem_append, List.mem_singleton, reduceCtorEq, or_false] at h
    exact h6 f p h
  · intro i hi
    obtain ⟨w1, w2, w3, _⟩ := first_walk hwf hNF pm0 ha i (Nat.le_of_lt hi)
    obtain ⟨s1, s2, _⟩ := first_walk_step hwf hNF ha hi _ w1 w2 w3
    exact ⟨w1, s1, s2⟩
  · simp only []
    rw [PMwrite_ram, if_pos rfl]

/-- An instance of C17: `VMwrite(13, 3)` after `VMinitialize` on a memory of zeros
stores 3 at offset 13 of frame 2. -/
theorem first_write_single_path_witness :
    (VMwrite cfgDemo ( VMinitialize cfgDemo pmZero) 13 3).pm.ram
      (cfgDemo.TABLES_DEPTH * PAGE_SIZE cfgDemo + getOffset cfgDemo 13 cfgDemo.TABLES_DEPTH) = 3 :=
  (first_write_single_path cfgDemo cfgDemo_wf (by decide) pmZero 13 3 (by decide)).2.2.2.2.2.2

/-- C18: for every memory state whatsoever (no assumption is made on the entries of
the tables) the `DFS` started by `getEmptyFrame` at depth 0 terminates: a bound of
`TABLES_DEPTH` on the recursion depth is never reached by a call that would recurse,
so the outputs and the sequence of calls are the same for every larger bound. Each
recursive call is at the depth of its caller plus one and a call at depth
`TABLES_DEPTH` makes none (the recursion of `calls`, whose frames are those of the
visits of which `DFS` is the fold), so every call is at a depth `≤ TABLES_DEPTH`,
and at most `PAGE_SIZE ^ d` calls, that is, visited frames, are at depth `d`. -/
theorem DFS_terminates_within_depth (cfg : Config) (ram : Nat → Int) (page source_frame : Nat) :
    (∀ fuel, cfg.TABLES_DEPTH ≤ fuel →
      DFS cfg ram page source_frame fuel DfsState.init 0 0 0 0
        = DFSroot cfg ram page source_frame) ∧
    (∀ fuel, cfg.TABLES_DEPTH ≤ fuel →
      calls cfg ram fuel 0 0 = calls cfg ram cfg.TABLES_DEPTH 0 0) ∧
    DFSroot cfg ram page source_frame
      = (visits cfg ram cfg.TABLES_DEPTH 0 0 0 0).foldl
          (Visit.apply cfg page source_frame) DfsState.init ∧
    (calls cfg ram cfg.TABLES_DEPTH 0 0).map Prod.snd
      = (visits cfg ram cfg.TABLES_DEPTH 0 0 0 0).filterMap Visit.frame ∧
    (∀ c ∈ calls cfg ram cfg.TABLES_DEPTH 0 0, c.1 ≤ cfg.TABLES_DEPTH) ∧
    (∀ d, (calls cfg ram cfg.TABLES_DEPTH 0 0).countP (fun c => decide (c.1 = d))
      ≤ PAGE_SIZE cfg ^ d) := by
  refine ⟨?_, ?_, DFSroot_eq page source_frame, calls_eq_visits _ 0 0 0 0, ?_, ?_⟩
  · intro fuel h
    unfold DFSroot
    exact DFS_fuel page source_frame fuel cfg.TABLES_DEPTH _ 0 0 0 0 (Nat.zero_le _)
      (by omega) (by omega)
  · intro fuel h
    exact calls_fuel fuel cfg.TABLES_DEPTH 0 0 (Nat.zero_le _) (by omega) (by omega)
  · intro c hc
    exact (calls_depth cfg.TABLES_DEPTH 0 0 (Nat.zero_le _) c hc).2
  · intro d
    have := @calls_count cfg ram cfg.TABLES_DEPTH 0 0 d (Nat.zero_le _) (Nat.zero_le _)
    simpa using this

/-- C19: for every virtual address `va < VIRTUAL_MEMORY_SIZE`, folding the slot
offsets of the driver the way `DFS` builds page numbers, `acc := (acc <<
OFFSET_WIDTH) | getOffset(va, i)` for `i = 0 .. TABLES_DEPTH - 1` from 0, gives
`va >> OFFSET_WIDTH`, and `(va >> OFFSET_WIDTH) * PAGE_SIZE + getOffset(va,
TABLES_DEPTH) = va`; hence, in every memory, the page number with which the
traversal arrives at the frame at the end of the slots of `va` is the page number
the driver passes to the engine and to `PMrestore`. (For build constants related as
in `Config.WF`.) -/
theorem page_number_round_trip (cfg : Config) (hwf : cfg.WF) (va : Nat)
    (hva : va < VIRTUAL_MEMORY_SIZE cfg) :
    (List.range cfg.TABLES_DEPTH).foldl (fun acc i => vaStep cfg acc (getOffset cfg va i)) 0 =
      va >>> cfg.OFFSET_WIDTH ∧
    (va >>> cfg.OFFSET_WIDTH) * PAGE_SIZE cfg + getOffset cfg va cfg.TABLES_DEPTH = va ∧
    (∀ (ram : Nat → Int) (father g q : Nat),
      Arrives cfg ram 0 0 0 0 ((List.range cfg.TABLES_DEPTH).map (getOffset cfg va)) father g q →
        q = va >>> cfg.OFFSET_WIDTH) := by
  have h1 : (List.range cfg.TABLES_DEPTH).foldl
      (fun acc i => vaStep cfg acc (getOffset cfg va i)) 0 = va >>> cfg.OFFSET_WIDTH := by
    rw [← pageNum_vaPath hwf hva]
    unfold pageNum vaPath
    rw [List.foldl_map]
  refine ⟨h1, ?_, ?_⟩
  · rw [getOffset_last hwf hva, shiftRight_eq_div, Nat.mul_comm]
    exact Nat.div_add_mod va (PAGE_SIZE cfg)
  · intro ram father g q h
    rw [h.va_eq, ← pageNum_vaPath hwf hva]
    rfl

/-- An instance of C19: the address `0x375` for the constants of the illustration. -/
theorem page_number_round_trip_witness :
    (0x375 >>> cfgDemo.OFFSET_WIDTH) * PAGE_SIZE cfgDemo +
      getOffset cfgDemo 0x375 cfgDemo.TABLES_DEPTH = 0x375 :=
  (page_number_round_trip cfgDemo cfgDemo_wf 0x375 (by decide)).2.1

/-- C20: for every memory state and every valid address `a` (with a non-null
`value`) such that the slot the walk reads at each level `i = 0 .. TABLES_DEPTH - 1`
is non-zero, `VMread(a)` succeeds and performs no `PMwrite`, `PMevict` or
`PMrestore`: the state after the call, physical memory, backing store and record
of operations, is the state before it, and the value delivered is the word at the
physical address `leaf frame * PAGE_SIZE + getOffset(a, TABLES_DEPTH)`, where the
leaf frame is the frame at the end of the slots of `a`. (For build constants
related as in `Config.WF`.) -/
theorem VMread_present_no_effect (cfg : Config) (hwf : cfg.WF) (pm : PM) (a : Nat) (buf : Int)
    (ha : a < VIRTUAL_MEMORY_SIZE cfg)
    (hl : ∀ i, i < cfg.TABLES_DEPTH →
      entry cfg (walkUpTo cfg pm a i).1.ram (walkUpTo cfg pm a i).2 (getOffset cfg a i) ≠ 0) :
    (VMread cfg pm a (some buf)).pm = pm ∧
    (VMread cfg pm a (some buf)).ret = SUCCESS ∧
    ∃ leaf, Reach cfg pm.ram ((List.range cfg.TABLES_DEPTH).map (getOffset cfg a)) leaf ∧
      (VMread cfg pm a (some buf)).value =
        some (pm.ram (leaf * PAGE_SIZE cfg + getOffset cfg a cfg.TABLES_DEPTH)) := by
  obtain ⟨h1, h2⟩ := @walkUpTo_present cfg pm a cfg.TABLES_DEPTH (Nat.le_refl _) hl
  have hinv : ¬ INVALID cfg a (some buf) = true := by
    unfold INVALID
    simp
    exact ha
  have htake : (vaPath cfg a).take cfg.TABLES_DEPTH = vaPath cfg a := by
    apply List.take_of_length_le
    rw [vaPath_length]
  rw [htake] at h2
  have hrw : VMread cfg pm a (some buf) =
      { pm := (walkUpTo cfg pm a cfg.TABLES_DEPTH).1, ret := SUCCESS,
        value := some (PMread (walkUpTo cfg pm a cfg.TABLES_DEPTH).1
          (getPhysicalAddress cfg (walkUpTo cfg pm a cfg.TABLES_DEPTH).2
            (getOffset cfg a cfg.TABLES_DEPTH))) } := by
    unfold VMread ReadWrite
    rw [if_neg hinv]
    simp only [if_true]
  rw [hrw]
  refine ⟨h1, rfl, (walkUpTo cfg pm a cfg.TABLES_DEPTH).2, h2, ?_⟩
  simp only []
  rw [h1]
  unfold PMread
  rw [getPhysicalAddress_eq cfg hwf _ _ (Nat.le_of_lt h2.lt_word) (getOffset_lt a _)]

/-- An instance of C20: reading address 3 in the memory whose only leaf is frame 2. -/
theorem VMread_present_no_effect_witness :
    (VMread cfgDemo pmOneLeaf 3 (some 0)).pm = pmOneLeaf :=
  (VMread_present_no_effect cfgDemo cfgDemo_wf pmOneLeaf 3 0 (by decide) (by decide)).1

end VirtualMemory
